import Mathlib

/-!
# SpectralEQ: a three-band parametric equaliser with an FFT analyser

A shallow embedding of `SpectralEQAudioProcessor` (`Source/PluginProcessor.{h,cpp}`;
the copy under `NewProject/Source` differs only in comments and layout).

* Samples live in an arbitrary field `K`; the results about filter design are
  stated over the real numbers, the results about the analysis buffer hold for
  every `K`.
* `std::array<float, n>` members are functions `Nat → K` (index to value); the
  write cursor is shown to stay inside the buffer separately.
* A stereo `juce::AudioBuffer<float>` is a list of frames `K × K`
  (channel 0, channel 1), so both channels always have the same length.
* The routines of the C++ standard library and of JUCE that the processor calls
  are not part of the repository.  Elementary functions, the windowing table
  and the forward transform are parameters (`Math`, `Library`); the
  decibel conversions, the peaking design and the biquad section are modelled
  from the specification and are marked as such.
-/

namespace SpectralEQ

/-! ## Constants (`PluginProcessor.h`) -/

/-- The constant `static constexpr size_t fftOrder = 10;` -/
def fftOrder : Nat := 10

/-- The constant `static constexpr size_t fftSize = 1 << fftOrder;` -/
def fftSize : Nat := 1 <<< fftOrder

/-! ## Library parameters -/

/-- Elementary functions of the C++ standard library used by the filter design
and the decibel conversions (`std::sin`, `std::cos`, `std::sqrt`, `std::pow`,
`std::log10`) together with the constant pi. -/
structure Math (K : Type) where
  pi : K
  sin : K → K
  cos : K → K
  sqrt : K → K
  pow : K → K → K
  log10 : K → K

/-- The library as seen by the processor: the elementary functions, the table
of `juce::dsp::WindowingFunction<float> window { fftSize, hann }`, the transform
`juce::dsp::FFT::performRealOnlyForwardTransform` on the `2 * fftSize` array and
the default floor of `juce::Decibels::gainToDecibels`. -/
structure Library (K : Type) where
  math : Math K
  windowingTable : Nat → K
  performRealOnlyForwardTransform : (Nat → K) → Nat → K
  defaultMinusInfinitydB : K

/-! ## Decibel conversions -/

/-- Modelled from the spec: `juce::Decibels::decibelsToGain (decibels, minusInfinityDb)`
is library code that is not in the repository.  Spec 4.1: the linear gain is
"derived from decibel gain via `10^(dB/20)`, with a configurable lower floor
... clamp decibel input at or above [the floor] before conversion". -/
def decibelsToGain {K : Type} [LinearOrderedField K] (m : Math K)
    (decibels minusInfinityDb : K) : K :=
  m.pow 10 (max decibels minusInfinityDb / 20)

/-- Modelled from the spec: `juce::Decibels::gainToDecibels (gain)` is library
code that is not in the repository.  Spec 4.4 step (4): "converts magnitude to
decibels via `20*log10(magnitude)` (with a floor for magnitude ≈ 0 to avoid
-infinity)". -/
def gainToDecibels {K : Type} [LinearOrderedField K] (lib : Library K) (gain : K) : K :=
  if 0 < gain then max lib.defaultMinusInfinitydB (20 * lib.math.log10 gain)
  else lib.defaultMinusInfinitydB

/-! ## Coefficient calculator -/

/-- Five normalised biquad coefficients (`juce::dsp::IIR::Coefficients<float>`):
feed-forward `b0 b1 b2`, feedback `a1 a2`, all already divided by `a0`. -/
structure Coefficients (K : Type) where
  b0 : K
  b1 : K
  b2 : K
  a1 : K
  a2 : K
deriving DecidableEq

/-- Modelled from the spec: the gain root `A = sqrt (gainFactor)` of the
audio-EQ cookbook peaking design (`makePeakFilter` is library code that is not in
the repository). -/
def peakA {K : Type} (m : Math K) (gainFactor : K) : K :=
  m.sqrt gainFactor

/-- Modelled from the spec: the normalised angular frequency
`omega = 2 * pi * frequency / sampleRate` of the cookbook design. -/
def peakOmega {K : Type} [Field K] (m : Math K) (sampleRate frequency : K) : K :=
  2 * m.pi * frequency / sampleRate

/-- Modelled from the spec: `alpha = sin (omega) / (2 * Q)` of the cookbook design. -/
def peakAlpha {K : Type} [Field K] (m : Math K) (sampleRate frequency Q : K) : K :=
  m.sin (peakOmega m sampleRate frequency) / (2 * Q)

/-- Modelled from the spec: the normalising denominator `a0 = 1 + alpha / A` of
the cookbook peaking design. -/
def peakA0 {K : Type} [Field K] (m : Math K) (sampleRate frequency Q gainFactor : K) : K :=
  1 + peakAlpha m sampleRate frequency Q / peakA m gainFactor

/-- Modelled from the spec: `juce::dsp::IIR::Coefficients<float>::makePeakFilter
(sampleRate, frequency, Q, gainFactor)` is library code that is not in the
repository.  Spec 4.1: "five coefficients implementing a peaking (bell) filter
using the standard audio-EQ cookbook design equations":
`b0 = 1 + alpha*A`, `b1 = -2 cos omega`, `b2 = 1 - alpha*A`,
`a0 = 1 + alpha/A`, `a1 = -2 cos omega`, `a2 = 1 - alpha/A`, normalised by `a0`. -/
def makePeakFilter {K : Type} [Field K] (m : Math K)
    (sampleRate frequency Q gainFactor : K) : Coefficients K :=
  let A := peakA m gainFactor
  let alpha := peakAlpha m sampleRate frequency Q
  let c2 := -2 * m.cos (peakOmega m sampleRate frequency)
  let a0 := peakA0 m sampleRate frequency Q gainFactor
  { b0 := (1 + alpha * A) / a0
    b1 := c2 / a0
    b2 := (1 - alpha * A) / a0
    a1 := c2 / a0
    a2 := (1 - alpha / A) / a0 }

/-! ## Band filter -/

/-- Band filter state of one channel (spec 3): "the last two input and output
samples consumed by the biquad difference equation". -/
structure DelayLine (K : Type) where
  x1 : K
  x2 : K
  y1 : K
  y2 : K
deriving DecidableEq

/-- The zeroed delay line (`reset()`). -/
def DelayLine.zero {K : Type} [Zero K] : DelayLine K :=
  { x1 := 0, x2 := 0, y1 := 0, y2 := 0 }

/-- Modelled from the spec: `juce::dsp::IIR::Filter<float>` is library code that
is not in the repository.  Spec 4.2: `processSample` "applies the standard
second-order difference equation and updates that channel's delay line":
`y[n] = b0 x[n] + b1 x[n-1] + b2 x[n-2] - a1 y[n-1] - a2 y[n-2]`. -/
def processSample {K : Type} [Ring K] (c : Coefficients K) (d : DelayLine K) (x : K) :
    K × DelayLine K :=
  let y := c.b0 * x + c.b1 * d.x1 + c.b2 * d.x2 - c.a1 * d.y1 - c.a2 * d.y2
  (y, { x1 := x, x2 := d.x1, y1 := y, y2 := d.y1 })

/-- One biquad section run over the samples of one channel: the outputs and
the delay line left behind. -/
def processChannel {K : Type} [Ring K] (c : Coefficients K) :
    DelayLine K → List K → List K × DelayLine K
  | d, [] => ([], d)
  | d, x :: xs =>
    let r := processSample c d x
    let rest := processChannel c r.2 xs
    (r.1 :: rest.1, rest.2)

/-- The type `using PeakFilter = juce::dsp::ProcessorDuplicator<Filter, Coeffs>;`: one
shared coefficient object (`state`) and one filter per channel. -/
structure PeakFilter (K : Type) where
  state : Coefficients K
  left : DelayLine K
  right : DelayLine K
deriving DecidableEq

/-- Spec 4.2 `reset()`: "zeroes both channels' delay lines". -/
def PeakFilter.reset {K : Type} [Zero K] (f : PeakFilter K) : PeakFilter K :=
  { f with left := DelayLine.zero, right := DelayLine.zero }

/-- One stereo frame through one band: each channel through its own filter. -/
def PeakFilter.processFrame {K : Type} [Ring K] (f : PeakFilter K) (frame : K × K) :
    (K × K) × PeakFilter K :=
  let l := processSample f.state f.left frame.1
  let r := processSample f.state f.right frame.2
  ((l.1, r.1), { f with left := l.2, right := r.2 })

/-- The member `juce::dsp::ProcessorChain<PeakFilter, PeakFilter, PeakFilter> filterChain;` -/
structure FilterChain (K : Type) where
  get0 : PeakFilter K
  get1 : PeakFilter K
  get2 : PeakFilter K
deriving DecidableEq

/-- The call `filterChain.prepare (spec)`: spec 6 "resets all Band Filter delay lines". -/
def FilterChain.prepare {K : Type} [Zero K] (fc : FilterChain K) : FilterChain K :=
  { get0 := fc.get0.reset, get1 := fc.get1.reset, get2 := fc.get2.reset }

/-- Modelled from the spec: one frame of `filterChain.process` (library code that
is not in the repository).  Spec 4.3: "for every sample frame, passes the frame
through Band Filter 1, then 2, then 3, in place, per channel independently". -/
def FilterChain.processFrame {K : Type} [Ring K] (fc : FilterChain K) (frame : K × K) :
    (K × K) × FilterChain K :=
  let r0 := fc.get0.processFrame frame
  let r1 := fc.get1.processFrame r0.1
  let r2 := fc.get2.processFrame r1.1
  (r2.1, { get0 := r0.2, get1 := r1.2, get2 := r2.2 })

/-- Modelled from the spec: `filterChain.process (context)` on a whole block,
frame after frame, replacing the samples. -/
def FilterChain.process {K : Type} [Ring K] :
    FilterChain K → List (K × K) → List (K × K) × FilterChain K
  | fc, [] => ([], fc)
  | fc, frame :: rest =>
    let r := fc.processFrame frame
    let t := FilterChain.process r.2 rest
    (r.1 :: t.1, t.2)

/-! ## The processor -/

/-- Current values of the three parameters of one band (`freqParam->get()`,
`gainParam->get()`, `qParam->get()`). -/
structure BandParameters (K : Type) where
  freq : K
  gain : K
  q : K
deriving DecidableEq

/-- The state of `SpectralEQAudioProcessor`. `sampleRate` is the value returned by
`getSampleRate()`; the band fields are the values the parameter store returns;
`fifoIndex` (an `int` in the source) is a natural number, since it starts at 0
and is only incremented or reset to 0. -/
structure Processor (K : Type) where
  sampleRate : K
  band1 : BandParameters K
  band2 : BandParameters K
  band3 : BandParameters K
  filterChain : FilterChain K
  fifo : Nat → K
  fifoIndex : Nat
  nextFFTBlockReady : Bool
  fftData : Nat → K
  scopeData : Nat → K
  newDataReady : Bool

/-- The lambda `updatePeakFilter` of `updateFilterChain`: convert the gain with
floor `-60`, design the peaking section, assign it to `*peakFilter.state`. -/
def updatePeakFilter {K : Type} [LinearOrderedField K] (m : Math K) (peakFilter : PeakFilter K)
    (freq gainDb Q sampleRate : K) : PeakFilter K :=
  let gainLinear := decibelsToGain m gainDb (-60)
  let coeffs := makePeakFilter m sampleRate freq Q gainLinear
  { peakFilter with state := coeffs }

/-- The method `SpectralEQAudioProcessor::updateFilterChain`: each band in turn
is handed its three current parameter values and the sample rate. -/
def updateFilterChain {K : Type} [LinearOrderedField K] (m : Math K) (s : Processor K) :
    Processor K :=
  let sampleRate := s.sampleRate
  { s with
    filterChain :=
      { get0 := updatePeakFilter m s.filterChain.get0
                  s.band1.freq s.band1.gain s.band1.q sampleRate
        get1 := updatePeakFilter m s.filterChain.get1
                  s.band2.freq s.band2.gain s.band2.q sampleRate
        get2 := updatePeakFilter m s.filterChain.get2
                  s.band3.freq s.band3.gain s.band3.q sampleRate } }

/-- The method `SpectralEQAudioProcessor::prepareToPlay`. The host stores the sample rate
that `getSampleRate()` returns before it makes this call. -/
def prepareToPlay {K : Type} [LinearOrderedField K] (m : Math K) (s : Processor K)
    (sampleRate : K) (_samplesPerBlock : Nat) : Processor K :=
  let s1 := { s with sampleRate := sampleRate, filterChain := s.filterChain.prepare }
  let s2 := updateFilterChain m s1
  { s2 with fifoIndex := 0, nextFFTBlockReady := false, fifo := fun _ => 0 }

/-- One iteration of the loop of `processBlock` (lines 86-93): store the sample
at the cursor, advance, wrap and raise the flag at `fftSize`. -/
def pushSample {K : Type} (s : Processor K) (x : K) : Processor K :=
  let fifo := fun j => if j = s.fifoIndex then x else s.fifo j
  let fifoIndex := s.fifoIndex + 1
  if fifoIndex = fftSize then
    { s with fifo := fifo, fifoIndex := 0, nextFFTBlockReady := true }
  else
    { s with fifo := fifo, fifoIndex := fifoIndex }

/-- The loop of `processBlock` (lines 84-94) over `leftChannelData`. -/
def pushSamples {K : Type} (s : Processor K) (leftChannelData : List K) : Processor K :=
  leftChannelData.foldl pushSample s

/-- The call `window.multiplyWithWindowingTable (samples, size)`: the first `size`
samples are multiplied in place by the table. -/
def multiplyWithWindowingTable {K : Type} [Mul K] (lib : Library K) (samples : Nat → K)
    (size : Nat) : Nat → K :=
  fun i => if i < size then samples i * lib.windowingTable i else samples i

/-- The array handed to the forward transform (lines 102-103): the windowed
fifo in the first `fftSize` places, zero after that. -/
def transformInput {K : Type} [Zero K] (fifo : Nat → K) : Nat → K :=
  fun i => if i < fftSize then fifo i else 0

/-- The conditional of `processBlock` (lines 96-119). -/
def produceSnapshot {K : Type} [LinearOrderedField K] (lib : Library K) (s : Processor K) :
    Processor K :=
  if s.nextFFTBlockReady then
    let fifo := multiplyWithWindowingTable lib s.fifo fftSize
    let fftData := lib.performRealOnlyForwardTransform (transformInput fifo)
    let scopeData := fun i =>
      if i < fftSize / 2 then
        let real := fftData (i * 2)
        let imag := fftData (i * 2 + 1)
        let magnitude := lib.math.sqrt (real * real + imag * imag)
        gainToDecibels lib magnitude
      else s.scopeData i
    { s with
      fifo := fifo
      fftData := fftData
      scopeData := scopeData
      newDataReady := true
      nextFFTBlockReady := false }
  else s

/-- The analysis half of `processBlock` (lines 83-119) as a function of the
samples read through `leftChannelData`. -/
def analyse {K : Type} [LinearOrderedField K] (lib : Library K) (s : Processor K)
    (leftChannelData : List K) : Processor K :=
  produceSnapshot lib (pushSamples s leftChannelData)

/-- The filtering half of `processBlock` (lines 74-80): refresh the
coefficients, run the chain over the buffer in place.  The state with the new
coefficients and delay lines, and the buffer as it is left. -/
def filterBlock {K : Type} [LinearOrderedField K] (m : Math K) (s : Processor K)
    (buffer : List (K × K)) : Processor K × List (K × K) :=
  let s1 := updateFilterChain m s
  let r := s1.filterChain.process buffer
  ({ s1 with filterChain := r.2 }, r.1)

/-- The method `SpectralEQAudioProcessor::processBlock`: the new state and the buffer as it
is left for the host. -/
def processBlock {K : Type} [LinearOrderedField K] (lib : Library K) (s : Processor K)
    (buffer : List (K × K)) : Processor K × List (K × K) :=
  let r := filterBlock lib.math s buffer
  (analyse lib r.1 (r.2.map Prod.fst), r.2)

/-! ## Runs of the processor -/

/-- What the host can do between two blocks: hand a block to `processBlock`, or
change the nine parameter values. -/
inductive Event (K : Type) where
  | processBlock (buffer : List (K × K))
  | setParameters (band1 band2 band3 : BandParameters K)

/-- The state after one event. -/
def step {K : Type} [LinearOrderedField K] (lib : Library K) (s : Processor K) :
    Event K → Processor K
  | .processBlock buffer => (processBlock lib s buffer).1
  | .setParameters b1 b2 b3 => { s with band1 := b1, band2 := b2, band3 := b3 }

/-- The state after a sequence of events. -/
def run {K : Type} [LinearOrderedField K] (lib : Library K) (s : Processor K)
    (events : List (Event K)) : Processor K :=
  events.foldl (step lib) s

/-- States reachable from `prepareToPlay`. -/
def Reachable {K : Type} [LinearOrderedField K] (lib : Library K) (s : Processor K) : Prop :=
  ∃ (s0 : Processor K) (sampleRate : K) (samplesPerBlock : Nat) (events : List (Event K)),
    s = run lib (prepareToPlay lib.math s0 sampleRate samplesPerBlock) events

/-- Whether this `processBlock` call enters the conditional of line 96, that is
whether the windowing and the forward transform run in it. -/
def transformRuns {K : Type} [LinearOrderedField K] (lib : Library K) (s : Processor K)
    (buffer : List (K × K)) : Bool :=
  let r := filterBlock lib.math s buffer
  (pushSamples r.1 (r.2.map Prod.fst)).nextFFTBlockReady

/-- How many times the windowing and the forward transform run during a
sequence of events. -/
def transformCount {K : Type} [LinearOrderedField K] (lib : Library K) :
    Processor K → List (Event K) → Nat
  | _, [] => 0
  | s, e :: rest =>
    (match e with
      | .processBlock buffer => if transformRuns lib s buffer then 1 else 0
      | .setParameters _ _ _ => 0)
    + transformCount lib (step lib s e) rest

/-- The total number of samples pushed into the analyser by a sequence of
events. -/
def samplesPushed {K : Type} : List (Event K) → Nat
  | [] => 0
  | .processBlock buffer :: rest => buffer.length + samplesPushed rest
  | .setParameters _ _ _ :: rest => samplesPushed rest

/-- The number of `processBlock` calls in a sequence of events. -/
def blockCalls {K : Type} : List (Event K) → Nat
  | [] => 0
  | .processBlock _ :: rest => 1 + blockCalls rest
  | .setParameters _ _ _ :: rest => blockCalls rest

/-- From `SpectralEQAudioProcessor::createParameterLayout`: the declared range of a
band's frequency, `NormalisableRange<float> (20.0f, 20000.0f, ...)`. -/
def InFreqRange {K : Type} [LinearOrderedField K] (freq : K) : Prop :=
  20 ≤ freq ∧ freq ≤ 20000

/-- From `createParameterLayout`: the declared range of a band's gain in decibels,
`NormalisableRange<float> (-24.0f, 24.0f, 0.1f)`. -/
def InGainRange {K : Type} [LinearOrderedField K] (gainDb : K) : Prop :=
  -24 ≤ gainDb ∧ gainDb ≤ 24

/-- From `createParameterLayout`: the declared range of a band's Q,
`NormalisableRange<float> (0.1f, 10.0f, 0.01f)`. -/
def InQRange {K : Type} [LinearOrderedField K] (Q : K) : Prop :=
  1 / 10 ≤ Q ∧ Q ≤ 10

/-- The constructor `SpectralEQAudioProcessor::SpectralEQAudioProcessor`: the
three arrays are filled with zero, the cursor and the flags take their member
initialisers, the parameters take the defaults of `createParameterLayout`.  The
default-constructed filter chain belongs to the library and is an argument;
the sample rate is the one of an unprepared `juce::AudioProcessor`. -/
def construct {K : Type} [LinearOrderedField K] (chain : FilterChain K) : Processor K :=
  { sampleRate := 0
    band1 := { freq := 200, gain := 0, q := 1 }
    band2 := { freq := 1000, gain := 0, q := 1 }
    band3 := { freq := 5000, gain := 0, q := 1 }
    filterChain := chain
    fifo := fun _ => 0
    fifoIndex := 0
    nextFFTBlockReady := false
    fftData := fun _ => 0
    scopeData := fun _ => 0
    newDataReady := false }

/-- The fifo contents that reach line 99 when `leftChannelData` is pushed from
state `s`: the values that are windowed and transformed if the flag is up. -/
def windowedValues {K : Type} (s : Processor K) (leftChannelData : List K) : Nat → K :=
  (pushSamples s leftChannelData).fifo

/-- Between two calls the cursor is inside the buffer and the flag is down. -/
def Inv {K : Type} (s : Processor K) : Prop :=
  s.fifoIndex < fftSize ∧ s.nextFFTBlockReady = false

/-- The coefficients held by the three bands. -/
def coefficients {K : Type} (s : Processor K) :
    Coefficients K × Coefficients K × Coefficients K :=
  (s.filterChain.get0.state, s.filterChain.get1.state, s.filterChain.get2.state)

/-- The coefficients of a band as a function of its three parameter values and
the sample rate, as the lambda of `updateFilterChain` computes them. -/
def bandCoefficients {K : Type} [LinearOrderedField K] (m : Math K) (band : BandParameters K)
    (sampleRate : K) : Coefficients K :=
  makePeakFilter m sampleRate band.freq band.q (decibelsToGain m band.gain (-60))

/-! ## Transfer function and poles of a section -/

/-- Coefficients carried along a map of the scalars. -/
def Coefficients.map {K F : Type} (f : K → F) (c : Coefficients K) : Coefficients F :=
  { b0 := f c.b0, b1 := f c.b1, b2 := f c.b2, a1 := f c.a1, a2 := f c.a2 }

/-- The transfer function of the difference equation of `processSample`:
`H(z) = (b0 + b1 z⁻¹ + b2 z⁻²) / (1 + a1 z⁻¹ + a2 z⁻²)`. -/
def transferFunction {F : Type} [Field F] (c : Coefficients F) (z : F) : F :=
  (c.b0 + c.b1 * z⁻¹ + c.b2 * z⁻¹ ^ 2) / (1 + c.a1 * z⁻¹ + c.a2 * z⁻¹ ^ 2)

/-- The poles of the section: the roots of `z² + a1 z + a2`, that is of the
normalised denominator `1 + a1 z⁻¹ + a2 z⁻²` multiplied by `z²`. -/
def IsPole {F : Type} [Field F] (c : Coefficients F) (z : F) : Prop :=
  z ^ 2 + c.a1 * z + c.a2 = 0

/-- A section with real coefficients is stable when all its poles lie strictly
inside the unit circle. -/
def Stable (c : Coefficients ℝ) : Prop :=
  ∀ z : ℂ, IsPole (c.map Complex.ofReal) z → Complex.abs z < 1

/-! ## The elementary functions over the real numbers -/

/-- The elementary functions as the real functions they approximate. -/
noncomputable def realMath : Math ℝ :=
  { pi := Real.pi
    sin := Real.sin
    cos := Real.cos
    sqrt := Real.sqrt
    pow := fun x y => x ^ y
    log10 := Real.logb 10 }

/-! ## A stand-in library over the rationals

Used only to exhibit concrete runs of the model; no statement about the filter
design or about the spectrum is made with it. -/

/-- Stand-in elementary functions over `ℚ`. -/
def ratMath : Math ℚ :=
  { pi := 22 / 7
    sin := fun _ => 0
    cos := fun _ => 1
    sqrt := fun x => x
    pow := fun _ _ => 1
    log10 := fun _ => 0 }

/-- Stand-in library over `ℚ`: rectangular window, the transform leaves the
array as it is. -/
def ratLibrary : Library ℚ :=
  { math := ratMath
    windowingTable := fun _ => 1
    performRealOnlyForwardTransform := fun a => a
    defaultMinusInfinitydB := -100 }

/-- A pass-through band with zeroed delay lines. -/
def ratBand : PeakFilter ℚ :=
  { state := { b0 := 1, b1 := 0, b2 := 0, a1 := 0, a2 := 0 }
    left := DelayLine.zero
    right := DelayLine.zero }

/-- A freshly constructed processor over `ℚ`. -/
def ratProcessor : Processor ℚ :=
  construct { get0 := ratBand, get1 := ratBand, get2 := ratBand }

/-! ## Further notions about the analysis half -/

/-- The cursor positions at which the loop of `processBlock` (line 86) writes,
one for each sample of `leftChannelData`, in order. -/
def writeIndices {K : Type} : Processor K → List K → List Nat
  | _, [] => []
  | s, x :: xs => s.fifoIndex :: writeIndices (pushSample s x) xs

/-- The post-filter samples of channel 0 for a block whose channel 0 is `left`:
the three sections in series with the coefficients of the current parameter
values and the left delay lines of state `s`. -/
def postFilterLeft {K : Type} [LinearOrderedField K] (m : Math K) (s : Processor K)
    (left : List K) : List K :=
  (processChannel (bandCoefficients m s.band3 s.sampleRate) s.filterChain.get2.left
    (processChannel (bandCoefficients m s.band2 s.sampleRate) s.filterChain.get1.left
      (processChannel (bandCoefficients m s.band1 s.sampleRate) s.filterChain.get0.left
        left).1).1).1

/-! ## Saved state -/

/-- What `setStateInformation` uses of the library, for an XML element type
`Xml`: the decoder `getXmlFromBinary (data, sizeInBytes)` (a null result is
`none`), the test `xml->hasTagName (name)`, and the nine parameter values that
are in memory once `apvts.replaceState (juce::ValueTree::fromXml (*xml))` has
run, given those before it. The bytes of the blob are natural numbers. -/
structure Persistence (K : Type) (Xml : Type) where
  getXmlFromBinary : List Nat → Option Xml
  hasTagName : Xml → String → Bool
  replaceState : Xml → BandParameters K × BandParameters K × BandParameters K →
    BandParameters K × BandParameters K × BandParameters K

/-- The method `SpectralEQAudioProcessor::setStateInformation`; `stateType` is the
value of `apvts.state.getType()` at the call. -/
def setStateInformation {K Xml : Type} (io : Persistence K Xml) (stateType : String)
    (s : Processor K) (data : List Nat) : Processor K :=
  match io.getXmlFromBinary data with
  | some xml =>
    if io.hasTagName xml stateType then
      let r := io.replaceState xml (s.band1, s.band2, s.band3)
      { s with band1 := r.1, band2 := r.2.1, band3 := r.2.2 }
    else s
  | none => s

/-- A malformed blob: it does not decode to an XML element, or it decodes to
an element that does not have the tag name of the parameter state's type. -/
def Malformed {K Xml : Type} (io : Persistence K Xml) (stateType : String)
    (data : List Nat) : Prop :=
  io.getXmlFromBinary data = none
  ∨ ∃ xml, io.getXmlFromBinary data = some xml ∧ io.hasTagName xml stateType = false

/-- A stand-in decoder over `ℚ` whose elements are their tag names: the empty
blob does not decode, every other blob decodes to the element `Other`; a state
that is installed sets every parameter to zero. -/
def ratPersistence : Persistence ℚ String :=
  { getXmlFromBinary := fun data => if data = [] then none else some "Other"
    hasTagName := fun xml name => xml == name
    replaceState := fun _ _ =>
      ({ freq := 0, gain := 0, q := 0 }, { freq := 0, gain := 0, q := 0 },
        { freq := 0, gain := 0, q := 0 }) }

/-! ## The hand-off of the snapshot to the editor -/

/-- The method `SpectralEQAudioProcessorEditor::timerCallback`:
`newDataReady.exchange (false)`; the result says whether `repaint ()` is called. -/
def timerCallback {K : Type} (s : Processor K) : Bool × Processor K :=
  (s.newDataReady, { s with newDataReady := false })

/-- One step of an interleaving of the audio callback and the editor's timer,
each taken as a whole: an event of the processor, or a timer callback. -/
inductive UiEvent (K : Type) where
  | audio (e : Event K)
  | timer

/-- The state after one step of an interleaving. -/
def uiStep {K : Type} [LinearOrderedField K] (lib : Library K) (s : Processor K) :
    UiEvent K → Processor K
  | .audio e => step lib s e
  | .timer => (timerCallback s).2

/-- The state after an interleaving. -/
def uiRun {K : Type} [LinearOrderedField K] (lib : Library K) (s : Processor K)
    (events : List (UiEvent K)) : Processor K :=
  events.foldl (uiStep lib) s

/-- What the timer callbacks of an interleaving observe, in order. -/
def repaints {K : Type} [LinearOrderedField K] (lib : Library K) :
    Processor K → List (UiEvent K) → List Bool
  | _, [] => []
  | s, .audio e :: rest => repaints lib (step lib s e) rest
  | s, .timer :: rest => (timerCallback s).1 :: repaints lib (timerCallback s).2 rest

/-- What a step does to the ready flag: `publish` (a `processBlock` call in which
the transform runs, line 117), `poll` (a timer callback) or neither. -/
inductive FlagStep where
  | publish
  | poll
  | idle
deriving DecidableEq

/-- The kind of each step of an interleaving started in state `s`. -/
def flagTrace {K : Type} [LinearOrderedField K] (lib : Library K) :
    Processor K → List (UiEvent K) → List FlagStep
  | _, [] => []
  | s, .audio (.processBlock buffer) :: rest =>
    (if transformRuns lib s buffer then FlagStep.publish else FlagStep.idle)
      :: flagTrace lib (step lib s (.processBlock buffer)) rest
  | s, .audio (.setParameters b1 b2 b3) :: rest =>
    FlagStep.idle :: flagTrace lib (step lib s (.setParameters b1 b2 b3)) rest
  | s, .timer :: rest => FlagStep.poll :: flagTrace lib (timerCallback s).2 rest

/-- The steps made since the previous poll (or since the start). -/
def sincePoll (trace : List FlagStep) : List FlagStep :=
  (trace.reverse.takeWhile (fun x => decide (x ≠ FlagStep.poll))).reverse

/-- The flag after one step. -/
def flagStep (flag : Bool) : FlagStep → Bool
  | .publish => true
  | .poll => false
  | .idle => flag

/-- The flag after a sequence of steps. -/
def flagRun (flag : Bool) (trace : List FlagStep) : Bool :=
  trace.foldl flagStep flag

/-- What the polls of a sequence of steps observe, in order. -/
def flagObservations : Bool → List FlagStep → List Bool
  | _, [] => []
  | flag, .poll :: rest => flag :: flagObservations false rest
  | flag, x :: rest => flagObservations (flagStep flag x) rest

/-- A poll occurs between each two consecutive publishes. -/
def Spaced (trace : List FlagStep) : Prop :=
  ∀ a b c, trace = a ++ FlagStep.publish :: b ++ FlagStep.publish :: c → FlagStep.poll ∈ b

/-! ## The stream fed to the analyser and the inputs of the transform -/

/-- The post-filter channel-0 samples that a sequence of events pushes into the
fifo, in order. -/
def leftStream {K : Type} [LinearOrderedField K] (lib : Library K) :
    Processor K → List (Event K) → List K
  | _, [] => []
  | s, .processBlock buffer :: rest =>
    (filterBlock lib.math s buffer).2.map Prod.fst
      ++ leftStream lib (step lib s (.processBlock buffer)) rest
  | s, .setParameters b1 b2 b3 :: rest =>
    leftStream lib (step lib s (.setParameters b1 b2 b3)) rest

/-- The arrays handed to the forward transform (line 106) during a sequence of
events, one for each time the transform runs, in order. -/
def transformInputs {K : Type} [LinearOrderedField K] (lib : Library K) :
    Processor K → List (Event K) → List (Nat → K)
  | _, [] => []
  | s, .processBlock buffer :: rest =>
    (if transformRuns lib s buffer then
      [transformInput (multiplyWithWindowingTable lib
        (windowedValues (filterBlock lib.math s buffer).1
          ((filterBlock lib.math s buffer).2.map Prod.fst)) fftSize)]
    else [])
      ++ transformInputs lib (step lib s (.processBlock buffer)) rest
  | s, .setParameters b1 b2 b3 :: rest =>
    transformInputs lib (step lib s (.setParameters b1 b2 b3)) rest

/-- Every window completion coincides with the end of a `processBlock` call: no
call pushes past the end of the window it is filling. -/
def Aligned {K : Type} [LinearOrderedField K] (lib : Library K) :
    Processor K → List (Event K) → Prop
  | _, [] => True
  | s, .processBlock buffer :: rest =>
    s.fifoIndex + buffer.length ≤ fftSize
      ∧ Aligned lib (step lib s (.processBlock buffer)) rest
  | s, .setParameters b1 b2 b3 :: rest =>
    Aligned lib (step lib s (.setParameters b1 b2 b3)) rest

/-! ## The two threads step by step

The audio thread and the message thread as two programs over the shared
`scopeData` and `newDataReady`, one array element access or one flag operation
per step, interleaved by a schedule. -/

/-- The shared snapshot (`scopeData`, `newDataReady`), the audio thread within
the loop of lines 109-117 (`pending`: the arrays that the transforms still to
come will convert; `bin`: the next bin to write; `published`: the arrays
already published) and the message thread within `timerCallback` and `paint`
(`painting`: the bin that `paint` reads next, `none` while waiting for the
timer; `reads`: the values read so far by the running `paint`; `pictures`:
the values read by each finished `paint`; `observed`: how many timer callbacks
found the flag up). -/
structure System (K : Type) where
  scopeData : Nat → K
  newDataReady : Bool
  pending : List (Nat → K)
  bin : Nat
  published : List (Nat → K)
  painting : Option Nat
  reads : List K
  pictures : List (List K)
  observed : Nat

/-- The two threads. -/
inductive Thread where
  | audio
  | ui
deriving DecidableEq

/-- One step of the audio thread in `processBlock` lines 109-117: write the next
bin `scopeData[i]`, or, after bin `fftSize / 2 - 1`, store `true` to the flag.
With no transform to come it leaves the shared state alone. -/
def audioStep {K : Type} (st : System K) : System K :=
  match st.pending with
  | [] => st
  | v :: rest =>
    if st.bin < fftSize / 2 then
      { st with
        scopeData := fun i => if i = st.bin then v i else st.scopeData i
        bin := st.bin + 1 }
    else
      { st with
        newDataReady := true
        pending := rest
        bin := 0
        published := st.published ++ [v] }

/-- One step of the message thread: while waiting, `timerCallback`'s
`newDataReady.exchange (false)`, which starts `paint` when it returns `true`;
inside `paint` (loop `for (size_t i = 1; i < halfSize; ++i)`), the read of
`scopeData[i]`. -/
def paintStep {K : Type} (st : System K) : System K :=
  match st.painting with
  | none =>
    if st.newDataReady then
      { st with
        newDataReady := false
        painting := some 1
        reads := []
        observed := st.observed + 1 }
    else st
  | some i =>
    if i + 1 < fftSize / 2 then
      { st with painting := some (i + 1), reads := st.reads ++ [st.scopeData i] }
    else
      { st with
        painting := none
        reads := []
        pictures := st.pictures ++ [st.reads ++ [st.scopeData i]] }

/-- One step of the thread the schedule picks. -/
def sysStep {K : Type} (st : System K) : Thread → System K
  | .audio => audioStep st
  | .ui => paintStep st

/-- The state after a schedule. -/
def sysRun {K : Type} (st : System K) (schedule : List Thread) : System K :=
  schedule.foldl sysStep st

/-- The start: `scopeData` filled with zero by the constructor, the flag down,
the arrays of the transforms to come, nothing painted. -/
def sysInit {K : Type} [Zero K] (snapshots : List (Nat → K)) : System K :=
  { scopeData := fun _ => 0
    newDataReady := false
    pending := snapshots
    bin := 0
    published := []
    painting := none
    reads := []
    pictures := []
    observed := 0 }

/-- A schedule in which the second publication falls between two reads of one
`paint`: a publication (512 writes and the store), the timer callback, the
read of bin 1, a second publication, the reads of bins 2 to 511. -/
def tornSchedule : List Thread :=
  List.replicate 513 .audio ++ [.ui, .ui] ++ List.replicate 513 .audio
    ++ List.replicate 510 .ui

/-- What holds of the shared array in every state of the two threads: the bins
already written belong to the array being written, the others to the last
published one; the flag is up only after a publication; no publication is
counted twice. -/
def SysInv {K : Type} (st : System K) : Prop :=
  st.bin ≤ fftSize / 2
  ∧ (∀ v, st.published.getLast? = some v →
      ∀ i, st.bin ≤ i → i < fftSize / 2 → st.scopeData i = v i)
  ∧ (∀ v rest, st.pending = v :: rest → ∀ i, i < st.bin → st.scopeData i = v i)
  ∧ (st.newDataReady = true → st.published ≠ [])
  ∧ st.observed + (if st.newDataReady then 1 else 0) ≤ st.published.length

/-! ## The window table and the forward transform over the real numbers -/

/-- Modelled from the spec: the table of
`juce::dsp::WindowingFunction<float> window { fftSize, hann }` is library code that
is not in the repository.  Spec 4.4 step (1): "applies a Hann window function
element-wise to the buffered samples".  The Hann taper over `fftSize` points,
`1/2 - 1/2 cos (2 pi n / (fftSize - 1))`, times a constant `factor`: 1 for the
plain taper, `fftSize / (sum of the taper)` for a table normalised to unit mean. -/
noncomputable def hannTable (factor : ℝ) (n : Nat) : ℝ :=
  factor * (1 / 2 - 1 / 2 * Real.cos (2 * Real.pi * n / ((fftSize : ℝ) - 1)))

/-- Modelled from the spec: `juce::dsp::FFT::performRealOnlyForwardTransform` is
library code that is not in the repository.  Spec 4.4 step (2): "performs a
real-input forward discrete Fourier transform of size N".  The first `fftSize`
entries of the array are the input; the result holds bin `j` of the
unnormalised transform `sum_n a[n] exp (-2 pi i j n / fftSize)` as the pair
real part, imaginary part at positions `2 j` and `2 j + 1`, the layout that
lines 108-109 of `processBlock` read. -/
noncomputable def forwardTransform (a : Nat → ℝ) (i : Nat) : ℝ :=
  if i < 2 * fftSize then
    if i % 2 = 0 then
      ∑ n ∈ Finset.range fftSize,
        a n * Real.cos (2 * Real.pi * ((i / 2 : Nat) : ℝ) * n / fftSize)
    else
      -∑ n ∈ Finset.range fftSize,
        a n * Real.sin (2 * Real.pi * ((i / 2 : Nat) : ℝ) * n / fftSize)
  else a i

/-- The library over the real numbers: the real elementary functions, the Hann
table with the given scaling, the discrete Fourier transform and the floor of
-100 dB that `juce::Decibels::gainToDecibels` uses when none is passed. -/
noncomputable def realLibrary (factor : ℝ) : Library ℝ :=
  { math := realMath
    windowingTable := hannTable factor
    performRealOnlyForwardTransform := forwardTransform
    defaultMinusInfinitydB := -100 }

/-- A band at 0 dB whose design does not divide by zero: the normalising
denominator `a0` computed from the band's parameter values is not 0. -/
def FlatBand (band : BandParameters ℝ) (sampleRate : ℝ) : Prop :=
  band.gain = 0
  ∧ peakA0 realMath sampleRate band.freq band.q (decibelsToGain realMath band.gain (-60)) ≠ 0

/-- A block of `fftSize` frames whose channel 0 is the sinusoid at the exact
frequency of bin `k`, `x[n] = sin (2 pi k n / fftSize)`; channel 1 is `right`. -/
noncomputable def sinusoidBlock (k : Nat) (right : Nat → ℝ) : List (ℝ × ℝ) :=
  (List.range fftSize).map
    (fun (n : Nat) => (Real.sin (2 * Real.pi * k * n / fftSize), right n))

/-- A band over the real numbers as the default constructor leaves it. -/
noncomputable def realBand : PeakFilter ℝ :=
  { state := { b0 := 1, b1 := 0, b2 := 0, a1 := 0, a2 := 0 }
    left := DelayLine.zero
    right := DelayLine.zero }

/-- A freshly constructed processor over the real numbers. -/
noncomputable def realProcessor : Processor ℝ :=
  construct { get0 := realBand, get1 := realBand, get2 := realBand }

/-! ## Exponential sums behind the spectrum of a windowed sinusoid -/

/-- The sum of `exp (i β n)` over `n < 1024`. -/
noncomputable def expSum (β : ℝ) : ℂ :=
  ∑ n ∈ Finset.range 1024, Complex.exp (((β * n : ℝ) : ℂ) * Complex.I)

/-- The sum at the angle `2 π q / (1024 * 1023)`. -/
noncomputable def gridSum (q : ℤ) : ℂ := expSum (2 * Real.pi * q / 1047552)

/-- Twice the transform of the Hann taper at offset `m`, as a combination of
three exponential sums. -/
noncomputable def leak (m : ℤ) : ℂ :=
  gridSum (1023 * m)
    - 1 / 2 * (gridSum (1023 * (m + 1) + 1) + gridSum (1023 * (m + -1) + -1))

/-- Bin `j` of the unnormalised discrete Fourier transform of the windowed
sinusoid `factor * hann n * sin (2 π k n / 1024)`. -/
noncomputable def binValue (factor : ℝ) (k j : ℕ) : ℂ :=
  ∑ n ∈ Finset.range 1024,
    ((factor * (1 / 2 - 1 / 2 * Real.cos (2 * Real.pi * n / 1023))
        * Real.sin (2 * Real.pi * k * n / 1024) : ℝ) : ℂ)
      * Complex.exp (((-(2 * Real.pi * j * n / 1024) : ℝ) : ℂ) * Complex.I)

/-- Stand-in library over `ℚ` whose window table is the constant `1/2`, so that
a sample windowed twice differs from a sample windowed once. -/
def halfLibrary : Library ℚ :=
  { math := ratMath
    windowingTable := fun _ => 1 / 2
    performRealOnlyForwardTransform := fun a => a
    defaultMinusInfinitydB := -100 }

/-! ## The analysis buffer -/

theorem fftSize_eq : fftSize = 1024 := by decide

theorem half_fftSize : fftSize / 2 = 512 := by decide

section Push
variable {K : Type}

theorem pushSamples_nil (s : Processor K) : pushSamples s [] = s := rfl

theorem pushSamples_cons (s : Processor K) (x : K) (xs : List K) :
    pushSamples s (x :: xs) = pushSamples (pushSample s x) xs := rfl

theorem pushSamples_append (s : Processor K) (xs ys : List K) :
    pushSamples s (xs ++ ys) = pushSamples (pushSamples s xs) ys := by
  simp [pushSamples, List.foldl_append]

theorem pushSample_fifoIndex (s : Processor K) (x : K) (h : s.fifoIndex < fftSize) :
    (pushSample s x).fifoIndex = (s.fifoIndex + 1) % fftSize := by
  rw [fftSize_eq] at *
  unfold pushSample
  rw [fftSize_eq]
  by_cases hw : s.fifoIndex + 1 = 1024
  · simp [hw]
  · simp only [hw, if_false]
    omega

theorem pushSample_ready (s : Processor K) (x : K) :
    (pushSample s x).nextFFTBlockReady
      = (s.nextFFTBlockReady || decide (s.fifoIndex + 1 = fftSize)) := by
  unfold pushSample
  by_cases hw : s.fifoIndex + 1 = fftSize <;> simp [hw]

theorem pushSample_fifo (s : Processor K) (x : K) (j : Nat) :
    (pushSample s x).fifo j = if j = s.fifoIndex then x else s.fifo j := by
  unfold pushSample
  by_cases hw : s.fifoIndex + 1 = fftSize <;> simp [hw]

theorem pushSample_frame (s : Processor K) (x : K) :
    (pushSample s x).scopeData = s.scopeData
      ∧ (pushSample s x).newDataReady = s.newDataReady
      ∧ (pushSample s x).fftData = s.fftData
      ∧ (pushSample s x).filterChain = s.filterChain
      ∧ (pushSample s x).sampleRate = s.sampleRate
      ∧ (pushSample s x).band1 = s.band1
      ∧ (pushSample s x).band2 = s.band2
      ∧ (pushSample s x).band3 = s.band3 := by
  unfold pushSample
  by_cases hw : s.fifoIndex + 1 = fftSize <;> simp [hw]

theorem pushSamples_frame (xs : List K) (s : Processor K) :
    (pushSamples s xs).scopeData = s.scopeData
      ∧ (pushSamples s xs).newDataReady = s.newDataReady
      ∧ (pushSamples s xs).fftData = s.fftData
      ∧ (pushSamples s xs).filterChain = s.filterChain
      ∧ (pushSamples s xs).sampleRate = s.sampleRate
      ∧ (pushSamples s xs).band1 = s.band1
      ∧ (pushSamples s xs).band2 = s.band2
      ∧ (pushSamples s xs).band3 = s.band3 := by
  induction xs generalizing s with
  | nil => simp [pushSamples_nil]
  | cons x xs ih =>
    rw [pushSamples_cons]
    obtain ⟨h1, h2, h3, h4, h5, h6, h7, h8⟩ := ih (pushSample s x)
    obtain ⟨g1, g2, g3, g4, g5, g6, g7, g8⟩ := pushSample_frame s x
    exact ⟨h1.trans g1, h2.trans g2, h3.trans g3, h4.trans g4, h5.trans g5,
      h6.trans g6, h7.trans g7, h8.trans g8⟩

theorem pushSamples_fifoIndex (xs : List K) (s : Processor K) (h : s.fifoIndex < fftSize) :
    (pushSamples s xs).fifoIndex = (s.fifoIndex + xs.length) % fftSize := by
  induction xs generalizing s with
  | nil =>
    simp only [pushSamples_nil, List.length_nil, Nat.add_zero]
    exact (Nat.mod_eq_of_lt h).symm
  | cons x xs ih =>
    have h1 := pushSample_fifoIndex s x h
    have h2 : (pushSample s x).fifoIndex < fftSize := by
      rw [h1]; exact Nat.mod_lt _ (by rw [fftSize_eq]; decide)
    rw [pushSamples_cons, ih _ h2, h1, List.length_cons]
    rw [fftSize_eq]
    omega

theorem pushSamples_ready (xs : List K) (s : Processor K) (h : s.fifoIndex < fftSize) :
    (pushSamples s xs).nextFFTBlockReady
      = (s.nextFFTBlockReady || decide (fftSize ≤ s.fifoIndex + xs.length)) := by
  induction xs generalizing s with
  | nil =>
    have : ¬ fftSize ≤ s.fifoIndex := Nat.not_le.mpr h
    simp [pushSamples_nil, this]
  | cons x xs ih =>
    have h1 := pushSample_fifoIndex s x h
    have h2 : (pushSample s x).fifoIndex < fftSize := by
      rw [h1]; exact Nat.mod_lt _ (by rw [fftSize_eq]; decide)
    rw [pushSamples_cons, ih _ h2, h1, pushSample_ready, List.length_cons, Bool.or_assoc]
    congr 1
    rw [fftSize_eq] at *
    by_cases hw : s.fifoIndex + 1 = 1024
    · have : 1024 ≤ s.fifoIndex + (xs.length + 1) := by omega
      simp [hw, this]
    · have e : (s.fifoIndex + 1) % 1024 = s.fifoIndex + 1 := by omega
      simp only [hw, decide_False, Bool.false_or, e]
      congr 1
      apply propext
      constructor <;> intro h' <;> omega

/-- The fifo after `xs` has been pushed from cursor 0: the positions below the
cursor hold the window being filled, the others the last completed one. -/
theorem pushSamples_fifo (d : K) (s : Processor K) (h : s.fifoIndex = 0) (xs : List K)
    (j : Nat) (hj : j < fftSize) :
    (pushSamples s xs).fifo j =
      if j < xs.length % fftSize then xs.getD (xs.length / fftSize * fftSize + j) d
      else if fftSize ≤ xs.length then xs.getD ((xs.length / fftSize - 1) * fftSize + j) d
      else s.fifo j := by
  induction xs using List.reverseRecOn with
  | nil => simp [pushSamples_nil, fftSize_eq]
  | append_singleton ys y ih =>
    have hc : (pushSamples s ys).fifoIndex = ys.length % fftSize := by
      rw [pushSamples_fifoIndex ys s (by rw [h, fftSize_eq]; decide), h, Nat.zero_add]
    rw [pushSamples_append, pushSamples_cons, pushSamples_nil, pushSample_fifo, hc, ih]
    rw [fftSize_eq] at *
    simp only [List.length_append, List.length_singleton]
    by_cases hjy : j = ys.length % 1024
    · rw [if_pos hjy]
      by_cases hw : ys.length % 1024 + 1 = 1024
      · have h1 : ¬ j < (ys.length + 1) % 1024 := by omega
        have h2 : 1024 ≤ ys.length + 1 := by omega
        have h3 : ((ys.length + 1) / 1024 - 1) * 1024 + j = ys.length := by omega
        rw [if_neg h1, if_pos h2, h3]
        simp [List.getD_eq_getElem?_getD]
      · have h1 : j < (ys.length + 1) % 1024 := by omega
        have h3 : (ys.length + 1) / 1024 * 1024 + j = ys.length := by omega
        rw [if_pos h1, h3]
        simp [List.getD_eq_getElem?_getD]
    · rw [if_neg hjy]
      by_cases hw : ys.length % 1024 + 1 = 1024
      · have h1 : ¬ j < (ys.length + 1) % 1024 := by omega
        have h2 : 1024 ≤ ys.length + 1 := by omega
        have h4 : j < ys.length % 1024 := by omega
        have h3 : ((ys.length + 1) / 1024 - 1) * 1024 + j = ys.length / 1024 * 1024 + j := by
          omega
        have h5 : ys.length / 1024 * 1024 + j < ys.length := by omega
        rw [if_neg h1, if_pos h2, if_pos h4, h3]
        simp [List.getD_eq_getElem?_getD, List.getElem?_append_left h5]
      · by_cases h4 : j < ys.length % 1024
        · have h1 : j < (ys.length + 1) % 1024 := by omega
          have h3 : (ys.length + 1) / 1024 * 1024 + j = ys.length / 1024 * 1024 + j := by
            omega
          have h5 : ys.length / 1024 * 1024 + j < ys.length := by omega
          rw [if_pos h1, if_pos h4, h3]
          simp [List.getD_eq_getElem?_getD, List.getElem?_append_left h5]
        · have h1 : ¬ j < (ys.length + 1) % 1024 := by omega
          rw [if_neg h1, if_neg h4]
          by_cases h2 : 1024 ≤ ys.length
          · have h2' : 1024 ≤ ys.length + 1 := by omega
            have h3 : ((ys.length + 1) / 1024 - 1) * 1024 + j
                = (ys.length / 1024 - 1) * 1024 + j := by omega
            have h5 : (ys.length / 1024 - 1) * 1024 + j < ys.length := by omega
            rw [if_pos h2, if_pos h2', h3]
            simp [List.getD_eq_getElem?_getD, List.getElem?_append_left h5]
          · have h2' : ¬ 1024 ≤ ys.length + 1 := by omega
            rw [if_neg h2, if_neg h2']

theorem windowedValues_eq (s : Processor K) (xs : List K) :
    windowedValues s xs = (pushSamples s xs).fifo := rfl

/-- Replacing the filter chain commutes with pushing a sample. -/
theorem pushSample_withChain (s : Processor K) (fc : FilterChain K) (x : K) :
    pushSample { s with filterChain := fc } x
      = { pushSample s x with filterChain := fc } := by
  by_cases hw : s.fifoIndex + 1 = fftSize
  · simp [pushSample, hw]
  · simp [pushSample, hw]

/-- Replacing the filter chain commutes with pushing samples. -/
theorem pushSamples_withChain (xs : List K) (s : Processor K) (fc : FilterChain K) :
    pushSamples { s with filterChain := fc } xs
      = { pushSamples s xs with filterChain := fc } := by
  induction xs generalizing s with
  | nil => rfl
  | cons x xs ih => rw [pushSamples_cons, pushSample_withChain, ih, pushSamples_cons]

theorem withChain_fifoIndex (s : Processor K) (fc : FilterChain K) :
    ({ s with filterChain := fc } : Processor K).fifoIndex = s.fifoIndex := rfl

/-- The fifo once 1440 samples have been pushed from cursor 0. -/
theorem fifo_after_1440 (g : Processor K) (hc : g.fifoIndex = 0) (L : List K)
    (hL : L.length = 1440) (d : K) :
    (pushSamples g L).nextFFTBlockReady = true
    ∧ (∀ i, i < 416 → (pushSamples g L).fifo i = L.getD (1024 + i) d)
    ∧ (∀ i, 416 ≤ i → i < 1024 → (pushSamples g L).fifo i = L.getD i d) := by
  have hlt : g.fifoIndex < fftSize := by rw [hc, fftSize_eq]; decide
  refine ⟨?_, ?_, ?_⟩
  · rw [pushSamples_ready _ _ hlt, hc, hL, fftSize_eq]
    simp
  · intro i hi
    rw [pushSamples_fifo d g hc _ i (by rw [fftSize_eq]; omega), hL, fftSize_eq]
    have h1 : i < 1440 % 1024 := by omega
    have h2 : 1440 / 1024 * 1024 + i = 1024 + i := by omega
    rw [if_pos h1, h2]
  · intro i hi hi'
    rw [pushSamples_fifo d g hc _ i (by rw [fftSize_eq]; omega), hL, fftSize_eq]
    have h1 : ¬ i < 1440 % 1024 := by omega
    have h3 : (1024 : Nat) ≤ 1440 := by decide
    have h2 : (1440 / 1024 - 1) * 1024 + i = i := by omega
    rw [if_neg h1, if_pos h3, h2]

theorem writeIndices_lt (xs : List K) (s : Processor K) (h : s.fifoIndex < fftSize) :
    ∀ j ∈ writeIndices s xs, j < fftSize := by
  induction xs generalizing s with
  | nil => intro j hj; simp [writeIndices] at hj
  | cons x xs ih =>
    intro j hj
    simp only [writeIndices, List.mem_cons] at hj
    rcases hj with hj | hj
    · rw [hj]; exact h
    · refine ih (pushSample s x) ?_ j hj
      rw [pushSample_fifoIndex s x h]
      exact Nat.mod_lt _ (by rw [fftSize_eq]; decide)

/-- The fifo after pushes that do not go past the end of the buffer: the
positions from the cursor on hold the pushed samples, the others are as before. -/
theorem pushSamples_fifo_nowrap (d : K) (xs : List K) (s : Processor K)
    (h : s.fifoIndex + xs.length ≤ fftSize) (j : Nat) :
    (pushSamples s xs).fifo j =
      if s.fifoIndex ≤ j ∧ j < s.fifoIndex + xs.length then xs.getD (j - s.fifoIndex) d
      else s.fifo j := by
  induction xs generalizing s with
  | nil =>
    have : ¬ (s.fifoIndex ≤ j ∧ j < s.fifoIndex + ([] : List K).length) := by
      simp only [List.length_nil, Nat.add_zero]
      omega
    rw [pushSamples_nil, if_neg this]
  | cons x xs ih =>
    rw [List.length_cons] at h
    rw [pushSamples_cons]
    by_cases hw : s.fifoIndex + 1 = fftSize
    · have hxs : xs = [] := List.eq_nil_of_length_eq_zero (by omega)
      subst hxs
      rw [pushSamples_nil, pushSample_fifo]
      by_cases hj : j = s.fifoIndex
      · have : s.fifoIndex ≤ j ∧ j < s.fifoIndex + [x].length := by
          simp only [List.length_singleton]
          omega
        rw [if_pos hj, if_pos this, hj, Nat.sub_self]
        rfl
      · have : ¬ (s.fifoIndex ≤ j ∧ j < s.fifoIndex + [x].length) := by
          simp only [List.length_singleton]
          omega
        rw [if_neg hj, if_neg this]
    · have hlt : s.fifoIndex < fftSize := by omega
      have hc : (pushSample s x).fifoIndex = s.fifoIndex + 1 := by
        rw [pushSample_fifoIndex s x hlt]
        exact Nat.mod_eq_of_lt (by omega)
      rw [ih (pushSample s x) (by rw [hc]; omega), hc, pushSample_fifo, List.length_cons]
      by_cases hj : j = s.fifoIndex
      · have h1 : ¬ (s.fifoIndex + 1 ≤ j ∧ j < s.fifoIndex + 1 + xs.length) := by omega
        have h2 : s.fifoIndex ≤ j ∧ j < s.fifoIndex + (xs.length + 1) := by omega
        rw [if_neg h1, if_pos hj, if_pos h2, hj, Nat.sub_self]
        rfl
      · rw [if_neg hj]
        by_cases hr : s.fifoIndex + 1 ≤ j ∧ j < s.fifoIndex + 1 + xs.length
        · have h2 : s.fifoIndex ≤ j ∧ j < s.fifoIndex + (xs.length + 1) := by omega
          have h3 : j - s.fifoIndex = (j - (s.fifoIndex + 1)) + 1 := by omega
          rw [if_pos hr, if_pos h2, h3, List.getD_cons_succ]
        · have h2 : ¬ (s.fifoIndex ≤ j ∧ j < s.fifoIndex + (xs.length + 1)) := by omega
          rw [if_neg hr, if_neg h2]


end Push

/-! ## Invariant of the analysis state -/

section Analysis
variable {K : Type} [LinearOrderedField K]

theorem process_length (fc : FilterChain K) (buffer : List (K × K)) :
    (fc.process buffer).1.length = buffer.length := by
  induction buffer generalizing fc with
  | nil => rfl
  | cons frame rest ih => simp [FilterChain.process, ih]

theorem produceSnapshot_fifoIndex (lib : Library K) (s : Processor K) :
    (produceSnapshot lib s).fifoIndex = s.fifoIndex := by
  unfold produceSnapshot
  split <;> rfl

theorem produceSnapshot_ready (lib : Library K) (s : Processor K) :
    (produceSnapshot lib s).nextFFTBlockReady = false := by
  unfold produceSnapshot
  split
  · rfl
  · simpa using ‹¬ s.nextFFTBlockReady = true›

theorem produceSnapshot_idle (lib : Library K) (s : Processor K)
    (h : s.nextFFTBlockReady = false) : produceSnapshot lib s = s := by
  simp [produceSnapshot, h]

theorem analyse_idle (lib : Library K) (s : Processor K) (xs : List K) (hs : Inv s)
    (h : s.fifoIndex + xs.length < fftSize) : analyse lib s xs = pushSamples s xs := by
  unfold analyse
  apply produceSnapshot_idle
  rw [pushSamples_ready xs s hs.1, hs.2]
  simp [Nat.not_le.mpr h]

theorem analyse_inv (lib : Library K) (s : Processor K) (xs : List K) (hs : Inv s) :
    Inv (analyse lib s xs) := by
  refine ⟨?_, produceSnapshot_ready lib _⟩
  unfold analyse
  rw [produceSnapshot_fifoIndex, pushSamples_fifoIndex xs s hs.1]
  exact Nat.mod_lt _ (by rw [fftSize_eq]; decide)

theorem prepareToPlay_inv (m : Math K) (s : Processor K) (sampleRate : K)
    (samplesPerBlock : Nat) : Inv (prepareToPlay m s sampleRate samplesPerBlock) :=
  ⟨by simp [prepareToPlay, fftSize_eq], rfl⟩

theorem step_inv (lib : Library K) (s : Processor K) (e : Event K) (hs : Inv s) :
    Inv (step lib s e) := by
  cases e with
  | processBlock buffer => exact analyse_inv lib _ _ hs
  | setParameters b1 b2 b3 => exact hs

theorem run_inv (lib : Library K) (events : List (Event K)) (s : Processor K) (hs : Inv s) :
    Inv (run lib s events) := by
  induction events generalizing s with
  | nil => exact hs
  | cons e rest ih => exact ih _ (step_inv lib s e hs)

theorem reachable_inv (lib : Library K) (s : Processor K) (h : Reachable lib s) : Inv s := by
  obtain ⟨s0, sampleRate, samplesPerBlock, events, rfl⟩ := h
  exact run_inv lib events _ (prepareToPlay_inv _ _ _ _)

/-- The transform runs in a call exactly when the cursor reaches `fftSize`
during it. -/
theorem transformRuns_eq (lib : Library K) (s : Processor K) (buffer : List (K × K))
    (hs : Inv s) :
    transformRuns lib s buffer = decide (fftSize ≤ s.fifoIndex + buffer.length) := by
  have hi : (filterBlock lib.math s buffer).1.fifoIndex < fftSize := hs.1
  have hf : (filterBlock lib.math s buffer).1.nextFFTBlockReady = false := hs.2
  have hl : (filterBlock lib.math s buffer).2.length = buffer.length := process_length _ _
  have hc : (filterBlock lib.math s buffer).1.fifoIndex = s.fifoIndex := rfl
  unfold transformRuns
  rw [pushSamples_ready _ _ hi, hf, List.length_map, hl, hc, Bool.false_or]

theorem step_fifoIndex (lib : Library K) (s : Processor K) (buffer : List (K × K))
    (hs : Inv s) :
    (step lib s (.processBlock buffer)).fifoIndex
      = (s.fifoIndex + buffer.length) % fftSize := by
  have hi : (filterBlock lib.math s buffer).1.fifoIndex < fftSize := hs.1
  have hl : (filterBlock lib.math s buffer).2.length = buffer.length := process_length _ _
  have hc : (filterBlock lib.math s buffer).1.fifoIndex = s.fifoIndex := rfl
  show (analyse lib (filterBlock lib.math s buffer).1 _).fifoIndex = _
  unfold analyse
  rw [produceSnapshot_fifoIndex, pushSamples_fifoIndex _ _ hi, List.length_map, hl, hc]

/-- Each transform accounts for `fftSize` pushed samples of its own. -/
theorem transformCount_bound (lib : Library K) (events : List (Event K)) (s : Processor K)
    (hs : Inv s) :
    fftSize * transformCount lib s events + (run lib s events).fifoIndex
      ≤ s.fifoIndex + samplesPushed events := by
  induction events generalizing s with
  | nil => simp [transformCount, samplesPushed, run]
  | cons e rest ih =>
    have ih' := ih (step lib s e) (step_inv lib s e hs)
    cases e with
    | processBlock buffer =>
      have hc := step_fifoIndex lib s buffer hs
      have hr := transformRuns_eq lib s buffer hs
      have hrun : run lib s (Event.processBlock buffer :: rest)
          = run lib (step lib s (.processBlock buffer)) rest := rfl
      simp only [transformCount, samplesPushed, hrun, hr]
      rw [hc] at ih'
      have hlt := hs.1
      rw [fftSize_eq] at *
      by_cases hw : 1024 ≤ s.fifoIndex + buffer.length
      · simp only [hw, decide_True, if_true]
        omega
      · simp only [hw, decide_False]
        have : (s.fifoIndex + buffer.length) % 1024 = s.fifoIndex + buffer.length := by omega
        rw [this] at ih'
        simp only [Bool.false_eq_true, if_false]
        omega
    | setParameters b1 b2 b3 =>
      have hrun : run lib s (Event.setParameters b1 b2 b3 :: rest)
          = run lib (step lib s (.setParameters b1 b2 b3)) rest := rfl
      simp only [transformCount, samplesPushed, hrun, Nat.zero_add]
      have : (step lib s (Event.setParameters b1 b2 b3)).fifoIndex = s.fifoIndex := rfl
      rw [this] at ih'
      omega

theorem transformCount_le_calls (lib : Library K) (events : List (Event K))
    (s : Processor K) : transformCount lib s events ≤ blockCalls events := by
  induction events generalizing s with
  | nil => simp [transformCount, blockCalls]
  | cons e rest ih =>
    have ih' := ih (step lib s e)
    cases e with
    | processBlock buffer =>
      simp only [transformCount, blockCalls]
      split <;> omega
    | setParameters b1 b2 b3 =>
      simp only [transformCount, blockCalls]
      omega

end Analysis

/-! ## Claims about the spectrum analyser -/

section AnalyserClaims
variable {K : Type} [LinearOrderedField K]

/-- The filtering half of a call leaves the analysis state as the pushes made
so far have left it. -/
theorem filterBlock_push (m : Math K) (g : Processor K) (L : List K)
    (buffer : List (K × K)) :
    (filterBlock m (pushSamples g L) buffer).1
      = pushSamples
          { g with filterChain := (filterBlock m (pushSamples g L) buffer).1.filterChain } L :=
  (pushSamples_withChain L g _).symm

theorem filterBlock_inv (m : Math K) (s : Processor K) (buffer : List (K × K))
    (h : Inv s) : Inv (filterBlock m s buffer).1 := h

theorem filterBlock_fifoIndex (m : Math K) (s : Processor K) (buffer : List (K × K)) :
    (filterBlock m s buffer).1.fifoIndex = s.fifoIndex := rfl

theorem filterBlock_length (m : Math K) (s : Processor K) (buffer : List (K × K)) :
    (filterBlock m s buffer).2.length = buffer.length := process_length _ _

theorem processBlock_snd (lib : Library K) (s : Processor K) (buffer : List (K × K)) :
    (processBlock lib s buffer).2 = (filterBlock lib.math s buffer).2 := rfl

theorem transformRuns_def (lib : Library K) (s : Processor K) (buffer : List (K × K)) :
    transformRuns lib s buffer
      = (pushSamples (filterBlock lib.math s buffer).1
          ((filterBlock lib.math s buffer).2.map Prod.fst)).nextFFTBlockReady := rfl

/-- C1 (fails on the code): after `prepareToPlay`, make three `processBlock`
calls of 480 frames each. The third call raises the flag (the window completes
at its 64th sample), so the transform runs in it, but the loop has by then
pushed the rest of the block: the values that are windowed and transformed
hold, at positions `0 .. 415`, the post-filter samples `64 .. 479` of the
third block, which are samples `1024 .. 1439` of the stream and belong to the
next window; only positions `416 .. 1023` still hold samples of window 0. -/
theorem C1_window_overwritten_before_transform (lib : Library K) (s0 : Processor K)
    (sampleRate : K) (samplesPerBlock : Nat) (b1 b2 b3 : Fin 480 → K × K) :
    transformRuns lib
        (processBlock lib
          (processBlock lib (prepareToPlay lib.math s0 sampleRate samplesPerBlock)
            (List.ofFn b1)).1
          (List.ofFn b2)).1
        (List.ofFn b3) = true
    ∧ (∀ i, i < 416 →
        windowedValues
          (filterBlock lib.math
            (processBlock lib
              (processBlock lib (prepareToPlay lib.math s0 sampleRate samplesPerBlock)
                (List.ofFn b1)).1
              (List.ofFn b2)).1
            (List.ofFn b3)).1
          ((filterBlock lib.math
            (processBlock lib
              (processBlock lib (prepareToPlay lib.math s0 sampleRate samplesPerBlock)
                (List.ofFn b1)).1
              (List.ofFn b2)).1
            (List.ofFn b3)).2.map Prod.fst) i
        = ((filterBlock lib.math
            (processBlock lib
              (processBlock lib (prepareToPlay lib.math s0 sampleRate samplesPerBlock)
                (List.ofFn b1)).1
              (List.ofFn b2)).1
            (List.ofFn b3)).2.map Prod.fst).getD (64 + i) 0)
    ∧ (∀ i, 416 ≤ i → i < 480 →
        windowedValues
          (filterBlock lib.math
            (processBlock lib
              (processBlock lib (prepareToPlay lib.math s0 sampleRate samplesPerBlock)
                (List.ofFn b1)).1
              (List.ofFn b2)).1
            (List.ofFn b3)).1
          ((filterBlock lib.math
            (processBlock lib
              (processBlock lib (prepareToPlay lib.math s0 sampleRate samplesPerBlock)
                (List.ofFn b1)).1
              (List.ofFn b2)).1
            (List.ofFn b3)).2.map Prod.fst) i
        = ((processBlock lib (prepareToPlay lib.math s0 sampleRate samplesPerBlock)
            (List.ofFn b1)).2.map Prod.fst).getD i 0) := by
  have hp := prepareToPlay_inv lib.math s0 sampleRate samplesPerBlock
  have hc0 : (prepareToPlay lib.math s0 sampleRate samplesPerBlock).fifoIndex = 0 := rfl
  generalize prepareToPlay lib.math s0 sampleRate samplesPerBlock = p at hp hc0
  have hB1 : (List.ofFn b1).length = 480 := List.length_ofFn b1
  have hB2 : (List.ofFn b2).length = 480 := List.length_ofFn b2
  have hB3 : (List.ofFn b3).length = 480 := List.length_ofFn b3
  generalize List.ofFn b1 = B1 at hB1
  generalize List.ofFn b2 = B2 at hB2
  generalize List.ofFn b3 = B3 at hB3
  -- first call: 480 samples, no transform
  have hf1 : Inv (filterBlock lib.math p B1).1 := filterBlock_inv lib.math p B1 hp
  have hg1 : (filterBlock lib.math p B1).1.fifoIndex = 0 :=
    (filterBlock_fifoIndex lib.math p B1).trans hc0
  have hx1 : ((filterBlock lib.math p B1).2.map Prod.fst).length = 480 := by
    rw [List.length_map, filterBlock_length, hB1]
  have e1 : (processBlock lib p B1).1
      = pushSamples (filterBlock lib.math p B1).1 ((filterBlock lib.math p B1).2.map Prod.fst) :=
    analyse_idle lib _ _ hf1 (by rw [hg1, hx1, fftSize_eq]; decide)
  rw [processBlock_snd, e1]
  generalize (filterBlock lib.math p B1).1 = g1 at hf1 hg1
  generalize (filterBlock lib.math p B1).2.map Prod.fst = xs1 at hx1
  have hs1 : Inv (pushSamples g1 xs1) := by
    refine ⟨?_, ?_⟩
    · rw [pushSamples_fifoIndex _ _ hf1.1]
      exact Nat.mod_lt _ (by rw [fftSize_eq]; decide)
    · rw [pushSamples_ready _ _ hf1.1, hf1.2, hg1, hx1, fftSize_eq]
      simp
  have hi1 : (pushSamples g1 xs1).fifoIndex = 480 := by
    rw [pushSamples_fifoIndex _ _ hf1.1, hg1, hx1, fftSize_eq]
  -- second call: 960 samples so far, no transform
  have hf2 : Inv (filterBlock lib.math (pushSamples g1 xs1) B2).1 :=
    filterBlock_inv lib.math _ B2 hs1
  have hg2 : (filterBlock lib.math (pushSamples g1 xs1) B2).1.fifoIndex = 480 :=
    (filterBlock_fifoIndex lib.math _ B2).trans hi1
  have hx2 : ((filterBlock lib.math (pushSamples g1 xs1) B2).2.map Prod.fst).length = 480 := by
    rw [List.length_map, filterBlock_length, hB2]
  have e2 : (processBlock lib (pushSamples g1 xs1) B2).1
      = pushSamples (filterBlock lib.math (pushSamples g1 xs1) B2).1
          ((filterBlock lib.math (pushSamples g1 xs1) B2).2.map Prod.fst) :=
    analyse_idle lib _ _ hf2 (by rw [hg2, hx2, fftSize_eq]; decide)
  have k2 := filterBlock_push lib.math g1 xs1 B2
  obtain ⟨g2, hgc2, hk2⟩ : ∃ g2 : Processor K, g2.fifoIndex = 0
      ∧ (filterBlock lib.math (pushSamples g1 xs1) B2).1 = pushSamples g2 xs1 :=
    ⟨_, (withChain_fifoIndex g1 _).trans hg1, k2⟩
  rw [e2, hk2, ← pushSamples_append]
  generalize (filterBlock lib.math (pushSamples g1 xs1) B2).2.map Prod.fst = xs2 at hx2
  -- third call: the window completes at its 64th sample
  have hx3 : ((filterBlock lib.math (pushSamples g2 (xs1 ++ xs2)) B3).2.map
      Prod.fst).length = 480 := by
    rw [List.length_map, filterBlock_length, hB3]
  have k3 := filterBlock_push lib.math g2 (xs1 ++ xs2) B3
  obtain ⟨g3, hgc3, hk3⟩ : ∃ g3 : Processor K, g3.fifoIndex = 0
      ∧ (filterBlock lib.math (pushSamples g2 (xs1 ++ xs2)) B3).1
          = pushSamples g3 (xs1 ++ xs2) :=
    ⟨_, (withChain_fifoIndex g2 _).trans hgc2, k3⟩
  rw [transformRuns_def, windowedValues_eq, hk3, ← pushSamples_append]
  generalize (filterBlock lib.math (pushSamples g2 (xs1 ++ xs2)) B3).2.map Prod.fst
    = xs3 at hx3
  have hL : (xs1 ++ xs2 ++ xs3).length = 1440 := by
    simp only [List.length_append, hx1, hx2, hx3]
  have h12 : (xs1 ++ xs2).length = 960 := by
    simp only [List.length_append, hx1, hx2]
  obtain ⟨r1, r2, r3⟩ := fifo_after_1440 g3 hgc3 (xs1 ++ xs2 ++ xs3) hL 0
  refine ⟨r1, ?_, ?_⟩
  · intro i hi
    have hsub : 1024 + i - 960 = 64 + i := by omega
    rw [r2 i hi, List.getD_append_right _ _ _ _ (by rw [h12]; omega), h12, hsub]
  · intro i hi hi'
    rw [r3 i hi (by omega), List.getD_append _ _ _ _ (by rw [h12]; omega),
      List.getD_append _ _ _ _ (by rw [hx1]; exact hi')]

/-- C2: in every state reachable from `prepareToPlay`, a `processBlock` call with
`buffer.length` samples entered with cursor `s.fifoIndex` runs the transform
exactly when `s.fifoIndex + buffer.length ≥ fftSize`; in that case it sets
`newDataReady` and rewrites the bins `0 .. fftSize/2 - 1` of `scopeData` with the
decibel magnitude of the transform output (leaving the other entries alone);
otherwise `scopeData` and `newDataReady` are exactly as before. -/
theorem C2_publish_iff_window_completes (lib : Library K) (s : Processor K)
    (h : Reachable lib s) (buffer : List (K × K)) :
    (transformRuns lib s buffer = true ↔ fftSize ≤ s.fifoIndex + buffer.length)
    ∧ (fftSize ≤ s.fifoIndex + buffer.length →
        (processBlock lib s buffer).1.newDataReady = true
        ∧ (∀ i, i < fftSize / 2 →
            (processBlock lib s buffer).1.scopeData i
              = gainToDecibels lib (lib.math.sqrt
                  ((processBlock lib s buffer).1.fftData (i * 2)
                      * (processBlock lib s buffer).1.fftData (i * 2)
                    + (processBlock lib s buffer).1.fftData (i * 2 + 1)
                      * (processBlock lib s buffer).1.fftData (i * 2 + 1))))
        ∧ (∀ i, fftSize / 2 ≤ i →
            (processBlock lib s buffer).1.scopeData i = s.scopeData i))
    ∧ (s.fifoIndex + buffer.length < fftSize →
        (processBlock lib s buffer).1.scopeData = s.scopeData
        ∧ (processBlock lib s buffer).1.newDataReady = s.newDataReady) := by
  have hs := reachable_inv lib s h
  have hr := transformRuns_eq lib s buffer hs
  have hf := pushSamples_frame ((filterBlock lib.math s buffer).2.map Prod.fst)
    (filterBlock lib.math s buffer).1
  have hsd : (filterBlock lib.math s buffer).1.scopeData = s.scopeData := rfl
  have hnd : (filterBlock lib.math s buffer).1.newDataReady = s.newDataReady := rfl
  refine ⟨by rw [hr]; simp, ?_, ?_⟩
  · intro hw
    have hflag : (pushSamples (filterBlock lib.math s buffer).1
        ((filterBlock lib.math s buffer).2.map Prod.fst)).nextFFTBlockReady = true := by
      have := hr
      unfold transformRuns at this
      rw [this]
      simpa using hw
    have e : (processBlock lib s buffer).1
        = produceSnapshot lib (pushSamples (filterBlock lib.math s buffer).1
            ((filterBlock lib.math s buffer).2.map Prod.fst)) := rfl
    rw [e]
    unfold produceSnapshot
    rw [if_pos hflag]
    refine ⟨rfl, ?_, ?_⟩
    · intro i hi
      simp only [hi, if_true]
    · intro i hi
      have : ¬ i < fftSize / 2 := Nat.not_lt.mpr hi
      simp only [this, if_false]
      rw [hf.1, hsd]
  · intro hw
    have hflag : (pushSamples (filterBlock lib.math s buffer).1
        ((filterBlock lib.math s buffer).2.map Prod.fst)).nextFFTBlockReady = false := by
      have := hr
      unfold transformRuns at this
      rw [this]
      simpa using hw
    have e : (processBlock lib s buffer).1
        = pushSamples (filterBlock lib.math s buffer).1
            ((filterBlock lib.math s buffer).2.map Prod.fst) :=
      produceSnapshot_idle lib _ hflag
    rw [e, hf.1, hf.2.1, hsd, hnd]
    exact ⟨rfl, rfl⟩

/-- Witness of C2: the freshly prepared rational processor and a one-frame
buffer. -/
theorem C2_publish_iff_window_completes_witness :
    (transformRuns ratLibrary (prepareToPlay ratMath ratProcessor 44100 512) [(1, 1)] = true
      ↔ fftSize ≤ (prepareToPlay ratMath ratProcessor 44100 512).fifoIndex
          + [((1 : ℚ), (1 : ℚ))].length)
    ∧ ((prepareToPlay ratMath ratProcessor 44100 512).fifoIndex
          + [((1 : ℚ), (1 : ℚ))].length < fftSize →
        (processBlock ratLibrary (prepareToPlay ratMath ratProcessor 44100 512)
            [(1, 1)]).1.scopeData
          = (prepareToPlay ratMath ratProcessor 44100 512).scopeData
        ∧ (processBlock ratLibrary (prepareToPlay ratMath ratProcessor 44100 512)
            [(1, 1)]).1.newDataReady
          = (prepareToPlay ratMath ratProcessor 44100 512).newDataReady) :=
  have h := C2_publish_iff_window_completes ratLibrary
    (prepareToPlay ratMath ratProcessor 44100 512) ⟨ratProcessor, 44100, 512, [], rfl⟩ [(1, 1)]
  ⟨h.1, h.2.2⟩

/-- C3: over every sequence of events following `prepareToPlay`, the number of
times the windowing and the forward transform have run is at most
`samples pushed / fftSize`, and at most the number of `processBlock` calls (so
at most once per call). -/
theorem C3_transform_count_bound (lib : Library K) (s0 : Processor K) (sampleRate : K)
    (samplesPerBlock : Nat) (events : List (Event K)) :
    transformCount lib (prepareToPlay lib.math s0 sampleRate samplesPerBlock) events
        ≤ samplesPushed events / fftSize
    ∧ transformCount lib (prepareToPlay lib.math s0 sampleRate samplesPerBlock) events
        ≤ blockCalls events := by
  refine ⟨?_, transformCount_le_calls lib events _⟩
  have hb := transformCount_bound lib events _
    (prepareToPlay_inv lib.math s0 sampleRate samplesPerBlock)
  have hc0 : (prepareToPlay lib.math s0 sampleRate samplesPerBlock).fifoIndex = 0 := rfl
  rw [hc0, Nat.zero_add] at hb
  rw [Nat.le_div_iff_mul_le (by rw [fftSize_eq]; decide), Nat.mul_comm]
  omega

end AnalyserClaims

/-! ## Claims about the filter chain -/

section ChainClaims
variable {K : Type} [LinearOrderedField K]

theorem processChannel_cons (c : Coefficients K) (d : DelayLine K) (x : K) (xs : List K) :
    processChannel c d (x :: xs)
      = ((processSample c d x).1 :: (processChannel c (processSample c d x).2 xs).1,
         (processChannel c (processSample c d x).2 xs).2) := rfl

theorem processChannel_length (c : Coefficients K) (d : DelayLine K) (xs : List K) :
    (processChannel c d xs).1.length = xs.length := by
  induction xs generalizing d with
  | nil => rfl
  | cons x xs ih => simp [processChannel_cons, ih]

/-- Frame after frame through the three bands is, on channel 0, the same as
three whole-block passes in series. -/
theorem process_left (fc : FilterChain K) (buffer : List (K × K)) :
    (fc.process buffer).1.map Prod.fst
      = (processChannel fc.get2.state fc.get2.left
          (processChannel fc.get1.state fc.get1.left
            (processChannel fc.get0.state fc.get0.left (buffer.map Prod.fst)).1).1).1 := by
  induction buffer generalizing fc with
  | nil => rfl
  | cons frame rest ih =>
    simp only [FilterChain.process, List.map_cons, processChannel_cons]
    rw [ih]
    rfl

/-- Frame after frame through the three bands is, on channel 1, the same as
three whole-block passes in series. -/
theorem process_right (fc : FilterChain K) (buffer : List (K × K)) :
    (fc.process buffer).1.map Prod.snd
      = (processChannel fc.get2.state fc.get2.right
          (processChannel fc.get1.state fc.get1.right
            (processChannel fc.get0.state fc.get0.right (buffer.map Prod.snd)).1).1).1 := by
  induction buffer generalizing fc with
  | nil => rfl
  | cons frame rest ih =>
    simp only [FilterChain.process, List.map_cons, processChannel_cons]
    rw [ih]
    rfl

/-- C8: `updateFilterChain` twice in a row leaves the same coefficients as once;
the coefficients after a call are the design function applied to the nine
parameter values and the sample rate, whatever filter chain (coefficients
and delay lines) was held before the call. -/
theorem C8_update_idempotent (m : Math K) (s : Processor K) (chain : FilterChain K) :
    coefficients (updateFilterChain m (updateFilterChain m s))
        = coefficients (updateFilterChain m s)
    ∧ coefficients (updateFilterChain m s)
        = (bandCoefficients m s.band1 s.sampleRate,
           bandCoefficients m s.band2 s.sampleRate,
           bandCoefficients m s.band3 s.sampleRate)
    ∧ coefficients (updateFilterChain m { s with filterChain := chain })
        = coefficients (updateFilterChain m s) :=
  ⟨rfl, rfl, rfl⟩

/-- C10: `processBlock` leaves in each channel of the buffer
`band3 (band2 (band1 x))`: the three sections in series in the order 1, 2, 3,
with the coefficients refreshed at the start of the call and that channel's
own delay lines; the right-hand sides mention nothing of the other channel;
the number of frames is unchanged. -/
theorem C10_chain_in_series (lib : Library K) (s : Processor K) (buffer : List (K × K)) :
    (processBlock lib s buffer).2.map Prod.fst
      = (processChannel (bandCoefficients lib.math s.band3 s.sampleRate)
            s.filterChain.get2.left
          (processChannel (bandCoefficients lib.math s.band2 s.sampleRate)
              s.filterChain.get1.left
            (processChannel (bandCoefficients lib.math s.band1 s.sampleRate)
                s.filterChain.get0.left (buffer.map Prod.fst)).1).1).1
    ∧ (processBlock lib s buffer).2.map Prod.snd
      = (processChannel (bandCoefficients lib.math s.band3 s.sampleRate)
            s.filterChain.get2.right
          (processChannel (bandCoefficients lib.math s.band2 s.sampleRate)
              s.filterChain.get1.right
            (processChannel (bandCoefficients lib.math s.band1 s.sampleRate)
                s.filterChain.get0.right (buffer.map Prod.snd)).1).1).1
    ∧ (processBlock lib s buffer).2.length = buffer.length :=
  ⟨process_left (updateFilterChain lib.math s).filterChain buffer,
   process_right (updateFilterChain lib.math s).filterChain buffer,
   process_length (updateFilterChain lib.math s).filterChain buffer⟩

end ChainClaims

/-! ## The peaking design over the real numbers -/

section Design

theorem peakOmega_real (fs f : ℝ) : peakOmega realMath fs f = 2 * Real.pi * f / fs := rfl

theorem peakOmega_pos (fs f : ℝ) (hfs : 0 < fs) (hf : 0 < f) :
    0 < peakOmega realMath fs f := by
  rw [peakOmega_real]
  have := Real.pi_pos
  positivity

theorem peakOmega_lt_pi (fs f : ℝ) (hfs : 0 < fs) (hny : f < fs / 2) :
    peakOmega realMath fs f < Real.pi := by
  rw [peakOmega_real, div_lt_iff₀ hfs]
  have := Real.pi_pos
  nlinarith

theorem sin_peakOmega_pos (fs f : ℝ) (hfs : 0 < fs) (hf : 0 < f) (hny : f < fs / 2) :
    0 < Real.sin (peakOmega realMath fs f) :=
  Real.sin_pos_of_pos_of_lt_pi (peakOmega_pos fs f hfs hf) (peakOmega_lt_pi fs f hfs hny)

theorem peakAlpha_pos (fs f Q : ℝ) (hfs : 0 < fs) (hf : 0 < f) (hny : f < fs / 2)
    (hQ : 0 < Q) : 0 < peakAlpha realMath fs f Q := by
  have hs := sin_peakOmega_pos fs f hfs hf hny
  show 0 < Real.sin (peakOmega realMath fs f) / (2 * Q)
  positivity

theorem peakA_pos (g : ℝ) (hg : 0 < g) : 0 < peakA realMath g :=
  Real.sqrt_pos.mpr hg

theorem peakA_mul_self (g : ℝ) (hg : 0 < g) : peakA realMath g * peakA realMath g = g :=
  Real.mul_self_sqrt hg.le

theorem peakA0_gt_one (fs f Q g : ℝ) (hfs : 0 < fs) (hf : 0 < f) (hny : f < fs / 2)
    (hQ : 0 < Q) (hg : 0 < g) : 1 < peakA0 realMath fs f Q g := by
  have h1 := peakAlpha_pos fs f Q hfs hf hny hQ
  have h2 := peakA_pos g hg
  have : 0 < peakAlpha realMath fs f Q / peakA realMath g := div_pos h1 h2
  show 1 < 1 + peakAlpha realMath fs f Q / peakA realMath g
  linarith

theorem decibelsToGain_real (gDb floor : ℝ) :
    decibelsToGain realMath gDb floor = (10 : ℝ) ^ (max gDb floor / 20) := rfl

theorem decibelsToGain_pos (gDb floor : ℝ) : 0 < decibelsToGain realMath gDb floor := by
  rw [decibelsToGain_real]
  exact Real.rpow_pos_of_pos (by norm_num) _

theorem decibelsToGain_zero : decibelsToGain realMath 0 (-60) = 1 := by
  rw [decibelsToGain_real]
  have : max (0 : ℝ) (-60) = 0 := max_eq_left (by norm_num)
  rw [this, zero_div, Real.rpow_zero]

theorem peakA_one : peakA realMath 1 = 1 := Real.sqrt_one

/-- A section whose feed-forward part equals its feedback part passes its
input through, once the delay line holds equal input and output history. -/
theorem processChannel_identity (c : Coefficients ℝ) (h0 : c.b0 = 1) (h1 : c.b1 = c.a1)
    (h2 : c.b2 = c.a2) (xs : List ℝ) (d : DelayLine ℝ) (hd1 : d.x1 = d.y1)
    (hd2 : d.x2 = d.y2) : (processChannel c d xs).1 = xs := by
  induction xs generalizing d with
  | nil => rfl
  | cons x xs ih =>
    have hy : (processSample c d x).1 = x := by
      simp only [processSample, h0, h1, h2, hd1, hd2]
      ring
    have ht : (processChannel c (processSample c d x).2 xs).1 = xs := by
      apply ih
      · show x = (processSample c d x).1
        exact hy.symm
      · exact hd1
    rw [processChannel_cons]
    show (processSample c d x).1 :: (processChannel c (processSample c d x).2 xs).1 = x :: xs
    rw [hy, ht]

/-- C4: for a band at 0 dB (frequency in the declared range and below Nyquist,
Q in the declared range, sample rate positive) the coefficients assigned by
`updateFilterChain` make the band an identity: from a zeroed delay line, the
output sequence equals the input sequence for every input. -/
theorem C4_zero_gain_identity (peakFilter : PeakFilter ℝ) (fs f Q : ℝ) (hfs : 0 < fs)
    (hf : InFreqRange f) (hny : f < fs / 2) (hQ : InQRange Q) (xs : List ℝ) :
    (processChannel (updatePeakFilter realMath peakFilter f 0 Q fs).state
      DelayLine.zero xs).1 = xs := by
  have hf0 : 0 < f := lt_of_lt_of_le (by norm_num) hf.1
  have hQ0 : 0 < Q := lt_of_lt_of_le (by norm_num) hQ.1
  have ha0 := peakA0_gt_one fs f Q 1 hfs hf0 hny hQ0 one_pos
  have hne : peakA0 realMath fs f Q 1 ≠ 0 := by linarith
  have hA0 : peakA0 realMath fs f Q 1 = 1 + peakAlpha realMath fs f Q := by
    show 1 + peakAlpha realMath fs f Q / peakA realMath 1 = _
    rw [peakA_one, div_one]
  have hst : (updatePeakFilter realMath peakFilter f 0 Q fs).state
      = makePeakFilter realMath fs f Q 1 := by
    show makePeakFilter realMath fs f Q (decibelsToGain realMath 0 (-60)) = _
    rw [decibelsToGain_zero]
  rw [hst]
  apply processChannel_identity
  · show (1 + peakAlpha realMath fs f Q * peakA realMath 1) / peakA0 realMath fs f Q 1 = 1
    rw [peakA_one, mul_one, ← hA0]
    exact div_self hne
  · rfl
  · show (1 - peakAlpha realMath fs f Q * peakA realMath 1) / peakA0 realMath fs f Q 1
      = (1 - peakAlpha realMath fs f Q / peakA realMath 1) / peakA0 realMath fs f Q 1
    rw [peakA_one, mul_one, div_one]
  · rfl
  · rfl

/-- Witness of C4: 44.1 kHz, band at 1 kHz, Q = 1, a three-sample input. -/
theorem C4_zero_gain_identity_witness :
    (processChannel
      (updatePeakFilter realMath
        { state := { b0 := 0, b1 := 0, b2 := 0, a1 := 0, a2 := 0 }
          left := DelayLine.zero, right := DelayLine.zero } 1000 0 1 44100).state
      DelayLine.zero [1, -2, 3]).1 = [1, -2, 3] :=
  C4_zero_gain_identity _ 44100 1000 1 (by norm_num) ⟨by norm_num, by norm_num⟩
    (by norm_num) ⟨by norm_num, by norm_num⟩ [1, -2, 3]

/-- A monic real quadratic `z² + p z + q` with `q < 1`, `0 < 1 + q + p` and
`0 < 1 + q - p` has all its complex roots strictly inside the unit circle. -/
theorem root_inside_unit_circle (p q : ℝ) (hq : q < 1) (h1 : 0 < 1 + q + p)
    (h2 : 0 < 1 + q - p) (z : ℂ) (hz : z ^ 2 + (p : ℂ) * z + (q : ℂ) = 0) :
    Complex.abs z < 1 := by
  have hre := congrArg Complex.re hz
  have him := congrArg Complex.im hz
  simp only [pow_two, Complex.add_re, Complex.mul_re, Complex.ofReal_re, Complex.ofReal_im,
    Complex.add_im, Complex.mul_im, Complex.zero_re, Complex.zero_im, zero_mul, sub_zero,
    add_zero] at hre him
  have hn : z.re * z.re + z.im * z.im < 1 := by
    have hy : z.im * (2 * z.re + p) = 0 := by linarith
    rcases mul_eq_zero.mp hy with h0 | h0
    · rw [h0] at hre ⊢
      simp only [mul_zero, sub_zero, add_zero] at hre ⊢
      by_contra hc
      push_neg at hc
      rcases le_or_lt 0 z.re with hx | hx
      · have hx1 : 1 ≤ z.re := by nlinarith
        nlinarith [mul_nonneg (sub_nonneg.mpr hx1) (by linarith : (0 : ℝ) ≤ z.re + 1 + p)]
      · have hx1 : z.re ≤ -1 := by nlinarith
        nlinarith [mul_nonneg (by linarith : (0 : ℝ) ≤ -(z.re + 1))
          (by linarith : (0 : ℝ) ≤ -(z.re - 1 + p))]
    · have hx : z.re = -p / 2 := by linarith
      nlinarith
  have h0 : 0 ≤ Complex.abs z := Complex.abs.nonneg z
  have hsq : Complex.abs z * Complex.abs z = z.re * z.re + z.im * z.im := by
    rw [Complex.mul_self_abs, Complex.normSq_apply]
  by_contra hc
  push_neg at hc
  nlinarith

/-- The normalised feedback pair of the design, `a1 = -2 C / (1 + β)` and
`a2 = (1 - β) / (1 + β)` with `β > 0` and `-1 < C < 1`, lies inside the
stability triangle. -/
theorem design_inside_stability_triangle (β C : ℝ) (hβ : 0 < β) (hC1 : C < 1)
    (hC2 : -1 < C) :
    (1 - β) / (1 + β) < 1
    ∧ 0 < 1 + (1 - β) / (1 + β) + -2 * C / (1 + β)
    ∧ 0 < 1 + (1 - β) / (1 + β) - -2 * C / (1 + β) := by
  have hp : 0 < 1 + β := by linarith
  have hne : 1 + β ≠ 0 := ne_of_gt hp
  refine ⟨?_, ?_, ?_⟩
  · rw [div_lt_one hp]
    linarith
  · have : 1 + (1 - β) / (1 + β) + -2 * C / (1 + β) = (2 - 2 * C) / (1 + β) := by
      field_simp
      ring
    rw [this]
    exact div_pos (by linarith) hp
  · have : 1 + (1 - β) / (1 + β) - -2 * C / (1 + β) = (2 + 2 * C) / (1 + β) := by
      field_simp
      ring
    rw [this]
    exact div_pos (by linarith) hp

/-- C6: for every sample rate `fs > 0`, frequency `0 < f < fs / 2`, `Q > 0` and
linear gain `g > 0` the peaking coefficients are those of a stable filter:
every root of `z² + a1 z + a2` lies strictly inside the unit circle. -/
theorem C6_peak_filter_stable (fs f Q g : ℝ) (hfs : 0 < fs) (hf : 0 < f) (hny : f < fs / 2)
    (hQ : 0 < Q) (hg : 0 < g) : Stable (makePeakFilter realMath fs f Q g) := by
  intro z hz
  have hs := sin_peakOmega_pos fs f hfs hf hny
  have hal := peakAlpha_pos fs f Q hfs hf hny hQ
  have hA := peakA_pos g hg
  have ha0 := peakA0_gt_one fs f Q g hfs hf hny hQ hg
  have hb : 0 < peakAlpha realMath fs f Q / peakA realMath g := div_pos hal hA
  have ha0e : peakA0 realMath fs f Q g = 1 + peakAlpha realMath fs f Q / peakA realMath g := rfl
  have hcs : Real.cos (peakOmega realMath fs f) ^ 2 < 1 := by
    have := Real.sin_sq_add_cos_sq (peakOmega realMath fs f)
    nlinarith
  have hc1 : Real.cos (peakOmega realMath fs f) < 1 := by nlinarith
  have hc2 : -1 < Real.cos (peakOmega realMath fs f) := by nlinarith
  obtain ⟨j1, j2, j3⟩ := design_inside_stability_triangle
    (peakAlpha realMath fs f Q / peakA realMath g) (Real.cos (peakOmega realMath fs f))
    hb hc1 hc2
  exact root_inside_unit_circle
    (-2 * Real.cos (peakOmega realMath fs f) / peakA0 realMath fs f Q g)
    ((1 - peakAlpha realMath fs f Q / peakA realMath g) / peakA0 realMath fs f Q g)
    j1 j2 j3 z hz

/-- Witness of C6: 44.1 kHz, 200 Hz, Q = 1, linear gain 2. -/
theorem C6_peak_filter_stable_witness : Stable (makePeakFilter realMath 44100 200 1 2) :=
  C6_peak_filter_stable 44100 200 1 2 (by norm_num) (by norm_num) (by norm_num)
    (by norm_num) (by norm_num)

/-- C7 as stated fails: at a sample rate of 16 kHz the in-range triple
12 kHz, 0 dB, Q = 0.5 gives `omega = 3 pi / 2`, `alpha = -1`, `A = 1` and the
normalising denominator `a0 = 1 + alpha / A` is zero. -/
theorem C7_denominator_vanishes_above_nyquist :
    (0 : ℝ) < 16000 ∧ InFreqRange (12000 : ℝ) ∧ InGainRange (0 : ℝ) ∧ InQRange (1 / 2 : ℝ)
    ∧ peakA0 realMath 16000 12000 (1 / 2) (decibelsToGain realMath 0 (-60)) = 0 := by
  refine ⟨by norm_num, ⟨by norm_num, by norm_num⟩, ⟨by norm_num, by norm_num⟩,
    ⟨by norm_num, by norm_num⟩, ?_⟩
  have hw : peakOmega realMath 16000 12000 = Real.pi / 2 + Real.pi := by
    rw [peakOmega_real]
    ring
  have hsin : Real.sin (peakOmega realMath 16000 12000) = -1 := by
    rw [hw, Real.sin_add_pi, Real.sin_pi_div_two]
  show 1 + Real.sin (peakOmega realMath 16000 12000) / (2 * (1 / 2))
      / peakA realMath (decibelsToGain realMath 0 (-60)) = 0
  rw [hsin, decibelsToGain_zero, peakA_one]
  norm_num

/-- C7 (amended): for every sample rate and every parameter triple inside the
declared ranges whose frequency lies below Nyquist, the gain root `A` is
positive and the normalising denominator `a0 = 1 + alpha / A` exceeds 1, so
neither division of the design is a division by zero. -/
theorem C7_no_division_by_zero_below_nyquist (fs f gDb Q : ℝ) (hfs : 0 < fs)
    (hf : InFreqRange f) (hny : f < fs / 2) (_hg : InGainRange gDb) (hQ : InQRange Q) :
    0 < peakA realMath (decibelsToGain realMath gDb (-60))
    ∧ 1 < peakA0 realMath fs f Q (decibelsToGain realMath gDb (-60)) := by
  have hf0 : 0 < f := lt_of_lt_of_le (by norm_num) hf.1
  have hQ0 : 0 < Q := lt_of_lt_of_le (by norm_num) hQ.1
  have hgain := decibelsToGain_pos gDb (-60)
  exact ⟨peakA_pos _ hgain, peakA0_gt_one fs f Q _ hfs hf0 hny hQ0 hgain⟩

/-- Witness of amended C7: the boundary values 20 kHz, +24 dB, Q = 0.1 at 44.1 kHz. -/
theorem C7_no_division_by_zero_below_nyquist_witness :
    0 < peakA realMath (decibelsToGain realMath 24 (-60))
    ∧ 1 < peakA0 realMath 44100 20000 (1 / 10) (decibelsToGain realMath 24 (-60)) :=
  C7_no_division_by_zero_below_nyquist 44100 20000 24 (1 / 10) (by norm_num)
    ⟨by norm_num, by norm_num⟩ (by norm_num) ⟨by norm_num, by norm_num⟩
    ⟨by norm_num, by norm_num⟩

/-- C9: the per-band update designs the peaking section with the linear gain
`10 ^ (max gDb (-60) / 20)`, the decibel value clamped from below at -60, and
this gain is strictly positive for every `gDb`. -/
theorem C9_gain_clamped_and_positive (peakFilter : PeakFilter ℝ) (freq gDb Q fs : ℝ) :
    (updatePeakFilter realMath peakFilter freq gDb Q fs).state
        = makePeakFilter realMath fs freq Q ((10 : ℝ) ^ (max gDb (-60) / 20))
    ∧ decibelsToGain realMath gDb (-60) = (10 : ℝ) ^ (max gDb (-60) / 20)
    ∧ 0 < decibelsToGain realMath gDb (-60) :=
  ⟨rfl, rfl, decibelsToGain_pos gDb (-60)⟩

/-- The transfer function is the response of `processSample` to an exponential:
when the delay line holds the history of the input `z ^ k` and of the output
`H(z) z ^ k`, the next output is `H(z)` times the next input. -/
theorem processSample_exponential {F : Type} [Field F] (c : Coefficients F) (z : F) (n : Nat)
    (hz : z ≠ 0) (hD : 1 + c.a1 * z⁻¹ + c.a2 * z⁻¹ ^ 2 ≠ 0) :
    (processSample c
      { x1 := z ^ (n + 1), x2 := z ^ n
        y1 := transferFunction c z * z ^ (n + 1), y2 := transferFunction c z * z ^ n }
      (z ^ (n + 2))).1 = transferFunction c z * z ^ (n + 2) := by
  have hH : transferFunction c z * (1 + c.a1 * z⁻¹ + c.a2 * z⁻¹ ^ 2)
      = c.b0 + c.b1 * z⁻¹ + c.b2 * z⁻¹ ^ 2 := div_mul_cancel₀ _ hD
  have hzi : z * z⁻¹ = 1 := mul_inv_cancel₀ hz
  simp only [processSample]
  linear_combination (-(z ^ (n + 2))) * hH
    - (z ^ (n + 1) * (c.b1 - c.a1 * transferFunction c z)
        + z ^ n * (z * z⁻¹ + 1) * (c.b2 - c.a2 * transferFunction c z)) * hzi

/-- The algebra behind the centre-frequency gain: if `W` satisfies
`1 + W² - 2 C W = 0` (as `W = exp (-i w)` does with `C = cos w`) and `W² ≠ 1`,
the transfer function of the design takes the value `A²` at `z = W⁻¹`. -/
theorem transfer_algebra {F : Type} [Field F] (al A C W : F) (hal : al ≠ 0) (hA : A ≠ 0)
    (ha0 : 1 + al / A ≠ 0) (hW : 1 + W ^ 2 - 2 * C * W = 0) (hf : 1 - W ^ 2 ≠ 0) :
    ((1 + al * A) / (1 + al / A) + -2 * C / (1 + al / A) * W
        + (1 - al * A) / (1 + al / A) * W ^ 2)
      / (1 + -2 * C / (1 + al / A) * W + (1 - al / A) / (1 + al / A) * W ^ 2)
      = A * A := by
  have h1 : (1 + al / A)⁻¹ * (1 + al / A) = 1 := inv_mul_cancel₀ ha0
  have hN : (1 + al * A) / (1 + al / A) + -2 * C / (1 + al / A) * W
        + (1 - al * A) / (1 + al / A) * W ^ 2
      = al * A * (1 - W ^ 2) * (1 + al / A)⁻¹ := by
    linear_combination (1 + al / A)⁻¹ * hW
  have hD : 1 + -2 * C / (1 + al / A) * W + (1 - al / A) / (1 + al / A) * W ^ 2
      = al / A * (1 - W ^ 2) * (1 + al / A)⁻¹ := by
    linear_combination (1 + al / A)⁻¹ * hW - h1
  have hi : (1 + al / A)⁻¹ ≠ 0 := inv_ne_zero ha0
  rw [hN, hD]
  have hne : al / A * (1 - W ^ 2) * (1 + al / A)⁻¹ ≠ 0 :=
    mul_ne_zero (mul_ne_zero (div_ne_zero hal hA) hf) hi
  rw [div_eq_iff hne]
  field_simp
  ring

/-- On the unit circle at angle `w`, with `z = exp (w i)`: the transfer function
of the section whose normalised coefficients come from `alpha`, `A` and
`cos w` takes the value `A²`. -/
theorem transfer_at_centre (w al A : ℝ) (hs : Real.sin w ≠ 0) (hal : al ≠ 0) (hA : A ≠ 0)
    (ha0 : 1 + al / A ≠ 0) :
    transferFunction
      (Coefficients.map Complex.ofReal
        { b0 := (1 + al * A) / (1 + al / A)
          b1 := -2 * Real.cos w / (1 + al / A)
          b2 := (1 - al * A) / (1 + al / A)
          a1 := -2 * Real.cos w / (1 + al / A)
          a2 := (1 - al / A) / (1 + al / A) })
      (Complex.exp (w * Complex.I)) = ((A * A : ℝ) : ℂ) := by
  have hzW : Complex.exp (w * Complex.I) * (Complex.exp (w * Complex.I))⁻¹ = 1 :=
    mul_inv_cancel₀ (Complex.exp_ne_zero _)
  have hWne : (Complex.exp (w * Complex.I))⁻¹ ≠ 0 := inv_ne_zero (Complex.exp_ne_zero _)
  have hinv : Complex.exp (-(w : ℂ) * Complex.I) = (Complex.exp (w * Complex.I))⁻¹ := by
    rw [neg_mul, Complex.exp_neg]
  have hcos : 2 * ((Real.cos w : ℝ) : ℂ)
      = Complex.exp (w * Complex.I) + (Complex.exp (w * Complex.I))⁻¹ := by
    rw [Complex.ofReal_cos, Complex.cos, hinv]
    ring
  have hsin : 2 * ((Real.sin w : ℝ) : ℂ)
      = ((Complex.exp (w * Complex.I))⁻¹ - Complex.exp (w * Complex.I)) * Complex.I := by
    rw [Complex.ofReal_sin, Complex.sin, hinv]
    ring
  have hsC : ((Real.sin w : ℝ) : ℂ) ≠ 0 := Complex.ofReal_ne_zero.mpr hs
  have hW : 1 + (Complex.exp (w * Complex.I))⁻¹ ^ 2
      - 2 * ((Real.cos w : ℝ) : ℂ) * (Complex.exp (w * Complex.I))⁻¹ = 0 := by
    rw [hcos]
    linear_combination -hzW
  have hf : 1 - (Complex.exp (w * Complex.I))⁻¹ ^ 2 ≠ 0 := by
    intro h0
    have hzw : Complex.exp (w * Complex.I) = (Complex.exp (w * Complex.I))⁻¹ := by
      have h2 : (Complex.exp (w * Complex.I))⁻¹
          * (Complex.exp (w * Complex.I) - (Complex.exp (w * Complex.I))⁻¹) = 0 := by
        linear_combination h0 + hzW
      rcases mul_eq_zero.mp h2 with h3 | h3
      · exact absurd h3 hWne
      · exact sub_eq_zero.mp h3
    rw [← hzw, sub_self, zero_mul] at hsin
    exact hsC (by simpa using hsin)
  have halC : (al : ℂ) ≠ 0 := Complex.ofReal_ne_zero.mpr hal
  have hAC : (A : ℂ) ≠ 0 := Complex.ofReal_ne_zero.mpr hA
  have ha0C : (1 : ℂ) + (al : ℂ) / (A : ℂ) ≠ 0 := by
    have := Complex.ofReal_ne_zero.mpr ha0
    push_cast at this
    exact this
  have key := transfer_algebra (al : ℂ) (A : ℂ) ((Real.cos w : ℝ) : ℂ)
    (Complex.exp (w * Complex.I))⁻¹ halC hAC ha0C hW hf
  unfold transferFunction Coefficients.map
  simp only [Complex.ofReal_div, Complex.ofReal_add, Complex.ofReal_sub, Complex.ofReal_mul,
    Complex.ofReal_one, Complex.ofReal_neg, Complex.ofReal_ofNat]
  exact key

/-- C5: for `fs > 0`, `20 ≤ f < fs / 2`, `Q > 0` and a gain in `[-24, 24]` dB, the
transfer function of the section that `updateFilterChain` assigns has, at the
centre frequency `z = exp (i 2 pi f / fs)`, magnitude `10 ^ (gDb / 20)`. -/
theorem C5_gain_at_centre_frequency (peakFilter : PeakFilter ℝ) (fs f Q gDb : ℝ)
    (hfs : 0 < fs) (hf : 20 ≤ f) (hny : f < fs / 2) (hQ : 0 < Q) (hg : InGainRange gDb) :
    Complex.abs
      (transferFunction
        (Coefficients.map Complex.ofReal
          (updatePeakFilter realMath peakFilter f gDb Q fs).state)
        (Complex.exp (((2 * Real.pi * f / fs : ℝ) : ℂ) * Complex.I)))
      = (10 : ℝ) ^ (gDb / 20) := by
  have hf0 : 0 < f := lt_of_lt_of_le (by norm_num) hf
  have hgain := decibelsToGain_pos gDb (-60)
  have hgeq : decibelsToGain realMath gDb (-60) = (10 : ℝ) ^ (gDb / 20) := by
    rw [decibelsToGain_real, max_eq_left (by linarith [hg.1])]
  have hs := sin_peakOmega_pos fs f hfs hf0 hny
  have hal := peakAlpha_pos fs f Q hfs hf0 hny hQ
  have hA := peakA_pos _ hgain
  have ha0 := peakA0_gt_one fs f Q _ hfs hf0 hny hQ hgain
  have key := transfer_at_centre (peakOmega realMath fs f) (peakAlpha realMath fs f Q)
    (peakA realMath (decibelsToGain realMath gDb (-60))) (ne_of_gt hs) (ne_of_gt hal)
    (ne_of_gt hA) (ne_of_gt (lt_trans one_pos ha0))
  have hst : transferFunction
        (Coefficients.map Complex.ofReal
          (updatePeakFilter realMath peakFilter f gDb Q fs).state)
        (Complex.exp (((2 * Real.pi * f / fs : ℝ) : ℂ) * Complex.I))
      = ((peakA realMath (decibelsToGain realMath gDb (-60))
          * peakA realMath (decibelsToGain realMath gDb (-60)) : ℝ) : ℂ) := key
  rw [hst, peakA_mul_self _ hgain, Complex.abs_ofReal, abs_of_pos hgain, hgeq]

/-- Witness of C5: 44.1 kHz, band at 200 Hz, +6 dB, Q = 1: the magnitude at
200 Hz is `10 ^ (6 / 20)`, which is `10 ^ 0.3`. -/
theorem C5_gain_at_centre_frequency_witness :
    Complex.abs
      (transferFunction
        (Coefficients.map Complex.ofReal
          (updatePeakFilter realMath
            { state := { b0 := 0, b1 := 0, b2 := 0, a1 := 0, a2 := 0 }
              left := DelayLine.zero, right := DelayLine.zero } 200 6 1 44100).state)
        (Complex.exp (((2 * Real.pi * 200 / 44100 : ℝ) : ℂ) * Complex.I)))
      = (10 : ℝ) ^ ((6 : ℝ) / 20)
    ∧ (6 : ℝ) / 20 = 0.3 :=
  ⟨C5_gain_at_centre_frequency _ 44100 200 1 6 (by norm_num) (by norm_num) (by norm_num)
      (by norm_num) ⟨by norm_num, by norm_num⟩,
    by norm_num⟩

end Design

/-! ## Claims about preparation, frames and the cursor -/

section FrameClaims
variable {K : Type} [LinearOrderedField K]

theorem produceSnapshot_withChain (lib : Library K) (s : Processor K) (fc : FilterChain K) :
    produceSnapshot lib { s with filterChain := fc }
      = { produceSnapshot lib s with filterChain := fc } := by
  cases h : s.nextFFTBlockReady <;> simp [produceSnapshot, h]

theorem analyse_withChain (lib : Library K) (s : Processor K) (fc : FilterChain K)
    (xs : List K) :
    analyse lib { s with filterChain := fc } xs
      = { analyse lib s xs with filterChain := fc } := by
  unfold analyse
  rw [pushSamples_withChain, produceSnapshot_withChain]

/-- The state after `processBlock` is the analysis of the post-filter channel 0,
carried out on the entry state, with the filter chain replaced. -/
theorem processBlock_state (lib : Library K) (s : Processor K) (buffer : List (K × K)) :
    (processBlock lib s buffer).1
      = { analyse lib s (postFilterLeft lib.math s (buffer.map Prod.fst)) with
          filterChain := (filterBlock lib.math s buffer).1.filterChain } := by
  have hl : (filterBlock lib.math s buffer).2.map Prod.fst
      = postFilterLeft lib.math s (buffer.map Prod.fst) :=
    process_left (updateFilterChain lib.math s).filterChain buffer
  have h1 : (processBlock lib s buffer).1
      = analyse lib { s with filterChain := (filterBlock lib.math s buffer).1.filterChain }
          ((filterBlock lib.math s buffer).2.map Prod.fst) := rfl
  rw [h1, hl, analyse_withChain]

/-- C11: after `prepareToPlay`, whatever the state before, the cursor is 0, the
window-complete flag is down, every one of the 1024 fifo entries is 0, and the
delay lines of all three bands on both channels are zero. -/
theorem C11_prepare_resets (m : Math K) (s : Processor K) (sampleRate : K)
    (samplesPerBlock : Nat) :
    (prepareToPlay m s sampleRate samplesPerBlock).fifoIndex = 0
    ∧ (prepareToPlay m s sampleRate samplesPerBlock).nextFFTBlockReady = false
    ∧ (∀ i, i < fftSize → (prepareToPlay m s sampleRate samplesPerBlock).fifo i = 0)
    ∧ (prepareToPlay m s sampleRate samplesPerBlock).filterChain.get0.left = DelayLine.zero
    ∧ (prepareToPlay m s sampleRate samplesPerBlock).filterChain.get0.right = DelayLine.zero
    ∧ (prepareToPlay m s sampleRate samplesPerBlock).filterChain.get1.left = DelayLine.zero
    ∧ (prepareToPlay m s sampleRate samplesPerBlock).filterChain.get1.right = DelayLine.zero
    ∧ (prepareToPlay m s sampleRate samplesPerBlock).filterChain.get2.left = DelayLine.zero
    ∧ (prepareToPlay m s sampleRate samplesPerBlock).filterChain.get2.right = DelayLine.zero :=
  ⟨rfl, rfl, fun _ _ => rfl, rfl, rfl, rfl, rfl, rfl, rfl⟩

/-- C17: in every state reachable from `prepareToPlay` and for every block, the
cursor is below 1024 before and after `processBlock`, its value after the call
is (value before + block length) mod 1024, and every index at which the loop
writes into the fifo is below 1024. -/
theorem C17_cursor_in_bounds (lib : Library K) (s : Processor K) (h : Reachable lib s)
    (buffer : List (K × K)) :
    s.fifoIndex < fftSize
    ∧ (processBlock lib s buffer).1.fifoIndex < fftSize
    ∧ (processBlock lib s buffer).1.fifoIndex = (s.fifoIndex + buffer.length) % fftSize
    ∧ ∀ j ∈ writeIndices (filterBlock lib.math s buffer).1
        ((filterBlock lib.math s buffer).2.map Prod.fst), j < fftSize := by
  have hs := reachable_inv lib s h
  have hstep := step_fifoIndex lib s buffer hs
  have hafter := step_inv lib s (.processBlock buffer) hs
  exact ⟨hs.1, hafter.1, hstep, writeIndices_lt _ _ (filterBlock_inv lib.math s buffer hs).1⟩

/-- Witness of C17: the freshly prepared rational processor and a two-frame
buffer. -/
theorem C17_cursor_in_bounds_witness :
    (prepareToPlay ratMath ratProcessor 44100 512).fifoIndex < fftSize
    ∧ (processBlock ratLibrary (prepareToPlay ratMath ratProcessor 44100 512)
        [(1, 2), (3, 4)]).1.fifoIndex < fftSize
    ∧ (processBlock ratLibrary (prepareToPlay ratMath ratProcessor 44100 512)
        [(1, 2), (3, 4)]).1.fifoIndex
        = ((prepareToPlay ratMath ratProcessor 44100 512).fifoIndex
            + [((1 : ℚ), (2 : ℚ)), (3, 4)].length) % fftSize
    ∧ ∀ j ∈ writeIndices
        (filterBlock ratLibrary.math (prepareToPlay ratMath ratProcessor 44100 512)
          [(1, 2), (3, 4)]).1
        ((filterBlock ratLibrary.math (prepareToPlay ratMath ratProcessor 44100 512)
          [(1, 2), (3, 4)]).2.map Prod.fst), j < fftSize :=
  C17_cursor_in_bounds ratLibrary (prepareToPlay ratMath ratProcessor 44100 512)
    ⟨ratProcessor, 44100, 512, [], rfl⟩ [(1, 2), (3, 4)]

/-- C18: `updateFilterChain` replaces only the coefficients: the delay lines of
every band on both channels, the fifo, the cursor, the window-complete flag,
the transform array, the snapshot array and the ready flag are as before (and
so are the parameter values and the sample rate). -/
theorem C18_update_frame (m : Math K) (s : Processor K) :
    (updateFilterChain m s).filterChain.get0.left = s.filterChain.get0.left
    ∧ (updateFilterChain m s).filterChain.get0.right = s.filterChain.get0.right
    ∧ (updateFilterChain m s).filterChain.get1.left = s.filterChain.get1.left
    ∧ (updateFilterChain m s).filterChain.get1.right = s.filterChain.get1.right
    ∧ (updateFilterChain m s).filterChain.get2.left = s.filterChain.get2.left
    ∧ (updateFilterChain m s).filterChain.get2.right = s.filterChain.get2.right
    ∧ (updateFilterChain m s).fifo = s.fifo
    ∧ (updateFilterChain m s).fifoIndex = s.fifoIndex
    ∧ (updateFilterChain m s).nextFFTBlockReady = s.nextFFTBlockReady
    ∧ (updateFilterChain m s).fftData = s.fftData
    ∧ (updateFilterChain m s).scopeData = s.scopeData
    ∧ (updateFilterChain m s).newDataReady = s.newDataReady
    ∧ (updateFilterChain m s).band1 = s.band1
    ∧ (updateFilterChain m s).band2 = s.band2
    ∧ (updateFilterChain m s).band3 = s.band3
    ∧ (updateFilterChain m s).sampleRate = s.sampleRate :=
  ⟨rfl, rfl, rfl, rfl, rfl, rfl, rfl, rfl, rfl, rfl, rfl, rfl, rfl, rfl, rfl, rfl⟩

/-- C19: two `processBlock` calls from the same state on buffers that agree on
channel 0 leave the same fifo, cursor, snapshot array and ready flag, whatever
channel 1 holds; and what is pushed into the fifo is the post-filter channel 0,
that is channel 0 after the three sections in series. -/
theorem C19_only_left_channel_analysed (lib : Library K) (s : Processor K)
    (buffer buffer' : List (K × K)) (h : buffer.map Prod.fst = buffer'.map Prod.fst) :
    (processBlock lib s buffer).1.fifo = (processBlock lib s buffer').1.fifo
    ∧ (processBlock lib s buffer).1.fifoIndex = (processBlock lib s buffer').1.fifoIndex
    ∧ (processBlock lib s buffer).1.scopeData = (processBlock lib s buffer').1.scopeData
    ∧ (processBlock lib s buffer).1.newDataReady
        = (processBlock lib s buffer').1.newDataReady
    ∧ (processBlock lib s buffer).2.map Prod.fst
        = postFilterLeft lib.math s (buffer.map Prod.fst)
    ∧ (processBlock lib s buffer).1.fifo
        = (analyse lib s (postFilterLeft lib.math s (buffer.map Prod.fst))).fifo := by
  have e := processBlock_state lib s buffer
  have e' := processBlock_state lib s buffer'
  rw [← h] at e'
  refine ⟨?_, ?_, ?_, ?_, process_left (updateFilterChain lib.math s).filterChain buffer, ?_⟩
  · rw [e, e']
  · rw [e, e']
  · rw [e, e']
  · rw [e, e']
  · rw [e]

/-- Witness of C19: two one-frame buffers with the same channel 0 and
different channel 1. -/
theorem C19_only_left_channel_analysed_witness :
    (processBlock ratLibrary ratProcessor [(1, 2)]).1.fifo
        = (processBlock ratLibrary ratProcessor [(1, 5)]).1.fifo
    ∧ (processBlock ratLibrary ratProcessor [(1, 2)]).1.fifoIndex
        = (processBlock ratLibrary ratProcessor [(1, 5)]).1.fifoIndex
    ∧ (processBlock ratLibrary ratProcessor [(1, 2)]).1.scopeData
        = (processBlock ratLibrary ratProcessor [(1, 5)]).1.scopeData
    ∧ (processBlock ratLibrary ratProcessor [(1, 2)]).1.newDataReady
        = (processBlock ratLibrary ratProcessor [(1, 5)]).1.newDataReady :=
  have h := C19_only_left_channel_analysed ratLibrary ratProcessor [(1, 2)] [(1, 5)] rfl
  ⟨h.1, h.2.1, h.2.2.1, h.2.2.2.1⟩

end FrameClaims

/-! ## Claims about the snapshot values and the saved state -/

section SnapshotClaims
variable {K : Type} [LinearOrderedField K]

theorem gainToDecibels_ge_floor (lib : Library K) (gain : K) :
    lib.defaultMinusInfinitydB ≤ gainToDecibels lib gain := by
  unfold gainToDecibels
  split
  · exact le_max_left _ _
  · exact le_refl _

theorem processBlock_scopeData_of_runs (lib : Library K) (s : Processor K)
    (buffer : List (K × K)) (hrun : transformRuns lib s buffer = true) (i : Nat)
    (hi : i < fftSize / 2) :
    (processBlock lib s buffer).1.scopeData i
      = gainToDecibels lib (lib.math.sqrt
          ((processBlock lib s buffer).1.fftData (i * 2)
              * (processBlock lib s buffer).1.fftData (i * 2)
            + (processBlock lib s buffer).1.fftData (i * 2 + 1)
              * (processBlock lib s buffer).1.fftData (i * 2 + 1))) := by
  have hflag : (pushSamples (filterBlock lib.math s buffer).1
      ((filterBlock lib.math s buffer).2.map Prod.fst)).nextFFTBlockReady = true := hrun
  have e : (processBlock lib s buffer).1
      = produceSnapshot lib (pushSamples (filterBlock lib.math s buffer).1
          ((filterBlock lib.math s buffer).2.map Prod.fst)) := rfl
  rw [e]
  unfold produceSnapshot
  rw [if_pos hflag]
  simp only [hi, if_true]

theorem processBlock_fftData_of_runs (lib : Library K) (s : Processor K)
    (buffer : List (K × K)) (hrun : transformRuns lib s buffer = true) :
    (processBlock lib s buffer).1.fftData
      = lib.performRealOnlyForwardTransform
          (transformInput (multiplyWithWindowingTable lib
            (windowedValues (filterBlock lib.math s buffer).1
              ((filterBlock lib.math s buffer).2.map Prod.fst)) fftSize)) := by
  have hflag : (pushSamples (filterBlock lib.math s buffer).1
      ((filterBlock lib.math s buffer).2.map Prod.fst)).nextFFTBlockReady = true := hrun
  have e : (processBlock lib s buffer).1
      = produceSnapshot lib (pushSamples (filterBlock lib.math s buffer).1
          ((filterBlock lib.math s buffer).2.map Prod.fst)) := rfl
  rw [e]
  unfold produceSnapshot
  rw [if_pos hflag]
  rfl

/-- C12: with the library's default floor at -100 dB, every value that a
`processBlock` call in which the transform runs writes into bin `i < 512` of the
snapshot is the decibel conversion of that bin's magnitude
`sqrt (re² + im²)` with the floor: `max (-100) (20 log10 magnitude)` for a
positive magnitude and `-100` otherwise, hence at least `-100`; and when the
window that is transformed holds only zero samples (the transform of the zero
array being zero, and `sqrt 0 = 0`) every one of the 512 bins is exactly
`-100`. -/
theorem C12_snapshot_values_floored (lib : Library K) (s : Processor K)
    (buffer : List (K × K)) (hfloor : lib.defaultMinusInfinitydB = -100)
    (hrun : transformRuns lib s buffer = true) :
    (∀ i, i < fftSize / 2 →
      (processBlock lib s buffer).1.scopeData i
        = (if 0 < lib.math.sqrt
              ((processBlock lib s buffer).1.fftData (i * 2)
                  * (processBlock lib s buffer).1.fftData (i * 2)
                + (processBlock lib s buffer).1.fftData (i * 2 + 1)
                  * (processBlock lib s buffer).1.fftData (i * 2 + 1))
          then max (-100) (20 * lib.math.log10 (lib.math.sqrt
              ((processBlock lib s buffer).1.fftData (i * 2)
                  * (processBlock lib s buffer).1.fftData (i * 2)
                + (processBlock lib s buffer).1.fftData (i * 2 + 1)
                  * (processBlock lib s buffer).1.fftData (i * 2 + 1))))
          else -100)
      ∧ -100 ≤ (processBlock lib s buffer).1.scopeData i)
    ∧ (lib.performRealOnlyForwardTransform (fun _ => 0) = (fun _ => 0) →
        lib.math.sqrt 0 = 0 →
        (∀ i, i < fftSize →
          windowedValues (filterBlock lib.math s buffer).1
            ((filterBlock lib.math s buffer).2.map Prod.fst) i = 0) →
        ∀ i, i < fftSize / 2 → (processBlock lib s buffer).1.scopeData i = -100) := by
  refine ⟨?_, ?_⟩
  · intro i hi
    rw [processBlock_scopeData_of_runs lib s buffer hrun i hi]
    refine ⟨?_, ?_⟩
    · unfold gainToDecibels
      rw [hfloor]
    · have := gainToDecibels_ge_floor lib (lib.math.sqrt
          ((processBlock lib s buffer).1.fftData (i * 2)
              * (processBlock lib s buffer).1.fftData (i * 2)
            + (processBlock lib s buffer).1.fftData (i * 2 + 1)
              * (processBlock lib s buffer).1.fftData (i * 2 + 1)))
      rw [hfloor] at this
      exact this
  · intro hfft hsqrt hzero i hi
    have hin : transformInput (multiplyWithWindowingTable lib
        (windowedValues (filterBlock lib.math s buffer).1
          ((filterBlock lib.math s buffer).2.map Prod.fst)) fftSize) = fun _ => 0 := by
      funext j
      unfold transformInput multiplyWithWindowingTable
      by_cases hj : j < fftSize
      · simp only [hj, if_true]
        rw [hzero j hj, zero_mul]
      · simp only [hj, if_false]
    rw [processBlock_scopeData_of_runs lib s buffer hrun i hi,
      processBlock_fftData_of_runs lib s buffer hrun, hin, hfft]
    simp only [mul_zero, add_zero, hsqrt]
    unfold gainToDecibels
    rw [if_neg (lt_irrefl 0), hfloor]

/-- Witness of C12: from the freshly prepared rational processor, a block of
1024 frames completes the window, so the transform runs; bin 0 of the
snapshot is at least -100. -/
theorem C12_snapshot_values_floored_witness :
    -100 ≤ (processBlock ratLibrary (prepareToPlay ratMath ratProcessor 44100 1024)
      (List.replicate 1024 (0, 0))).1.scopeData 0 :=
  ((C12_snapshot_values_floored ratLibrary (prepareToPlay ratMath ratProcessor 44100 1024)
    (List.replicate 1024 (0, 0)) rfl
    (by
      rw [transformRuns_eq ratLibrary _ _ (prepareToPlay_inv ratMath ratProcessor 44100 1024),
        List.length_replicate]
      exact decide_eq_true (by rw [fftSize_eq]; exact Nat.le_add_left 1024 _))).1 0
    (by rw [half_fftSize]; exact Nat.zero_lt_succ 511)).2

end SnapshotClaims

section StateClaims
variable {K Xml : Type}

/-- C14: for every malformed blob (it does not decode to an XML element, or
it decodes to an element without the tag name of the parameter state's type)
`setStateInformation` leaves the processor, and with it all nine parameter
values, exactly as it was. -/
theorem C14_malformed_state_ignored (io : Persistence K Xml) (stateType : String)
    (s : Processor K) (data : List Nat) (h : Malformed io stateType data) :
    setStateInformation io stateType s data = s
    ∧ (setStateInformation io stateType s data).band1 = s.band1
    ∧ (setStateInformation io stateType s data).band2 = s.band2
    ∧ (setStateInformation io stateType s data).band3 = s.band3 := by
  have e : setStateInformation io stateType s data = s := by
    unfold setStateInformation
    rcases h with h | ⟨xml, h, ht⟩
    · rw [h]
    · rw [h]
      simp [ht]
  rw [e]
  exact ⟨rfl, rfl, rfl, rfl⟩

/-- Witness of C14: a blob that decodes to an element with another tag. -/
theorem C14_malformed_state_ignored_witness :
    setStateInformation ratPersistence "Parameters" ratProcessor [60, 63] = ratProcessor
    ∧ (setStateInformation ratPersistence "Parameters" ratProcessor [60, 63]).band1
        = ratProcessor.band1
    ∧ (setStateInformation ratPersistence "Parameters" ratProcessor [60, 63]).band2
        = ratProcessor.band2
    ∧ (setStateInformation ratPersistence "Parameters" ratProcessor [60, 63]).band3
        = ratProcessor.band3 :=
  C14_malformed_state_ignored ratPersistence "Parameters" ratProcessor [60, 63]
    (Or.inr ⟨"Other", rfl, by decide⟩)

end StateClaims

/-! ## The ready flag -/

section Flag

theorem sincePoll_append_singleton (trace : List FlagStep) (x : FlagStep) :
    sincePoll (trace ++ [x]) = if x = FlagStep.poll then [] else sincePoll trace ++ [x] := by
  unfold sincePoll
  by_cases hx : x = FlagStep.poll
  · simp [hx, List.takeWhile]
  · simp [hx, List.takeWhile]

theorem flagRun_append (flag : Bool) (xs ys : List FlagStep) :
    flagRun flag (xs ++ ys) = flagRun (flagRun flag xs) ys := by
  simp [flagRun, List.foldl_append]

theorem flagRun_append_singleton (flag : Bool) (xs : List FlagStep) (x : FlagStep) :
    flagRun flag (xs ++ [x]) = flagStep (flagRun flag xs) x := by
  rw [flagRun_append]
  rfl

theorem flagObservations_append (xs ys : List FlagStep) (flag : Bool) :
    flagObservations flag (xs ++ ys)
      = flagObservations flag xs ++ flagObservations (flagRun flag xs) ys := by
  induction xs generalizing flag with
  | nil => rfl
  | cons x xs ih =>
    cases x with
    | publish => simpa [flagObservations, flagRun, flagStep] using ih true
    | poll => simpa [flagObservations, flagRun, flagStep] using ih false
    | idle => simpa [flagObservations, flagRun, flagStep] using ih flag

/-- The flag is up exactly when a publish has happened since the previous poll
(or since the start). -/
theorem flagRun_iff_publish_since_poll (trace : List FlagStep) :
    flagRun false trace = true ↔ FlagStep.publish ∈ sincePoll trace := by
  induction trace using List.reverseRecOn with
  | nil => simp [flagRun, sincePoll]
  | append_singleton xs x ih =>
    rw [flagRun_append_singleton, sincePoll_append_singleton]
    cases x with
    | publish => simp [flagStep]
    | poll => simp [flagStep]
    | idle => simpa [flagStep] using ih

theorem sincePoll_suffix (trace : List FlagStep) :
    ∃ a, trace = a ++ sincePoll trace ∧ FlagStep.poll ∉ sincePoll trace := by
  induction trace using List.reverseRecOn with
  | nil => exact ⟨[], by simp [sincePoll]⟩
  | append_singleton xs x ih =>
    obtain ⟨a, ha, hp⟩ := ih
    rw [sincePoll_append_singleton]
    by_cases hx : x = FlagStep.poll
    · exact ⟨xs ++ [x], by simp [hx]⟩
    · refine ⟨a, ?_, ?_⟩
      · rw [if_neg hx, ← List.append_assoc, ← ha]
      · rw [if_neg hx]
        simp only [List.mem_append, List.mem_singleton, not_or]
        exact ⟨hp, fun h => hx h.symm⟩

theorem spaced_of_append (xs : List FlagStep) (x : FlagStep) (h : Spaced (xs ++ [x])) :
    Spaced xs := by
  intro a b c hxs
  apply h a b (c ++ [x])
  rw [hxs]
  simp

/-- No publication is observed more than once. -/
theorem observed_le_published (trace : List FlagStep) :
    (flagObservations false trace).count true + (if flagRun false trace then 1 else 0)
      ≤ trace.count FlagStep.publish := by
  induction trace using List.reverseRecOn with
  | nil => simp [flagObservations, flagRun]
  | append_singleton xs x ih =>
    rw [flagObservations_append, flagRun_append_singleton, List.count_append,
      List.count_append]
    cases x with
    | publish =>
      simp only [flagObservations, flagStep, List.count_nil, if_true, List.count_singleton_self]
      split at ih <;> omega
    | poll =>
      cases hf : flagRun false xs <;> simp [flagObservations, flagStep, hf] at ih ⊢ <;> omega
    | idle =>
      simp only [flagObservations, flagStep, List.count_nil]
      simpa using ih

/-- Every publication is observed exactly once (or is still waiting for the
next poll) when a poll occurs between each two consecutive publishes. -/
theorem observed_eq_published (trace : List FlagStep) (h : Spaced trace) :
    (flagObservations false trace).count true + (if flagRun false trace then 1 else 0)
      = trace.count FlagStep.publish := by
  induction trace using List.reverseRecOn with
  | nil => simp [flagObservations, flagRun]
  | append_singleton xs x ih =>
    have ih' := ih (spaced_of_append xs x h)
    rw [flagObservations_append, flagRun_append_singleton, List.count_append,
      List.count_append]
    cases x with
    | publish =>
      have hdown : flagRun false xs = false := by
        by_contra hup
        have hup' : flagRun false xs = true := by simpa using hup
        obtain ⟨a, ha, hp⟩ := sincePoll_suffix xs
        obtain ⟨u, b, hub⟩ := List.append_of_mem ((flagRun_iff_publish_since_poll xs).mp hup')
        have hb : FlagStep.poll ∉ b := by
          intro hb
          apply hp
          rw [hub]
          simp [hb]
        apply hb
        apply h (a ++ u) b []
        rw [ha, hub]
        simp
      simp only [flagObservations, flagStep, List.count_nil, if_true, List.count_singleton_self]
      rw [hdown] at ih'
      simp at ih'
      omega
    | poll =>
      cases hf : flagRun false xs <;> simp [flagObservations, flagStep, hf] at ih' ⊢ <;> omega
    | idle =>
      simp only [flagObservations, flagStep, List.count_nil]
      simpa using ih'

end Flag

/-! ## Claims about the hand-off -/

section HandOff
variable {K : Type} [LinearOrderedField K]

theorem processBlock_newDataReady (lib : Library K) (s : Processor K)
    (buffer : List (K × K)) :
    (processBlock lib s buffer).1.newDataReady
      = (s.newDataReady || transformRuns lib s buffer) := by
  have hf := pushSamples_frame ((filterBlock lib.math s buffer).2.map Prod.fst)
    (filterBlock lib.math s buffer).1
  have hnd : (filterBlock lib.math s buffer).1.newDataReady = s.newDataReady := rfl
  have e : (processBlock lib s buffer).1
      = produceSnapshot lib (pushSamples (filterBlock lib.math s buffer).1
          ((filterBlock lib.math s buffer).2.map Prod.fst)) := rfl
  rw [e, transformRuns_def]
  unfold produceSnapshot
  cases hflag : (pushSamples (filterBlock lib.math s buffer).1
      ((filterBlock lib.math s buffer).2.map Prod.fst)).nextFFTBlockReady
  · simp [hf.2.1, hnd]
  · simp

theorem flagRun_cons (flag : Bool) (x : FlagStep) (xs : List FlagStep) :
    flagRun flag (x :: xs) = flagRun (flagStep flag x) xs := rfl

theorem uiRun_cons (lib : Library K) (s : Processor K) (e : UiEvent K)
    (rest : List (UiEvent K)) : uiRun lib s (e :: rest) = uiRun lib (uiStep lib s e) rest := rfl

/-- The ready flag of the processor follows the flag of the trace of steps. -/
theorem uiRun_newDataReady (lib : Library K) (events : List (UiEvent K)) (s : Processor K) :
    (uiRun lib s events).newDataReady = flagRun s.newDataReady (flagTrace lib s events) := by
  induction events generalizing s with
  | nil => rfl
  | cons e rest ih =>
    rw [uiRun_cons, ih]
    cases e with
    | audio a =>
      cases a with
      | processBlock buffer =>
        have h := processBlock_newDataReady lib s buffer
        simp only [flagTrace, flagRun_cons]
        congr 1
        show (processBlock lib s buffer).1.newDataReady = _
        rw [h]
        cases transformRuns lib s buffer <;> simp [flagStep]
      | setParameters b1 b2 b3 => rfl
    | timer => rfl

/-- The observations of the timer callbacks are those of the polls of the
trace of steps. -/
theorem repaints_eq (lib : Library K) (events : List (UiEvent K)) (s : Processor K) :
    repaints lib s events = flagObservations s.newDataReady (flagTrace lib s events) := by
  induction events generalizing s with
  | nil => rfl
  | cons e rest ih =>
    cases e with
    | audio a =>
      cases a with
      | processBlock buffer =>
        have h := processBlock_newDataReady lib s buffer
        simp only [repaints, flagTrace]
        rw [ih]
        have hn : (step lib s (Event.processBlock buffer)).newDataReady
            = (s.newDataReady || transformRuns lib s buffer) := h
        rw [hn]
        cases transformRuns lib s buffer <;> simp [flagObservations, flagStep]
      | setParameters b1 b2 b3 =>
        simp only [repaints, flagTrace]
        rw [ih]
        rfl
    | timer =>
      simp only [repaints, flagTrace]
      rw [ih]
      rfl

/-- C15: start with the ready flag down and take any interleaving of processor
events and timer callbacks, each as one atomic step. A timer callback made
after it observes `true` if and only if a `processBlock` call has published
since the previous timer callback (or since the start); the number of
callbacks that observed `true` is at most the number of publications; and
when a timer callback occurs between each two consecutive publications, every
publication has been observed exactly once or is the one still waiting. -/
theorem C15_flag_handoff (lib : Library K) (s : Processor K) (hs : s.newDataReady = false)
    (events : List (UiEvent K)) :
    ((timerCallback (uiRun lib s events)).1 = true
      ↔ FlagStep.publish ∈ sincePoll (flagTrace lib s events))
    ∧ (repaints lib s events).count true
        ≤ (flagTrace lib s events).count FlagStep.publish
    ∧ (Spaced (flagTrace lib s events) →
        (repaints lib s events).count true
            + (if (uiRun lib s events).newDataReady then 1 else 0)
          = (flagTrace lib s events).count FlagStep.publish) := by
  have hrun := uiRun_newDataReady lib events s
  have hobs := repaints_eq lib events s
  rw [hs] at hrun hobs
  refine ⟨?_, ?_, ?_⟩
  · show (uiRun lib s events).newDataReady = true ↔ _
    rw [hrun]
    exact flagRun_iff_publish_since_poll _
  · rw [hobs]
    have := observed_le_published (flagTrace lib s events)
    omega
  · intro hsp
    rw [hobs, hrun]
    exact observed_eq_published _ hsp

/-- Witness of C15: the freshly constructed rational processor, one short
block, then a timer callback. -/
theorem C15_flag_handoff_witness :
    (repaints ratLibrary ratProcessor
        [.audio (.processBlock [(1, 1)]), .timer]).count true
      ≤ (flagTrace ratLibrary ratProcessor
        [.audio (.processBlock [(1, 1)]), .timer]).count FlagStep.publish :=
  (C15_flag_handoff ratLibrary ratProcessor rfl
    [.audio (.processBlock [(1, 1)]), .timer]).2.1

end HandOff

/-! ## Windows that end with a call -/

section AlignedWindows
variable {K : Type} [LinearOrderedField K]

theorem leftStream_processBlock (lib : Library K) (s : Processor K) (buffer : List (K × K))
    (rest : List (Event K)) :
    leftStream lib s (.processBlock buffer :: rest)
      = (filterBlock lib.math s buffer).2.map Prod.fst
        ++ leftStream lib (step lib s (.processBlock buffer)) rest := rfl

theorem transformInputs_processBlock (lib : Library K) (s : Processor K)
    (buffer : List (K × K)) (rest : List (Event K)) :
    transformInputs lib s (.processBlock buffer :: rest)
      = (if transformRuns lib s buffer then
          [transformInput (multiplyWithWindowingTable lib
            (windowedValues (filterBlock lib.math s buffer).1
              ((filterBlock lib.math s buffer).2.map Prod.fst)) fftSize)]
        else [])
        ++ transformInputs lib (step lib s (.processBlock buffer)) rest := rfl

/-- The fifo that a call not going past the end of the window leaves for the
conditional: the samples `H` pushed since the window began followed by the
post-filter samples of this call. -/
theorem windowedValues_aligned (m : Math K) (s : Processor K) (buffer : List (K × K))
    (H : List K) (hH : H.length = s.fifoIndex)
    (hfifo : ∀ j, j < s.fifoIndex → s.fifo j = H.getD j 0)
    (hal : s.fifoIndex + buffer.length ≤ fftSize) (j : Nat)
    (hj : j < s.fifoIndex + buffer.length) :
    windowedValues (filterBlock m s buffer).1 ((filterBlock m s buffer).2.map Prod.fst) j
      = (H ++ (filterBlock m s buffer).2.map Prod.fst).getD j 0 := by
  have hc : (filterBlock m s buffer).1.fifoIndex = s.fifoIndex := rfl
  have hff : (filterBlock m s buffer).1.fifo = s.fifo := rfl
  have hl : ((filterBlock m s buffer).2.map Prod.fst).length = buffer.length := by
    rw [List.length_map, filterBlock_length]
  rw [windowedValues_eq, pushSamples_fifo_nowrap 0 _ _ (by rw [hc, hl]; exact hal), hc, hl, hff]
  by_cases hjc : j < s.fifoIndex
  · have : ¬ (s.fifoIndex ≤ j ∧ j < s.fifoIndex + buffer.length) := by omega
    rw [if_neg this, hfifo j hjc, List.getD_append _ _ _ _ (by rw [hH]; exact hjc)]
  · have : s.fifoIndex ≤ j ∧ j < s.fifoIndex + buffer.length := by omega
    rw [if_pos this, List.getD_append_right _ _ _ _ (by rw [hH]; omega), hH]

/-- While every window ends with a call, the `m`-th array handed to the
transform is the `m`-th window of the stream, each sample multiplied once by
its entry of the windowing table. The list `H` holds the samples pushed since
the current window began. -/
theorem aligned_transform_inputs (lib : Library K) (events : List (Event K))
    (s : Processor K) (H : List K) (hs : Inv s) (hH : H.length = s.fifoIndex)
    (hfifo : ∀ j, j < s.fifoIndex → s.fifo j = H.getD j 0) (hal : Aligned lib s events) :
    ∀ m f, (transformInputs lib s events)[m]? = some f → ∀ i, i < fftSize →
      f i = lib.windowingTable i * (H ++ leftStream lib s events).getD (m * fftSize + i) 0 := by
  induction events generalizing s H with
  | nil =>
    intro m f hm
    simp [transformInputs] at hm
  | cons e rest ih =>
    cases e with
    | setParameters b1 b2 b3 =>
      exact ih (step lib s (.setParameters b1 b2 b3)) H hs hH hfifo hal
    | processBlock buffer =>
      obtain ⟨hle, hrest⟩ := hal
      have hinv' := step_inv lib s (.processBlock buffer) hs
      have hidx := step_fifoIndex lib s buffer hs
      have hruns := transformRuns_eq lib s buffer hs
      have hl : ((filterBlock lib.math s buffer).2.map Prod.fst).length = buffer.length := by
        rw [List.length_map, filterBlock_length]
      have hwv := windowedValues_aligned lib.math s buffer H hH hfifo hle
      rw [leftStream_processBlock, transformInputs_processBlock, hruns, ← List.append_assoc]
      by_cases hw : s.fifoIndex + buffer.length < fftSize
      · -- the window is not complete yet
        have hnot : ¬ fftSize ≤ s.fifoIndex + buffer.length := Nat.not_le.mpr hw
        have hstate : step lib s (.processBlock buffer)
            = pushSamples (filterBlock lib.math s buffer).1
                ((filterBlock lib.math s buffer).2.map Prod.fst) :=
          analyse_idle lib _ _ (filterBlock_inv lib.math s buffer hs)
            (by rw [filterBlock_fifoIndex, hl]; exact hw)
        have hidx' : (step lib s (.processBlock buffer)).fifoIndex
            = s.fifoIndex + buffer.length := by
          rw [hidx]; exact Nat.mod_eq_of_lt hw
        have hH' : (H ++ (filterBlock lib.math s buffer).2.map Prod.fst).length
            = (step lib s (.processBlock buffer)).fifoIndex := by
          rw [List.length_append, hH, hl, hidx']
        have hfifo' : ∀ j, j < (step lib s (.processBlock buffer)).fifoIndex →
            (step lib s (.processBlock buffer)).fifo j
              = (H ++ (filterBlock lib.math s buffer).2.map Prod.fst).getD j 0 := by
          intro j hj
          rw [hidx'] at hj
          rw [hstate, ← windowedValues_eq]
          exact hwv j hj
        simp only [hnot, decide_False, Bool.false_eq_true, if_false, List.nil_append]
        exact ih _ _ hinv' hH' hfifo' hrest
      · -- the window is completed by the last sample of this call
        have hfull : s.fifoIndex + buffer.length = fftSize := by omega
        have hyes : fftSize ≤ s.fifoIndex + buffer.length := by omega
        have hidx' : (step lib s (.processBlock buffer)).fifoIndex = 0 := by
          rw [hidx, hfull]; exact Nat.mod_self _
        have hlen : (H ++ (filterBlock lib.math s buffer).2.map Prod.fst).length = fftSize := by
          rw [List.length_append, hH, hl, hfull]
        have ih' := ih (step lib s (.processBlock buffer)) [] hinv' (by rw [hidx']; rfl)
          (by intro j hj; rw [hidx'] at hj; exact absurd hj (Nat.not_lt_zero j)) hrest
        simp only [hyes, decide_True, if_true, List.singleton_append]
        intro m f hm i hi
        cases m with
        | zero =>
          rw [List.getElem?_cons_zero] at hm
          have hf := Option.some.inj hm
          rw [← hf, Nat.zero_mul, Nat.zero_add,
            List.getD_append _ _ _ _ (by rw [hlen]; exact hi)]
          unfold transformInput multiplyWithWindowingTable
          simp only [hi, if_true]
          rw [hwv i (by rw [hfull]; exact hi), mul_comm]
        | succ m' =>
          rw [List.getElem?_cons_succ] at hm
          have hthis := ih' m' f hm i hi
          rw [List.nil_append] at hthis
          rw [hthis, List.getD_append_right _ _ _ _ (by rw [hlen, Nat.succ_mul]; omega), hlen]
          have : (m' + 1) * fftSize + i - fftSize = m' * fftSize + i := by
            rw [Nat.succ_mul]; omega
          rw [this]

/-- C20: if, after `prepareToPlay`, every window completion coincides with the
end of a `processBlock` call, then the `m`-th array handed to the transform
holds at every position `i < 1024` the value `w[i] * x[m * 1024 + i]`, where `w`
is the windowing table and `x` the post-filter channel-0 stream: each sample is
windowed exactly once and no sample of another window is included. -/
theorem C20_aligned_windows (lib : Library K) (s0 : Processor K) (sampleRate : K)
    (samplesPerBlock : Nat) (events : List (Event K))
    (hal : Aligned lib (prepareToPlay lib.math s0 sampleRate samplesPerBlock) events) :
    ∀ m f,
      (transformInputs lib (prepareToPlay lib.math s0 sampleRate samplesPerBlock)
        events)[m]? = some f →
      ∀ i, i < fftSize →
        f i = lib.windowingTable i
          * (leftStream lib (prepareToPlay lib.math s0 sampleRate samplesPerBlock)
              events).getD (m * fftSize + i) 0 := by
  have h := aligned_transform_inputs lib events
    (prepareToPlay lib.math s0 sampleRate samplesPerBlock) []
    (prepareToPlay_inv lib.math s0 sampleRate samplesPerBlock) rfl
    (fun j hj => absurd hj (Nat.not_lt_zero j)) hal
  simpa using h

/-- Witness of C20: from the freshly prepared rational processor, one block of
exactly 1024 frames; position 0 of the array handed to the one transform. -/
theorem C20_aligned_windows_witness :
    transformInput (multiplyWithWindowingTable ratLibrary
        (windowedValues
          (filterBlock ratLibrary.math (prepareToPlay ratLibrary.math ratProcessor 44100 1024)
            (List.replicate 1024 (1, 1))).1
          ((filterBlock ratLibrary.math (prepareToPlay ratLibrary.math ratProcessor 44100 1024)
            (List.replicate 1024 (1, 1))).2.map Prod.fst)) fftSize) 0
      = ratLibrary.windowingTable 0
          * (leftStream ratLibrary (prepareToPlay ratLibrary.math ratProcessor 44100 1024)
              [.processBlock (List.replicate 1024 (1, 1))]).getD (0 * fftSize + 0) 0 :=
  C20_aligned_windows ratLibrary ratProcessor 44100 1024
    [.processBlock (List.replicate 1024 (1, 1))]
    (show (prepareToPlay ratLibrary.math ratProcessor 44100 1024).fifoIndex
        + (List.replicate 1024 ((1 : ℚ), (1 : ℚ))).length ≤ fftSize ∧ True from
      ⟨by rw [List.length_replicate, fftSize_eq]; exact Nat.le_refl 1024, trivial⟩)
    0 _
    (by
      have hruns : transformRuns ratLibrary
          (prepareToPlay ratLibrary.math ratProcessor 44100 1024)
          (List.replicate 1024 (1, 1)) = true := by
        rw [transformRuns_eq ratLibrary _ _
          (prepareToPlay_inv ratLibrary.math ratProcessor 44100 1024), List.length_replicate]
        exact decide_eq_true (by rw [fftSize_eq]; exact Nat.le_add_left 1024 _)
      rw [transformInputs_processBlock, hruns]
      rfl)
    0 (by rw [fftSize_eq]; exact Nat.zero_lt_succ 1023)

end AlignedWindows

/-! ## The two threads step by step -/

section Threads
variable {K : Type}

theorem sysRun_append (st : System K) (xs ys : List Thread) :
    sysRun st (xs ++ ys) = sysRun (sysRun st xs) ys := by
  simp [sysRun, List.foldl_append]

theorem sysRun_cons (st : System K) (x : Thread) (xs : List Thread) :
    sysRun st (x :: xs) = sysRun (sysStep st x) xs := rfl

theorem sysRun_nil (st : System K) : sysRun st [] = st := rfl

/-- `k` audio steps inside the loop over the bins. -/
theorem audio_writes (k : Nat) (st : System K) (v : Nat → K) (rest : List (Nat → K))
    (hp : st.pending = v :: rest) (hk : st.bin + k ≤ fftSize / 2) :
    sysRun st (List.replicate k Thread.audio)
      = { st with
          scopeData := fun i =>
            if st.bin ≤ i ∧ i < st.bin + k then v i else st.scopeData i
          bin := st.bin + k } := by
  induction k generalizing st with
  | zero =>
    obtain ⟨sd, fl, pe, bi, pu, pa, re, pi, ob⟩ := st
    simp only [List.replicate_zero, sysRun_nil, Nat.add_zero]
    congr 1
    funext i
    have : ¬ (bi ≤ i ∧ i < bi) := by omega
    rw [if_neg this]
  | succ k ih =>
    obtain ⟨sd, fl, pe, bi, pu, pa, re, pi, ob⟩ := st
    simp only at hp hk
    have hlt : bi < fftSize / 2 := by omega
    rw [List.replicate_succ, sysRun_cons]
    simp only [sysStep, audioStep, hp, hlt, if_true]
    rw [ih _ rfl (by simp only; omega)]
    simp only
    congr 1
    · funext i
      by_cases h1 : bi + 1 ≤ i ∧ i < bi + 1 + k
      · have h2 : bi ≤ i ∧ i < bi + (k + 1) := by omega
        rw [if_pos h1, if_pos h2]
      · rw [if_neg h1]
        by_cases h3 : i = bi
        · have h2 : bi ≤ i ∧ i < bi + (k + 1) := by omega
          rw [if_pos h3, if_pos h2]
        · have h2 : ¬ (bi ≤ i ∧ i < bi + (k + 1)) := by omega
          rw [if_neg h3, if_neg h2]
    · omega

/-- A whole publication: 512 bin writes and the store to the flag. -/
theorem audio_publishes (st : System K) (v : Nat → K) (rest : List (Nat → K))
    (hp : st.pending = v :: rest) (hb : st.bin = 0) :
    sysRun st (List.replicate 513 Thread.audio)
      = { st with
          scopeData := fun i => if i < fftSize / 2 then v i else st.scopeData i
          newDataReady := true
          pending := rest
          bin := 0
          published := st.published ++ [v] } := by
  have h : List.replicate 513 Thread.audio
      = List.replicate 512 Thread.audio ++ [Thread.audio] := by
    rw [← List.replicate_succ']
  rw [h, sysRun_append, audio_writes 512 st v rest hp (by rw [hb, half_fftSize])]
  obtain ⟨sd, fl, pe, bi, pu, pa, re, pi, ob⟩ := st
  simp only at hp hb
  subst hb
  simp only [sysRun_cons, sysRun_nil, sysStep, audioStep, hp]
  have : ¬ (0 + 512 < fftSize / 2) := by rw [half_fftSize]; omega
  simp only [this, if_false]
  congr 1
  funext i
  have e : (0 ≤ i ∧ i < 0 + 512) ↔ i < fftSize / 2 := by
    rw [half_fftSize]; omega
  simp only [e]

/-- `k` reads in the loop of `paint`, the last one excepted. -/
theorem paint_reads (k : Nat) (st : System K) (i : Nat) (hp : st.painting = some i)
    (hk : i + k < fftSize / 2) :
    sysRun st (List.replicate k Thread.ui)
      = { st with
          painting := some (i + k)
          reads := st.reads ++ (List.range' i k).map st.scopeData } := by
  induction k generalizing st i with
  | zero =>
    obtain ⟨sd, fl, pe, bi, pu, pa, re, pi, ob⟩ := st
    simp only at hp
    simp [sysRun_nil, hp]
  | succ k ih =>
    obtain ⟨sd, fl, pe, bi, pu, pa, re, pi, ob⟩ := st
    simp only at hp
    have hlt : i + 1 < fftSize / 2 := by omega
    rw [List.replicate_succ, sysRun_cons]
    simp only [sysStep, paintStep, hp, hlt, if_true]
    rw [ih _ (i + 1) rfl (by omega)]
    simp only [List.range'_succ, List.map_cons, List.append_assoc, List.singleton_append]
    congr 2
    omega

/-- The reads of bins `i .. 511` that finish a `paint`. -/
theorem paint_finishes (st : System K) (i : Nat) (hp : st.painting = some i)
    (hi : i < fftSize / 2) :
    sysRun st (List.replicate (fftSize / 2 - i) Thread.ui)
      = { st with
          painting := none
          reads := []
          pictures := st.pictures
            ++ [st.reads ++ (List.range' i (fftSize / 2 - i)).map st.scopeData] } := by
  have hk : fftSize / 2 - i = (fftSize / 2 - i - 1) + 1 := by omega
  have h : List.replicate (fftSize / 2 - i) Thread.ui
      = List.replicate (fftSize / 2 - i - 1) Thread.ui ++ [Thread.ui] := by
    rw [← List.replicate_succ', ← hk]
  rw [h, sysRun_append, paint_reads (fftSize / 2 - i - 1) st i hp (by omega)]
  obtain ⟨sd, fl, pe, bi, pu, pa, re, pi, ob⟩ := st
  have hlast : ¬ (i + (fftSize / 2 - i - 1) + 1 < fftSize / 2) := by omega
  simp only [sysRun_cons, sysRun_nil, sysStep, paintStep, hlast, if_false]
  congr 2
  have hr : List.range' i (fftSize / 2 - i)
      = List.range' i (fftSize / 2 - i - 1) ++ [i + (fftSize / 2 - i - 1)] := by
    conv_lhs => rw [hk]
    rw [List.range'_concat]
    simp
  rw [hr, List.map_append, List.append_assoc]
  rfl

/-- A timer callback that finds the flag up, and the whole `paint` after it,
with no step of the audio thread in between. -/
theorem paint_uninterrupted (st : System K) (hp : st.painting = none)
    (hf : st.newDataReady = true) :
    sysRun st (List.replicate 512 Thread.ui)
      = { st with
          newDataReady := false
          painting := none
          reads := []
          observed := st.observed + 1
          pictures := st.pictures ++ [(List.range' 1 511).map st.scopeData] } := by
  have h : List.replicate 512 Thread.ui
      = Thread.ui :: List.replicate (fftSize / 2 - 1) Thread.ui := by
    rw [half_fftSize]; rfl
  rw [h, sysRun_cons]
  obtain ⟨sd, fl, pe, bi, pu, pa, re, pi, ob⟩ := st
  simp only at hp hf
  subst hp hf
  simp only [sysStep, paintStep, if_true]
  rw [paint_finishes _ 1 rfl (by rw [half_fftSize]; omega)]
  simp only [List.nil_append, half_fftSize]

theorem sysInv_init [Zero K] (snapshots : List (Nat → K)) : SysInv (sysInit snapshots) := by
  refine ⟨Nat.zero_le _, ?_, ?_, ?_, ?_⟩
  · intro v hv
    simp [sysInit] at hv
  · intro v rest _ i hi
    exact absurd hi (Nat.not_lt_zero i)
  · intro h
    simp [sysInit] at h
  · simp [sysInit]

theorem sysInv_step (st : System K) (t : Thread) (h : SysInv st) : SysInv (sysStep st t) := by
  obtain ⟨sd, fl, pe, bi, pu, pa, re, pi, ob⟩ := st
  obtain ⟨h1, h2, h3, h4, h5⟩ := h
  simp only at h1 h2 h3 h4 h5
  cases t with
  | audio =>
    cases pe with
    | nil => exact ⟨h1, h2, h3, h4, h5⟩
    | cons v rest =>
      by_cases hb : bi < fftSize / 2
      · simp only [sysStep, audioStep, hb, if_true]
        refine ⟨by simp only; omega, ?_, ?_, h4, h5⟩
        · intro w hw i hi hi'
          simp only at hw hi ⊢
          have hne : i ≠ bi := by omega
          rw [if_neg hne]
          exact h2 w hw i (by omega) hi'
        · intro w rest' hw i hi
          simp only at hw hi ⊢
          have hv : v = w := (List.cons.inj hw).1
          by_cases hib : i = bi
          · rw [if_pos hib, hv]
          · rw [if_neg hib]
            exact h3 w rest' hw i (by omega)
      · simp only [sysStep, audioStep, hb, if_false]
        refine ⟨Nat.zero_le _, ?_, ?_, ?_, ?_⟩
        · intro w hw i _ hi'
          simp only at hw ⊢
          rw [List.getLast?_append, List.getLast?_singleton] at hw
          have hv : v = w := by simpa using hw
          rw [← hv]
          exact h3 v rest rfl i (by omega)
        · intro w rest' _ i hi
          exact absurd hi (Nat.not_lt_zero i)
        · intro _
          simp
        · simp only [List.length_append, List.length_singleton, if_true]
          split at h5 <;> omega
  | ui =>
    cases pa with
    | none =>
      cases fl with
      | false => exact ⟨h1, h2, h3, h4, h5⟩
      | true =>
        simp only [sysStep, paintStep, if_true]
        refine ⟨h1, h2, h3, ?_, ?_⟩
        · intro hf
          simp at hf
        · simp only [if_true] at h5
          simp only [Bool.false_eq_true, if_false]
          omega
    | some i =>
      by_cases hi : i + 1 < fftSize / 2
      · simp only [sysStep, paintStep, hi, if_true]
        exact ⟨h1, h2, h3, h4, h5⟩
      · simp only [sysStep, paintStep, hi, if_false]
        exact ⟨h1, h2, h3, h4, h5⟩

theorem sysInv_run (schedule : List Thread) (st : System K) (h : SysInv st) :
    SysInv (sysRun st schedule) := by
  induction schedule generalizing st with
  | nil => exact h
  | cons t rest ih => exact ih _ (sysInv_step st t h)

/-- The run of `tornSchedule`: the one `paint` returns bin 1 of the first
published array followed by bins 2 to 511 of the second. -/
theorem torn_run [Zero K] (A B : Nat → K) :
    (sysRun (sysInit [A, B]) tornSchedule).published = [A, B]
    ∧ (sysRun (sysInit [A, B]) tornSchedule).pictures
        = [A 1 :: (List.range' 2 510).map B] := by
  have h510 : List.replicate 510 Thread.ui = List.replicate (fftSize / 2 - 2) Thread.ui := by
    rw [half_fftSize]
  unfold tornSchedule
  rw [sysRun_append, sysRun_append, sysRun_append,
    audio_publishes (sysInit [A, B]) A [B] rfl rfl]
  simp only [sysInit, sysRun_cons, sysRun_nil, sysStep, paintStep, if_true]
  have h2 : (1 : Nat) + 1 < fftSize / 2 := by rw [half_fftSize]; omega
  simp only [h2, if_true, List.nil_append]
  rw [audio_publishes _ B [] rfl rfl, h510, paint_finishes _ 2 rfl (by rw [half_fftSize]; omega)]
  have h1 : (1 : Nat) < fftSize / 2 := by rw [half_fftSize]; omega
  refine ⟨rfl, ?_⟩
  simp only [h1, if_true, List.nil_append, List.singleton_append, half_fftSize]
  have hlt : (1 : Nat) < 512 := by omega
  have hsub : 512 - 2 = 510 := by omega
  have hmap : List.map (fun i => if i < 512 then B i else if i < 512 then A i else 0)
      (List.range' 2 510) = List.map B (List.range' 2 510) := by
    apply List.map_congr_left
    intro i hi
    rw [List.mem_range'_1] at hi
    have : i < 512 := by omega
    simp only [this, if_true]
  rw [if_pos hlt, hsub, hmap]

/-- C16 as stated fails: with one array access or flag operation per step, the
schedule `tornSchedule` makes the single `paint` that follows the timer callback
return -100 dB for bin 1, from the first published array (all -100), and
-20 dB for bins 2 to 511, from the second (all -20): what it has read is
neither published array. -/
theorem C16_paint_reads_mixture :
    (sysRun (sysInit [fun _ => (-100 : ℚ), fun _ => -20]) tornSchedule).published.length = 2
    ∧ (sysRun (sysInit [fun _ => (-100 : ℚ), fun _ => -20]) tornSchedule).pictures
        = [(-100) :: List.replicate 510 (-20)] := by
  obtain ⟨h1, h2⟩ := torn_run (fun _ => (-100 : ℚ)) (fun _ => -20)
  have hconst : List.map (fun _ => (-20 : ℚ)) (List.range' 2 510)
      = List.replicate 510 (-20) := by
    rw [List.map_const', List.length_range']
  rw [h1, h2, hconst]
  exact ⟨rfl, rfl⟩

/-- C16 (amended): in every state the two threads can reach from the start, if
the message thread is waiting for the timer, the flag is up and the audio
thread has not begun to write another array, then the timer callback and the
`paint` after it, run with no step of the audio thread in between, clear the
flag and read bins 1 to 511 of the most recently published array, completely
written; and at no time have more timer callbacks found the flag up than
there were publications. -/
theorem C16_uninterrupted_paint_reads_last_snapshot [Zero K] (snapshots : List (Nat → K))
    (schedule : List Thread)
    (hp : (sysRun (sysInit snapshots) schedule).painting = none)
    (hf : (sysRun (sysInit snapshots) schedule).newDataReady = true)
    (hb : (sysRun (sysInit snapshots) schedule).bin = 0) :
    (∃ v, (sysRun (sysInit snapshots) schedule).published.getLast? = some v
      ∧ (sysRun (sysRun (sysInit snapshots) schedule)
            (List.replicate 512 Thread.ui)).pictures
          = (sysRun (sysInit snapshots) schedule).pictures ++ [(List.range' 1 511).map v])
    ∧ (sysRun (sysRun (sysInit snapshots) schedule)
          (List.replicate 512 Thread.ui)).newDataReady = false
    ∧ (sysRun (sysInit snapshots) schedule).observed
        ≤ (sysRun (sysInit snapshots) schedule).published.length := by
  have hinv := sysInv_run schedule _ (sysInv_init snapshots)
  generalize sysRun (sysInit snapshots) schedule = st at hp hf hb hinv
  obtain ⟨_, h2, _, h4, h5⟩ := hinv
  rw [paint_uninterrupted st hp hf]
  refine ⟨?_, rfl, by omega⟩
  have hne := h4 hf
  obtain ⟨v, hv⟩ : ∃ v, st.published.getLast? = some v := by
    cases hl : st.published.getLast? with
    | none => exact absurd (List.getLast?_eq_none_iff.mp hl) hne
    | some v => exact ⟨v, rfl⟩
  refine ⟨v, hv, ?_⟩
  simp only
  congr 2
  apply List.map_congr_left
  intro i hi
  rw [List.mem_range'_1] at hi
  exact h2 v hv i (by rw [hb]; exact Nat.zero_le i) (by rw [half_fftSize]; omega)

/-- Witness of amended C16: one array to publish, and the schedule that
publishes it. -/
theorem C16_uninterrupted_paint_reads_last_snapshot_witness :
    (sysRun (sysRun (sysInit [fun _ => (-100 : ℚ)]) (List.replicate 513 Thread.audio))
        (List.replicate 512 Thread.ui)).newDataReady = false
    ∧ (sysRun (sysInit [fun _ => (-100 : ℚ)]) (List.replicate 513 Thread.audio)).observed
        ≤ (sysRun (sysInit [fun _ => (-100 : ℚ)])
            (List.replicate 513 Thread.audio)).published.length :=
  (C16_uninterrupted_paint_reads_last_snapshot [fun _ => (-100 : ℚ)]
    (List.replicate 513 Thread.audio)
    (by rw [audio_publishes _ (fun _ => (-100 : ℚ)) [] rfl rfl]; rfl)
    (by rw [audio_publishes _ (fun _ => (-100 : ℚ)) [] rfl rfl])
    (by rw [audio_publishes _ (fun _ => (-100 : ℚ)) [] rfl rfl])).2

end Threads

/-! ## The spectrum of a windowed sinusoid -/

section Spectrum

theorem expSum_geom (β : ℝ) :
    expSum β * (Complex.exp ((β : ℂ) * Complex.I) - 1)
      = Complex.exp (((1024 * β : ℝ) : ℂ) * Complex.I) - 1 := by
  have h : ∀ n : ℕ, Complex.exp (((β * n : ℝ) : ℂ) * Complex.I)
      = (Complex.exp ((β : ℂ) * Complex.I)) ^ n := by
    intro n
    rw [← Complex.exp_nat_mul]
    congr 1
    push_cast
    ring
  unfold expSum
  simp_rw [h]
  rw [geom_sum_mul, ← Complex.exp_nat_mul]
  congr 2
  push_cast
  ring

theorem two_sub_two_cos (x : ℝ) : 2 - 2 * Real.cos x = 4 * Real.sin (x / 2) ^ 2 := by
  have h := Real.cos_two_mul (x / 2)
  have h2 := Real.sin_sq_add_cos_sq (x / 2)
  have e : 2 * (x / 2) = x := by ring
  rw [e] at h
  nlinarith

theorem normSq_exp_sub_one (x : ℝ) :
    Complex.normSq (Complex.exp ((x : ℂ) * Complex.I) - 1) = 4 * Real.sin (x / 2) ^ 2 := by
  rw [← two_sub_two_cos, Complex.exp_mul_I, ← Complex.ofReal_cos, ← Complex.ofReal_sin,
    Complex.normSq_apply]
  simp only [Complex.sub_re, Complex.add_re, Complex.ofReal_re, Complex.mul_re,
    Complex.ofReal_im, Complex.I_re, Complex.I_im, Complex.one_re, Complex.sub_im,
    Complex.add_im, Complex.mul_im, Complex.one_im, mul_zero, mul_one, sub_zero, zero_add,
    add_zero, zero_mul]
  nlinarith [Real.sin_sq_add_cos_sq x]

/-- The squared modulus of the sum, as a ratio of squared sines. -/
theorem expSum_normSq (β : ℝ) :
    Complex.normSq (expSum β) * Real.sin (β / 2) ^ 2 = Real.sin (512 * β) ^ 2 := by
  have h := congrArg Complex.normSq (expSum_geom β)
  rw [Complex.normSq_mul, normSq_exp_sub_one, normSq_exp_sub_one] at h
  have e : 1024 * β / 2 = 512 * β := by ring
  rw [e] at h
  linarith

theorem expSum_zero : expSum 0 = 1024 := by
  unfold expSum
  simp

theorem expSum_abs_le (β : ℝ) : Complex.abs (expSum β) ≤ 1024 := by
  unfold expSum
  calc Complex.abs (∑ n ∈ Finset.range 1024, Complex.exp (((β * n : ℝ) : ℂ) * Complex.I))
      ≤ ∑ n ∈ Finset.range 1024, Complex.abs (Complex.exp (((β * n : ℝ) : ℂ) * Complex.I)) :=
        (Complex.abs.sum_le _ _)
    _ = ∑ _n ∈ Finset.range 1024, (1 : ℝ) := by
        apply Finset.sum_congr rfl
        intro n _
        exact Complex.abs_exp_ofReal_mul_I _
    _ = 1024 := by simp


theorem gridSum_normSq (q : ℤ) :
    Complex.normSq (gridSum q) * Real.sin (Real.pi * q / 1047552) ^ 2
      = Real.sin (Real.pi * q / 1023) ^ 2 := by
  have h := expSum_normSq (2 * Real.pi * q / 1047552)
  have e1 : 2 * Real.pi * q / 1047552 / 2 = Real.pi * q / 1047552 := by ring
  have e2 : 512 * (2 * Real.pi * q / 1047552) = Real.pi * q / 1023 := by ring
  rw [e1, e2] at h
  exact h

theorem sin_sq_add_int_mul_pi (x : ℝ) (t : ℤ) :
    Real.sin (x + t * Real.pi) ^ 2 = Real.sin x ^ 2 := by
  rw [Real.sin_add_int_mul_pi, mul_pow]
  rcases Int.even_or_odd t with h | h
  · rw [h.neg_one_zpow]; ring
  · rw [h.neg_one_zpow]; ring

theorem sin_sq_grid (t σ : ℤ) (hσ : σ = 1 ∨ σ = -1) :
    Real.sin (Real.pi * ((1023 * t + σ : ℤ) : ℝ) / 1023) ^ 2 = Real.sin (Real.pi / 1023) ^ 2 := by
  have e : Real.pi * ((1023 * t + σ : ℤ) : ℝ) / 1023 = Real.pi * σ / 1023 + t * Real.pi := by
    push_cast
    ring
  rw [e, sin_sq_add_int_mul_pi]
  rcases hσ with h | h
  · rw [h]; norm_num
  · rw [h]
    have : Real.pi * ((-1 : ℤ) : ℝ) / 1023 = -(Real.pi / 1023) := by push_cast; ring
    rw [this, Real.sin_neg]
    ring

theorem sin_ge_of_mem (δ x : ℝ) (h1 : δ ≤ x) (h2 : x ≤ Real.pi - δ) (hδ : 0 ≤ δ) :
    2 / Real.pi * δ ≤ Real.sin x := by
  have hpi := Real.pi_pos
  have hc : 0 ≤ 2 / Real.pi := by positivity
  rcases le_total x (Real.pi / 2) with h | h
  · exact le_trans (mul_le_mul_of_nonneg_left h1 hc) (Real.mul_le_sin (le_trans hδ h1) h)
  · have h3 : 2 / Real.pi * (Real.pi - x) ≤ Real.sin (Real.pi - x) :=
      Real.mul_le_sin (by linarith) (by linarith)
    rw [Real.sin_pi_sub] at h3
    exact le_trans (mul_le_mul_of_nonneg_left (by linarith) hc) h3

theorem sin_grid_lower (q : ℤ) (h1 : 512 ≤ q) (h2 : q ≤ 1047552 - 512) :
    1 / 1023 ≤ Real.sin (Real.pi * q / 1047552) := by
  have hpi := Real.pi_pos
  have hq1 : (512 : ℝ) ≤ q := by exact_mod_cast h1
  have hq2 : (q : ℝ) ≤ 1047552 - 512 := by exact_mod_cast h2
  have h := sin_ge_of_mem (Real.pi * 512 / 1047552) (Real.pi * q / 1047552)
    (by
      apply div_le_div_of_nonneg_right _ (by norm_num)
      exact mul_le_mul_of_nonneg_left hq1 hpi.le)
    (by
      have : Real.pi - Real.pi * 512 / 1047552 = Real.pi * (1047552 - 512) / 1047552 := by ring
      rw [this]
      apply div_le_div_of_nonneg_right _ (by norm_num)
      exact mul_le_mul_of_nonneg_left hq2 hpi.le)
    (by positivity)
  have e : 2 / Real.pi * (Real.pi * 512 / 1047552) = 1 / 1023 := by
    field_simp
    ring
  rw [e] at h
  exact h

theorem sin_sq_grid_lower (q : ℤ) (h : (512 ≤ q ∧ q ≤ 1047552 - 512)
    ∨ (512 ≤ -q ∧ -q ≤ 1047552 - 512)) :
    (1 / 1023 : ℝ) ^ 2 ≤ Real.sin (Real.pi * q / 1047552) ^ 2 := by
  rcases h with h | h
  · exact pow_le_pow_left₀ (by norm_num) (sin_grid_lower q h.1 h.2) 2
  · have h3 := sin_grid_lower (-q) h.1 h.2
    have e : Real.pi * ((-q : ℤ) : ℝ) / 1047552 = -(Real.pi * q / 1047552) := by
      push_cast
      ring
    rw [e, Real.sin_neg] at h3
    have := pow_le_pow_left₀ (by norm_num) h3 2
    calc (1 / 1023 : ℝ) ^ 2 ≤ (-Real.sin (Real.pi * q / 1047552)) ^ 2 := this
      _ = Real.sin (Real.pi * q / 1047552) ^ 2 := by ring

theorem abs_le_of_normSq_le (z : ℂ) (b : ℝ) (hb : 0 ≤ b) (h : Complex.normSq z ≤ b ^ 2) :
    Complex.abs z ≤ b := by
  have h0 := Complex.abs.nonneg z
  have hs := Complex.sq_abs z
  by_contra hc
  push_neg at hc
  nlinarith

theorem le_abs_of_le_normSq (z : ℂ) (b : ℝ) (_hb : 0 ≤ b) (h : b ^ 2 ≤ Complex.normSq z) :
    b ≤ Complex.abs z := by
  have h0 := Complex.abs.nonneg z
  have hs := Complex.sq_abs z
  by_contra hc
  push_neg at hc
  nlinarith

/-- Away from the multiples of `1024 * 1023` the sum is small. -/
theorem gridSum_far (t σ : ℤ) (hσ : σ = 1 ∨ σ = -1)
    (h : (512 ≤ 1023 * t + σ ∧ 1023 * t + σ ≤ 1047552 - 512)
      ∨ (512 ≤ -(1023 * t + σ) ∧ -(1023 * t + σ) ≤ 1047552 - 512)) :
    Complex.abs (gridSum (1023 * t + σ)) ≤ 4 := by
  have hpi := Real.pi_pos
  apply abs_le_of_normSq_le _ _ (by norm_num)
  have hid := gridSum_normSq (1023 * t + σ)
  rw [sin_sq_grid t σ hσ] at hid
  have hlow := sin_sq_grid_lower (1023 * t + σ) h
  have hup : Real.sin (Real.pi / 1023) ^ 2 ≤ (Real.pi / 1023) ^ 2 :=
    pow_le_pow_left₀ (Real.sin_nonneg_of_nonneg_of_le_pi (by positivity)
      (by apply div_le_self hpi.le; norm_num)) (Real.sin_lt (by positivity)).le 2
  have hn := Complex.normSq_nonneg (gridSum (1023 * t + σ))
  have h4 := Real.pi_le_four
  have h5 : Complex.normSq (gridSum (1023 * t + σ)) * (1 / 1023 : ℝ) ^ 2
      ≤ (Real.pi / 1023) ^ 2 :=
    le_trans (le_trans (mul_le_mul_of_nonneg_left hlow hn) hid.le) hup
  have h6 : (Real.pi / 1023) ^ 2 ≤ (4 / 1023 : ℝ) ^ 2 :=
    pow_le_pow_left₀ (by positivity) (div_le_div_of_nonneg_right h4 (by norm_num)) 2
  nlinarith

/-- Next to zero the sum is almost 1024. -/
theorem gridSum_near (σ : ℤ) (hσ : σ = 1 ∨ σ = -1) :
    1023 ≤ Complex.abs (gridSum σ) := by
  have hpi := Real.pi_pos
  apply le_abs_of_le_normSq _ _ (by norm_num)
  have hid := gridSum_normSq σ
  have e0 : σ = 1023 * 0 + σ := by ring
  have hs := sin_sq_grid 0 σ hσ
  rw [← e0] at hs
  rw [hs] at hid
  have hsmall : Real.sin (Real.pi * σ / 1047552) ^ 2 ≤ (Real.pi / 1047552) ^ 2 := by
    have hpos : Real.sin (Real.pi / 1047552) ^ 2 ≤ (Real.pi / 1047552) ^ 2 :=
      pow_le_pow_left₀ (Real.sin_nonneg_of_nonneg_of_le_pi (by positivity)
        (by apply div_le_self hpi.le; norm_num)) (Real.sin_lt (by positivity)).le 2
    rcases hσ with h | h
    · rw [h]
      have : Real.pi * ((1 : ℤ) : ℝ) / 1047552 = Real.pi / 1047552 := by push_cast; ring
      rw [this]
      exact hpos
    · rw [h]
      have : Real.pi * ((-1 : ℤ) : ℝ) / 1047552 = -(Real.pi / 1047552) := by push_cast; ring
      rw [this, Real.sin_neg]
      calc (-Real.sin (Real.pi / 1047552)) ^ 2 = Real.sin (Real.pi / 1047552) ^ 2 := by ring
        _ ≤ _ := hpos
  have h4 := Real.pi_le_four
  have hx0 : 0 < Real.pi / 1023 := by positivity
  have hx1 : Real.pi / 1023 ≤ 1 / 16 := by
    rw [div_le_iff₀ (by norm_num)]
    linarith
  have hbig : Real.pi / 1023 - (Real.pi / 1023) ^ 3 / 4 < Real.sin (Real.pi / 1023) :=
    Real.sin_gt_sub_cube hx0 (by linarith)
  have hlow0 : 0 ≤ Real.pi / 1023 - (Real.pi / 1023) ^ 3 / 4 := by
    have : (Real.pi / 1023) ^ 3 / 4 ≤ Real.pi / 1023 := by nlinarith
    linarith
  have hbig2 : (Real.pi / 1023 - (Real.pi / 1023) ^ 3 / 4) ^ 2 ≤ Real.sin (Real.pi / 1023) ^ 2 :=
    pow_le_pow_left₀ hlow0 hbig.le 2
  have hn := Complex.normSq_nonneg (gridSum σ)
  -- normSq * (π/M)² ≥ (x - x³/4)², with x = π/1023 = 1024 (π/M)
  have h7 : (Real.pi / 1023 - (Real.pi / 1023) ^ 3 / 4) ^ 2
      ≤ Complex.normSq (gridSum σ) * (Real.pi / 1047552) ^ 2 :=
    le_trans hbig2 (le_trans hid.ge (mul_le_mul_of_nonneg_left hsmall hn))
  have e : Real.pi / 1023 - (Real.pi / 1023) ^ 3 / 4
      = (Real.pi / 1047552) * (1024 * (1 - (Real.pi / 1023) ^ 2 / 4)) := by ring
  rw [e, mul_pow] at h7
  have hy : 0 < (Real.pi / 1047552) ^ 2 := by positivity
  have h8 : (1024 * (1 - (Real.pi / 1023) ^ 2 / 4)) ^ 2 ≤ Complex.normSq (gridSum σ) := by
    by_contra hc
    push_neg at hc
    nlinarith
  have h9 : (1023 : ℝ) ≤ 1024 * (1 - (Real.pi / 1023) ^ 2 / 4) := by nlinarith
  calc (1023 : ℝ) ^ 2 ≤ (1024 * (1 - (Real.pi / 1023) ^ 2 / 4)) ^ 2 :=
        pow_le_pow_left₀ (by norm_num) h9 2
    _ ≤ _ := h8

/-- At the other multiples of 1023 the sum vanishes. -/
theorem gridSum_multiple (m : ℤ) (hm : ¬ (1024 : ℤ) ∣ m) : gridSum (1023 * m) = 0 := by
  have hid := gridSum_normSq (1023 * m)
  have e1 : Real.pi * ((1023 * m : ℤ) : ℝ) / 1023 = m * Real.pi := by
    push_cast
    ring
  rw [e1, Real.sin_int_mul_pi] at hid
  have hne : Real.sin (Real.pi * ((1023 * m : ℤ) : ℝ) / 1047552) ≠ 0 := by
    intro h0
    obtain ⟨n, hn⟩ := Real.sin_eq_zero_iff.mp h0
    apply hm
    refine ⟨n, ?_⟩
    have hpi := Real.pi_pos
    have h1 : (n : ℝ) * Real.pi = (m : ℝ) / 1024 * Real.pi := by
      rw [hn]
      push_cast
      ring
    have h2 : (n : ℝ) = (m : ℝ) / 1024 := mul_right_cancel₀ hpi.ne' h1
    have h3 : (m : ℝ) = 1024 * n := by rw [h2]; ring
    exact_mod_cast h3
  have hz : Complex.normSq (gridSum (1023 * m)) = 0 := by
    have hp : Real.sin (Real.pi * ((1023 * m : ℤ) : ℝ) / 1047552) ^ 2 ≠ 0 := pow_ne_zero 2 hne
    have : Complex.normSq (gridSum (1023 * m))
        * Real.sin (Real.pi * ((1023 * m : ℤ) : ℝ) / 1047552) ^ 2 = 0 := by
      rw [hid]; norm_num
    rcases mul_eq_zero.mp this with h | h
    · exact h
    · exact absurd h hp
  exact Complex.normSq_eq_zero.mp hz

theorem gridSum_zero : gridSum 0 = 1024 := by
  unfold gridSum
  have : 2 * Real.pi * ((0 : ℤ) : ℝ) / 1047552 = 0 := by push_cast; ring
  rw [this, expSum_zero]

theorem gridSum_abs_le (q : ℤ) : Complex.abs (gridSum q) ≤ 1024 := expSum_abs_le _


theorem exp_ofReal_add (x y : ℝ) :
    Complex.exp (((x + y : ℝ) : ℂ) * Complex.I)
      = Complex.exp ((x : ℂ) * Complex.I) * Complex.exp ((y : ℂ) * Complex.I) := by
  rw [← Complex.exp_add]
  congr 1
  push_cast
  ring

theorem cos_as_exp (x : ℝ) :
    ((Real.cos x : ℝ) : ℂ)
      = (Complex.exp ((x : ℂ) * Complex.I) + Complex.exp (((-x : ℝ) : ℂ) * Complex.I)) / 2 := by
  rw [Complex.ofReal_cos, Complex.cos]
  congr 2
  push_cast
  ring_nf

theorem sin_as_exp (x : ℝ) :
    ((Real.sin x : ℝ) : ℂ)
      = (Complex.exp (((-x : ℝ) : ℂ) * Complex.I) - Complex.exp ((x : ℂ) * Complex.I))
          * Complex.I / 2 := by
  rw [Complex.ofReal_sin, Complex.sin]
  congr 3
  push_cast
  ring_nf

theorem leak_eq_sum (m : ℤ) :
    leak m = ∑ n ∈ Finset.range 1024,
      Complex.exp (((2 * Real.pi * m * n / 1024 : ℝ) : ℂ) * Complex.I)
        * ((1 - Real.cos (2 * Real.pi * n / 1023) : ℝ) : ℂ) := by
  unfold leak gridSum expSum
  rw [← Finset.sum_add_distrib, Finset.mul_sum, ← Finset.sum_sub_distrib]
  apply Finset.sum_congr rfl
  intro n _
  have e0 : (2 * Real.pi * ((1023 * m : ℤ) : ℝ) / 1047552 * n : ℝ)
      = 2 * Real.pi * m * n / 1024 := by
    push_cast
    ring
  have e1 : (2 * Real.pi * ((1023 * (m + 1) + 1 : ℤ) : ℝ) / 1047552 * n : ℝ)
      = 2 * Real.pi * m * n / 1024 + 2 * Real.pi * n / 1023 := by
    push_cast
    ring
  have e2 : (2 * Real.pi * ((1023 * (m + -1) + -1 : ℤ) : ℝ) / 1047552 * n : ℝ)
      = 2 * Real.pi * m * n / 1024 + -(2 * Real.pi * n / 1023) := by
    push_cast
    ring
  rw [e0, e1, e2, exp_ofReal_add, exp_ofReal_add, Complex.ofReal_sub, Complex.ofReal_one,
    cos_as_exp]
  ring


theorem bin_eq_leak (factor : ℝ) (k j : ℕ) :
    ∑ n ∈ Finset.range 1024,
      ((factor * (1 / 2 - 1 / 2 * Real.cos (2 * Real.pi * n / 1023))
          * Real.sin (2 * Real.pi * k * n / 1024) : ℝ) : ℂ)
        * Complex.exp (((-(2 * Real.pi * j * n / 1024) : ℝ) : ℂ) * Complex.I)
      = -((factor : ℂ) * Complex.I / 4) * (leak ((k : ℤ) - j) - leak (-(k : ℤ) - j)) := by
  rw [leak_eq_sum, leak_eq_sum, ← Finset.sum_sub_distrib, Finset.mul_sum]
  apply Finset.sum_congr rfl
  intro n _
  have e1 : (2 * Real.pi * (((k : ℤ) - j : ℤ) : ℝ) * n / 1024 : ℝ)
      = 2 * Real.pi * k * n / 1024 + -(2 * Real.pi * j * n / 1024) := by
    push_cast
    ring
  have e2 : (2 * Real.pi * ((-(k : ℤ) - j : ℤ) : ℝ) * n / 1024 : ℝ)
      = -(2 * Real.pi * k * n / 1024) + -(2 * Real.pi * j * n / 1024) := by
    push_cast
    ring
  rw [e1, e2, exp_ofReal_add, exp_ofReal_add]
  simp only [Complex.ofReal_mul, Complex.ofReal_sub, Complex.ofReal_one]
  rw [sin_as_exp, cos_as_exp]
  push_cast
  ring

theorem abs_sub_le_add (a b : ℂ) : Complex.abs (a - b) ≤ Complex.abs a + Complex.abs b := by
  have := norm_sub_le a b
  simpa only [Complex.norm_eq_abs] using this

theorem abs_sub_ge (a b : ℂ) : Complex.abs a - Complex.abs b ≤ Complex.abs (a - b) := by
  have := norm_sub_norm_le a b
  simpa only [Complex.norm_eq_abs] using this

theorem abs_half_add_le (x y : ℂ) (bx bY : ℝ) (hx : Complex.abs x ≤ bx)
    (hy : Complex.abs y ≤ bY) : Complex.abs (1 / 2 * (x + y)) ≤ (bx + bY) / 2 := by
  have h2 : Complex.abs (1 / 2 : ℂ) = 1 / 2 := by
    rw [map_div₀, map_one, Complex.abs_two]
  rw [map_mul, h2]
  have := Complex.abs.add_le x y
  linarith

theorem abs_half_add_ge (x y : ℂ) (bx bY : ℝ) (hx : bx ≤ Complex.abs x)
    (hy : Complex.abs y ≤ bY) : (bx - bY) / 2 ≤ Complex.abs (1 / 2 * (x + y)) := by
  have h2 : Complex.abs (1 / 2 : ℂ) = 1 / 2 := by
    rw [map_div₀, map_one, Complex.abs_two]
  rw [map_mul, h2]
  have := abs_sub_ge x (-y)
  rw [sub_neg_eq_add, map_neg_eq_map] at this
  linarith

theorem leak_centre : 1020 ≤ Complex.abs (leak 0) := by
  have h1 := gridSum_far 1 1 (Or.inl rfl) (by omega)
  have h2 := gridSum_far (-1) (-1) (Or.inr rfl) (by omega)
  have h3 := abs_half_add_le _ _ 4 4 h1 h2
  have e : leak 0 = 1024 - 1 / 2 * (gridSum (1023 * 1 + 1) + gridSum (1023 * -1 + -1)) := by
    unfold leak
    rw [show (1023 : ℤ) * 0 = 0 from rfl, gridSum_zero]
    rfl
  rw [e]
  have h4 := abs_sub_ge (1024 : ℂ) (1 / 2 * (gridSum (1023 * 1 + 1) + gridSum (1023 * -1 + -1)))
  have h5 : Complex.abs (1024 : ℂ) = 1024 := by
    rw [show (1024 : ℂ) = ((1024 : ℝ) : ℂ) by norm_num, Complex.abs_ofReal]
    norm_num
  rw [h5] at h4
  linarith

/-- One bin beside the centre: about half the centre value. -/
theorem leak_side (m : ℤ) (hm : m = 1 ∨ m = -1) :
    1019 / 2 ≤ Complex.abs (leak m) ∧ Complex.abs (leak m) ≤ 514 := by
  have hz : gridSum (1023 * m) = 0 := gridSum_multiple m (by omega)
  unfold leak
  rw [hz, zero_sub, map_neg_eq_map]
  rcases hm with h | h
  · subst h
    have hn := gridSum_near (-1) (Or.inr rfl)
    have hn2 := gridSum_abs_le (-1)
    have hf := gridSum_far 2 1 (Or.inl rfl) (by omega)
    have e1 : (1023 : ℤ) * (1 + -1) + -1 = -1 := by norm_num
    have e2 : (1023 : ℤ) * (1 + 1) + 1 = 1023 * 2 + 1 := by norm_num
    rw [e1, e2, add_comm]
    exact ⟨by have := abs_half_add_ge _ _ 1023 4 hn hf; linarith,
      by have := abs_half_add_le _ _ 1024 4 hn2 hf; linarith⟩
  · subst h
    have hn := gridSum_near 1 (Or.inl rfl)
    have hn2 := gridSum_abs_le 1
    have hf := gridSum_far (-2) (-1) (Or.inr rfl) (by omega)
    have e1 : (1023 : ℤ) * (-1 + 1) + 1 = 1 := by norm_num
    have e2 : (1023 : ℤ) * (-1 + -1) + -1 = 1023 * -2 + -1 := by norm_num
    rw [e1, e2]
    exact ⟨by have := abs_half_add_ge _ _ 1023 4 hn hf; linarith,
      by have := abs_half_add_le _ _ 1024 4 hn2 hf; linarith⟩

/-- Two bins or more from the centre: almost nothing. -/
theorem leak_far (m : ℤ) (hm : (2 ≤ m ∧ m ≤ 1022) ∨ (2 ≤ -m ∧ -m ≤ 1022)) :
    Complex.abs (leak m) ≤ 4 := by
  have hz : gridSum (1023 * m) = 0 := gridSum_multiple m (by omega)
  unfold leak
  rw [hz, zero_sub, map_neg_eq_map]
  have h1 := gridSum_far (m + 1) 1 (Or.inl rfl) (by omega)
  have h2 := gridSum_far (m + -1) (-1) (Or.inr rfl) (by omega)
  have := abs_half_add_le _ _ 4 4 h1 h2
  linarith


theorem binValue_abs (factor : ℝ) (hf : 0 ≤ factor) (k j : ℕ) :
    Complex.abs (binValue factor k j)
      = factor / 4 * Complex.abs (leak ((k : ℤ) - j) - leak (-(k : ℤ) - j)) := by
  unfold binValue
  rw [bin_eq_leak, map_mul, map_neg_eq_map, map_div₀, map_mul, Complex.abs_ofReal,
    Complex.abs_I, abs_of_nonneg hf, mul_one]
  have : Complex.abs (4 : ℂ) = 4 := by
    rw [show (4 : ℂ) = ((4 : ℝ) : ℂ) by norm_num, Complex.abs_ofReal]
    norm_num
  rw [this]

theorem binValue_peak (factor : ℝ) (hf : 0 ≤ factor) (k : ℕ) (h1 : 2 ≤ k) (h2 : k ≤ 510) :
    factor / 4 * 1016 ≤ Complex.abs (binValue factor k k) := by
  rw [binValue_abs factor hf]
  have e : (k : ℤ) - k = 0 := sub_self _
  rw [e]
  have hc := leak_centre
  have hfar := leak_far (-(k : ℤ) - k) (Or.inr (by omega))
  have := abs_sub_ge (leak 0) (leak (-(k : ℤ) - k))
  apply mul_le_mul_of_nonneg_left _ (by positivity)
  linarith

theorem binValue_side (factor : ℝ) (hf : 0 ≤ factor) (k j : ℕ) (h1 : 2 ≤ k) (h2 : k ≤ 510)
    (hj : j = k + 1 ∨ j + 1 = k) :
    factor / 4 * 505 ≤ Complex.abs (binValue factor k j)
    ∧ Complex.abs (binValue factor k j) ≤ factor / 4 * 518 := by
  rw [binValue_abs factor hf]
  have hs := leak_side ((k : ℤ) - j) (by omega)
  have hfar := leak_far (-(k : ℤ) - j) (Or.inr (by omega))
  have hlo := abs_sub_ge (leak ((k : ℤ) - j)) (leak (-(k : ℤ) - j))
  have hhi := abs_sub_le_add (leak ((k : ℤ) - j)) (leak (-(k : ℤ) - j))
  have h4 : 0 ≤ factor / 4 := by positivity
  exact ⟨mul_le_mul_of_nonneg_left (by linarith [hs.1]) h4,
    mul_le_mul_of_nonneg_left (by linarith [hs.2]) h4⟩

theorem binValue_far (factor : ℝ) (hf : 0 ≤ factor) (k j : ℕ) (h1 : 2 ≤ k) (h2 : k ≤ 510)
    (hj : j < 512) (hd : j + 2 ≤ k ∨ k + 2 ≤ j) :
    Complex.abs (binValue factor k j) ≤ factor / 4 * 8 := by
  rw [binValue_abs factor hf]
  have hs := leak_far ((k : ℤ) - j) (by omega)
  have hfar := leak_far (-(k : ℤ) - j) (Or.inr (by omega))
  have hhi := abs_sub_le_add (leak ((k : ℤ) - j)) (leak (-(k : ℤ) - j))
  exact mul_le_mul_of_nonneg_left (by linarith) (by positivity)

/-- Real and imaginary part of a transform bin of a real sequence. -/
theorem bin_re (a : ℕ → ℝ) (j : ℕ) :
    (∑ n ∈ Finset.range 1024,
      ((a n : ℝ) : ℂ) * Complex.exp (((-(2 * Real.pi * j * n / 1024) : ℝ) : ℂ) * Complex.I)).re
      = ∑ n ∈ Finset.range 1024, a n * Real.cos (2 * Real.pi * j * n / 1024) := by
  rw [Complex.re_sum]
  apply Finset.sum_congr rfl
  intro n _
  rw [Complex.re_ofReal_mul, Complex.exp_ofReal_mul_I_re, Real.cos_neg]

theorem bin_im (a : ℕ → ℝ) (j : ℕ) :
    (∑ n ∈ Finset.range 1024,
      ((a n : ℝ) : ℂ) * Complex.exp (((-(2 * Real.pi * j * n / 1024) : ℝ) : ℂ) * Complex.I)).im
      = -∑ n ∈ Finset.range 1024, a n * Real.sin (2 * Real.pi * j * n / 1024) := by
  rw [Complex.im_sum, ← Finset.sum_neg_distrib]
  apply Finset.sum_congr rfl
  intro n _
  rw [Complex.im_ofReal_mul, Complex.exp_ofReal_mul_I_im, Real.sin_neg, mul_neg]

theorem sqrt_re_im (z : ℂ) : Real.sqrt (z.re * z.re + z.im * z.im) = Complex.abs z := by
  rw [Complex.abs_apply, Complex.normSq_apply]

end Spectrum

/-! ## A sinusoid at the exact frequency of a bin -/

section SinusoidPeak

theorem fftSize_cast : ((fftSize : Nat) : ℝ) = 1024 := by
  rw [fftSize_eq]
  norm_num

theorem hannTable_eq (factor : ℝ) (n : Nat) :
    hannTable factor n = factor * (1 / 2 - 1 / 2 * Real.cos (2 * Real.pi * n / 1023)) := by
  unfold hannTable
  rw [fftSize_cast]
  norm_num

theorem forwardTransform_re (a : Nat → ℝ) (j : Nat) (hj : j < fftSize) :
    forwardTransform a (j * 2)
      = ∑ n ∈ Finset.range 1024, a n * Real.cos (2 * Real.pi * j * n / 1024) := by
  have h1 : j * 2 < 2 * fftSize := by omega
  have h2 : j * 2 % 2 = 0 := by omega
  have h3 : j * 2 / 2 = j := by omega
  unfold forwardTransform
  rw [if_pos h1, if_pos h2, h3, fftSize_cast, fftSize_eq]

theorem forwardTransform_im (a : Nat → ℝ) (j : Nat) (hj : j < fftSize) :
    forwardTransform a (j * 2 + 1)
      = -∑ n ∈ Finset.range 1024, a n * Real.sin (2 * Real.pi * j * n / 1024) := by
  have h1 : j * 2 + 1 < 2 * fftSize := by omega
  have h2 : ¬ (j * 2 + 1) % 2 = 0 := by omega
  have h3 : (j * 2 + 1) / 2 = j := by omega
  unfold forwardTransform
  rw [if_pos h1, if_neg h2, h3, fftSize_cast, fftSize_eq]

/-- A band at 0 dB whose denominator `a0` is not 0 passes every input through,
from a zeroed delay line. -/
theorem flatBand_identity (band : BandParameters ℝ) (fs : ℝ) (h : FlatBand band fs)
    (xs : List ℝ) :
    (processChannel (bandCoefficients realMath band fs) DelayLine.zero xs).1 = xs := by
  obtain ⟨hg, ha0⟩ := h
  rw [hg, decibelsToGain_zero] at ha0
  have hA0 : peakA0 realMath fs band.freq band.q 1
      = 1 + peakAlpha realMath fs band.freq band.q := by
    show 1 + peakAlpha realMath fs band.freq band.q / peakA realMath 1 = _
    rw [peakA_one, div_one]
  have hc : bandCoefficients realMath band fs
      = makePeakFilter realMath fs band.freq band.q 1 := by
    show makePeakFilter realMath fs band.freq band.q (decibelsToGain realMath band.gain (-60))
      = _
    rw [hg, decibelsToGain_zero]
  rw [hc]
  apply processChannel_identity
  · show (1 + peakAlpha realMath fs band.freq band.q * peakA realMath 1)
        / peakA0 realMath fs band.freq band.q 1 = 1
    rw [peakA_one, mul_one, ← hA0]
    exact div_self ha0
  · rfl
  · show (1 - peakAlpha realMath fs band.freq band.q * peakA realMath 1)
        / peakA0 realMath fs band.freq band.q 1
      = (1 - peakAlpha realMath fs band.freq band.q / peakA realMath 1)
        / peakA0 realMath fs band.freq band.q 1
    rw [peakA_one, mul_one, div_one]
  · rfl
  · rfl

/-- Below Nyquist, with positive frequency and Q, a band at 0 dB is flat. -/
theorem flatBand_of_below_nyquist (band : BandParameters ℝ) (fs : ℝ) (hg : band.gain = 0)
    (hfs : 0 < fs) (hf : 0 < band.freq) (hny : band.freq < fs / 2) (hq : 0 < band.q) :
    FlatBand band fs :=
  ⟨hg, ne_of_gt (lt_trans one_pos
    (peakA0_gt_one fs band.freq band.q _ hfs hf hny hq (decibelsToGain_pos _ _)))⟩

/-- After `prepareToPlay` with three flat bands, channel 0 reaches the analyser
as it enters. -/
theorem postFilterLeft_flat (s0 : Processor ℝ) (fs : ℝ) (samplesPerBlock : Nat)
    (h1 : FlatBand s0.band1 fs) (h2 : FlatBand s0.band2 fs) (h3 : FlatBand s0.band3 fs)
    (left : List ℝ) :
    postFilterLeft realMath (prepareToPlay realMath s0 fs samplesPerBlock) left = left := by
  show (processChannel (bandCoefficients realMath s0.band3 fs) DelayLine.zero
    (processChannel (bandCoefficients realMath s0.band2 fs) DelayLine.zero
      (processChannel (bandCoefficients realMath s0.band1 fs) DelayLine.zero left).1).1).1
    = left
  rw [flatBand_identity _ _ h1, flatBand_identity _ _ h2, flatBand_identity _ _ h3]

/-- The window that reaches line 99 when a block of `fftSize` frames is
processed right after `prepareToPlay`: the post-filter channel 0 of the block. -/
theorem windowedValues_prepared (lib : Library ℝ) (s0 : Processor ℝ) (fs : ℝ)
    (samplesPerBlock : Nat) (buffer : List (ℝ × ℝ)) (hlen : buffer.length = fftSize)
    (n : Nat) :
    windowedValues (filterBlock lib.math (prepareToPlay lib.math s0 fs samplesPerBlock) buffer).1
        ((filterBlock lib.math (prepareToPlay lib.math s0 fs samplesPerBlock)
          buffer).2.map Prod.fst) n
      = if n < fftSize then
          (postFilterLeft lib.math (prepareToPlay lib.math s0 fs samplesPerBlock)
            (buffer.map Prod.fst)).getD n 0
        else 0 := by
  have hl : (filterBlock lib.math (prepareToPlay lib.math s0 fs samplesPerBlock)
      buffer).2.map Prod.fst
      = postFilterLeft lib.math (prepareToPlay lib.math s0 fs samplesPerBlock)
          (buffer.map Prod.fst) :=
    process_left (updateFilterChain lib.math
      (prepareToPlay lib.math s0 fs samplesPerBlock)).filterChain buffer
  have hlen2 : (postFilterLeft lib.math (prepareToPlay lib.math s0 fs samplesPerBlock)
      (buffer.map Prod.fst)).length = fftSize := by
    rw [← hl, List.length_map, filterBlock_length, hlen]
  have hc : (filterBlock lib.math (prepareToPlay lib.math s0 fs samplesPerBlock)
      buffer).1.fifoIndex = 0 := rfl
  have hf : (filterBlock lib.math (prepareToPlay lib.math s0 fs samplesPerBlock)
      buffer).1.fifo n = 0 := rfl
  rw [windowedValues_eq, hl, pushSamples_fifo_nowrap 0 _ _ (by rw [hc, hlen2, Nat.zero_add]),
    hc, hlen2, Nat.zero_add, Nat.sub_zero, hf]
  by_cases hn : n < fftSize
  · rw [if_pos ⟨Nat.zero_le n, hn⟩, if_pos hn]
  · rw [if_neg (fun h => hn h.2), if_neg hn]

theorem sinusoidBlock_length (k : Nat) (right : Nat → ℝ) :
    (sinusoidBlock k right).length = fftSize := by
  unfold sinusoidBlock
  rw [List.length_map, List.length_range]

theorem sinusoidBlock_left (k : Nat) (right : Nat → ℝ) (n : Nat) (hn : n < fftSize) :
    ((sinusoidBlock k right).map Prod.fst).getD n 0
      = Real.sin (2 * Real.pi * k * n / 1024) := by
  unfold sinusoidBlock
  rw [List.map_map, List.getD_eq_getElem?_getD, List.getElem?_map, List.getElem?_range hn,
    fftSize_cast]
  rfl

theorem sinusoidBlock_runs (factor : ℝ) (s0 : Processor ℝ) (fs : ℝ) (samplesPerBlock : Nat)
    (k : Nat) (right : Nat → ℝ) :
    transformRuns (realLibrary factor) (prepareToPlay realMath s0 fs samplesPerBlock)
      (sinusoidBlock k right) = true := by
  rw [transformRuns_eq (realLibrary factor) _ _ (prepareToPlay_inv realMath s0 fs samplesPerBlock),
    sinusoidBlock_length]
  exact decide_eq_true (Nat.le_add_left _ _)

/-- The array handed to the forward transform for the sinusoid block. -/
theorem sinusoid_transformInput (factor : ℝ) (s0 : Processor ℝ) (fs : ℝ)
    (samplesPerBlock : Nat) (h1 : FlatBand s0.band1 fs) (h2 : FlatBand s0.band2 fs)
    (h3 : FlatBand s0.band3 fs) (k : Nat) (right : Nat → ℝ) (n : Nat) (hn : n < 1024) :
    transformInput (multiplyWithWindowingTable (realLibrary factor)
      (windowedValues
        (filterBlock realMath (prepareToPlay realMath s0 fs samplesPerBlock)
          (sinusoidBlock k right)).1
        ((filterBlock realMath (prepareToPlay realMath s0 fs samplesPerBlock)
          (sinusoidBlock k right)).2.map Prod.fst)) fftSize) n
      = factor * (1 / 2 - 1 / 2 * Real.cos (2 * Real.pi * n / 1023))
          * Real.sin (2 * Real.pi * k * n / 1024) := by
  have hn' : n < fftSize := by rw [fftSize_eq]; exact hn
  have hw := windowedValues_prepared (realLibrary factor) s0 fs samplesPerBlock
    (sinusoidBlock k right) (sinusoidBlock_length k right) n
  rw [if_pos hn'] at hw
  have hw2 : windowedValues
      (filterBlock realMath (prepareToPlay realMath s0 fs samplesPerBlock)
        (sinusoidBlock k right)).1
      ((filterBlock realMath (prepareToPlay realMath s0 fs samplesPerBlock)
        (sinusoidBlock k right)).2.map Prod.fst) n
      = Real.sin (2 * Real.pi * k * n / 1024) := by
    rw [← sinusoidBlock_left k right n hn',
      ← postFilterLeft_flat s0 fs samplesPerBlock h1 h2 h3 ((sinusoidBlock k right).map Prod.fst)]
    exact hw
  unfold transformInput multiplyWithWindowingTable
  rw [if_pos hn', if_pos hn', hw2]
  show Real.sin (2 * Real.pi * k * n / 1024) * hannTable factor n = _
  rw [hannTable_eq, mul_comm]

/-- The snapshot of the sinusoid block: bin `j` holds the decibel value of the
modulus of bin `j` of the transform of the windowed sinusoid. -/
theorem sinusoid_scopeData (factor : ℝ) (s0 : Processor ℝ) (fs : ℝ)
    (samplesPerBlock : Nat) (h1 : FlatBand s0.band1 fs) (h2 : FlatBand s0.band2 fs)
    (h3 : FlatBand s0.band3 fs) (k : Nat) (right : Nat → ℝ) (j : Nat)
    (hj : j < fftSize / 2) :
    (processBlock (realLibrary factor) (prepareToPlay realMath s0 fs samplesPerBlock)
      (sinusoidBlock k right)).1.scopeData j
      = gainToDecibels (realLibrary factor) (Complex.abs (binValue factor k j)) := by
  have hrun := sinusoidBlock_runs factor s0 fs samplesPerBlock k right
  have hj' : j < fftSize := by rw [half_fftSize] at hj; rw [fftSize_eq]; omega
  have hfft : (processBlock (realLibrary factor)
      (prepareToPlay realMath s0 fs samplesPerBlock) (sinusoidBlock k right)).1.fftData
      = forwardTransform
          (transformInput (multiplyWithWindowingTable (realLibrary factor)
            (windowedValues
              (filterBlock realMath (prepareToPlay realMath s0 fs samplesPerBlock)
                (sinusoidBlock k right)).1
              ((filterBlock realMath (prepareToPlay realMath s0 fs samplesPerBlock)
                (sinusoidBlock k right)).2.map Prod.fst)) fftSize)) :=
    processBlock_fftData_of_runs _ _ _ hrun
  have hre : (processBlock (realLibrary factor)
      (prepareToPlay realMath s0 fs samplesPerBlock) (sinusoidBlock k right)).1.fftData (j * 2)
      = (binValue factor k j).re := by
    rw [hfft, forwardTransform_re _ j hj']
    unfold binValue
    rw [bin_re]
    apply Finset.sum_congr rfl
    intro n hn
    rw [sinusoid_transformInput factor s0 fs samplesPerBlock h1 h2 h3 k right n
      (Finset.mem_range.mp hn)]
  have him : (processBlock (realLibrary factor)
      (prepareToPlay realMath s0 fs samplesPerBlock) (sinusoidBlock k right)).1.fftData
        (j * 2 + 1)
      = (binValue factor k j).im := by
    rw [hfft, forwardTransform_im _ j hj']
    unfold binValue
    rw [bin_im, neg_inj]
    apply Finset.sum_congr rfl
    intro n hn
    rw [sinusoid_transformInput factor s0 fs samplesPerBlock h1 h2 h3 k right n
      (Finset.mem_range.mp hn)]
  have hsqrt : (realLibrary factor).math.sqrt
      ((binValue factor k j).re * (binValue factor k j).re
        + (binValue factor k j).im * (binValue factor k j).im)
      = Complex.abs (binValue factor k j) := sqrt_re_im _
  rw [processBlock_scopeData_of_runs _ _ _ hrun j hj, hre, him, hsqrt]

/-- The decibel conversion is strictly increasing towards magnitudes of at
least 1. -/
theorem gainToDecibels_lt (factor x y : ℝ) (hxy : x < y) (hy : 1 ≤ y) :
    gainToDecibels (realLibrary factor) x < gainToDecibels (realLibrary factor) y := by
  have hy0 : 0 < y := by linarith
  have hlogy : 0 ≤ Real.logb 10 y := Real.logb_nonneg (by norm_num) hy
  have hGy : gainToDecibels (realLibrary factor) y = max (-100) (20 * Real.logb 10 y) := by
    unfold gainToDecibels
    rw [if_pos hy0]
    rfl
  have hle : 20 * Real.logb 10 y ≤ max (-100) (20 * Real.logb 10 y) := le_max_right _ _
  rw [hGy]
  by_cases hx : 0 < x
  · have hGx : gainToDecibels (realLibrary factor) x = max (-100) (20 * Real.logb 10 x) := by
      unfold gainToDecibels
      rw [if_pos hx]
      rfl
    have hlt := Real.logb_lt_logb (by norm_num : (1 : ℝ) < 10) hx hxy
    rw [hGx, max_lt_iff]
    exact ⟨by linarith, by linarith⟩
  · have hGx : gainToDecibels (realLibrary factor) x = -100 := by
      unfold gainToDecibels
      rw [if_neg hx]
      rfl
    rw [hGx]
    linarith

end SinusoidPeak

/-! ## Claims about the spectrum of a sinusoid -/

section SinusoidClaims

/-- A section whose five coefficients are 0 puts out zeros. -/
theorem processChannel_zero (c : Coefficients ℝ) (h0 : c.b0 = 0) (h1 : c.b1 = 0)
    (h2 : c.b2 = 0) (h3 : c.a1 = 0) (h4 : c.a2 = 0) (xs : List ℝ) (d : DelayLine ℝ)
    (n : Nat) : (processChannel c d xs).1.getD n 0 = 0 := by
  induction xs generalizing d n with
  | nil => rfl
  | cons x xs ih =>
    rw [processChannel_cons]
    cases n with
    | zero =>
      show (processSample c d x).1 = 0
      simp only [processSample, h0, h1, h2, h3, h4]
      ring
    | succ n => exact ih _ n

/-- At 16 kHz the in-range triple 12 kHz, 0 dB, Q = 0.5 has `a0 = 0`. -/
theorem peakA0_degenerate :
    peakA0 realMath 16000 12000 (1 / 2) (decibelsToGain realMath 0 (-60)) = 0 := by
  have hw : peakOmega realMath 16000 12000 = Real.pi / 2 + Real.pi := by
    rw [peakOmega_real]
    ring
  have hsin : Real.sin (peakOmega realMath 16000 12000) = -1 := by
    rw [hw, Real.sin_add_pi, Real.sin_pi_div_two]
  show 1 + Real.sin (peakOmega realMath 16000 12000) / (2 * (1 / 2))
      / peakA realMath (decibelsToGain realMath 0 (-60)) = 0
  rw [hsin, decibelsToGain_zero, peakA_one]
  norm_num

/-- When the window that is transformed holds only zeros, every bin of the
snapshot is at the floor. -/
theorem scopeData_zero_window (factor : ℝ) (s : Processor ℝ) (buffer : List (ℝ × ℝ))
    (hrun : transformRuns (realLibrary factor) s buffer = true)
    (hzero : ∀ n, n < fftSize →
      windowedValues (filterBlock realMath s buffer).1
        ((filterBlock realMath s buffer).2.map Prod.fst) n = 0)
    (j : Nat) (hj : j < fftSize / 2) :
    (processBlock (realLibrary factor) s buffer).1.scopeData j = -100 := by
  have hj' : j < fftSize := by rw [half_fftSize] at hj; rw [fftSize_eq]; omega
  have hin : transformInput (multiplyWithWindowingTable (realLibrary factor)
      (windowedValues (filterBlock realMath s buffer).1
        ((filterBlock realMath s buffer).2.map Prod.fst)) fftSize) = fun _ => 0 := by
    funext n
    unfold transformInput multiplyWithWindowingTable
    by_cases hn : n < fftSize
    · simp only [hn, if_true]
      rw [hzero n hn, zero_mul]
    · simp only [hn, if_false]
  have hfft : (processBlock (realLibrary factor) s buffer).1.fftData
      = forwardTransform (fun _ => 0) := by
    rw [← hin]
    exact processBlock_fftData_of_runs _ _ _ hrun
  have hre : (processBlock (realLibrary factor) s buffer).1.fftData (j * 2) = 0 := by
    rw [hfft, forwardTransform_re _ j hj']
    simp only [zero_mul, Finset.sum_const_zero]
  have him : (processBlock (realLibrary factor) s buffer).1.fftData (j * 2 + 1) = 0 := by
    rw [hfft, forwardTransform_im _ j hj']
    simp only [zero_mul, Finset.sum_const_zero, neg_zero]
  have hsqrt : (realLibrary factor).math.sqrt (0 * 0 + 0 * 0) = 0 := by
    show Real.sqrt (0 * 0 + 0 * 0) = 0
    rw [mul_zero, add_zero, Real.sqrt_zero]
  rw [processBlock_scopeData_of_runs _ _ _ hrun j hj, hre, him, hsqrt]
  unfold gainToDecibels
  rw [if_neg (lt_irrefl 0)]
  rfl

/-- C13 as stated fails: at a sample rate of 16 kHz, with all three bands at
0 dB and band 3 at 12 kHz with Q = 0.5 (both inside the declared ranges), the
design of band 3 has `a0 = 0`, its five coefficients are 0, the post-filter
signal is zero, and the snapshot of the sinusoid at bin 2 holds the floor value
-100 in bin 0 as in bin 2: bin 2 is not strictly the largest. -/
theorem C13_no_peak_when_design_degenerates :
    (0 : ℝ) < 16000 ∧ InFreqRange (12000 : ℝ) ∧ InQRange (1 / 2 : ℝ)
    ∧ (processBlock (realLibrary 1)
        (prepareToPlay realMath
          { realProcessor with band3 := { freq := 12000, gain := 0, q := 1 / 2 } } 16000 1024)
        (sinusoidBlock 2 (fun _ => 0))).1.scopeData 0 = -100
    ∧ (processBlock (realLibrary 1)
        (prepareToPlay realMath
          { realProcessor with band3 := { freq := 12000, gain := 0, q := 1 / 2 } } 16000 1024)
        (sinusoidBlock 2 (fun _ => 0))).1.scopeData 2 = -100
    ∧ ¬ ((processBlock (realLibrary 1)
        (prepareToPlay realMath
          { realProcessor with band3 := { freq := 12000, gain := 0, q := 1 / 2 } } 16000 1024)
        (sinusoidBlock 2 (fun _ => 0))).1.scopeData 0
      < (processBlock (realLibrary 1)
        (prepareToPlay realMath
          { realProcessor with band3 := { freq := 12000, gain := 0, q := 1 / 2 } } 16000 1024)
        (sinusoidBlock 2 (fun _ => 0))).1.scopeData 2) := by
  have hrun := sinusoidBlock_runs 1
    { realProcessor with band3 := { freq := 12000, gain := 0, q := 1 / 2 } } 16000 1024 2
    (fun _ => 0)
  have hzero : ∀ n, n < fftSize →
      windowedValues
        (filterBlock realMath (prepareToPlay realMath
          { realProcessor with band3 := { freq := 12000, gain := 0, q := 1 / 2 } } 16000 1024)
          (sinusoidBlock 2 (fun _ => 0))).1
        ((filterBlock realMath (prepareToPlay realMath
          { realProcessor with band3 := { freq := 12000, gain := 0, q := 1 / 2 } } 16000 1024)
          (sinusoidBlock 2 (fun _ => 0))).2.map Prod.fst) n = 0 := by
    intro n hn
    have hw := windowedValues_prepared (realLibrary 1)
      { realProcessor with band3 := { freq := 12000, gain := 0, q := 1 / 2 } } 16000 1024
      (sinusoidBlock 2 (fun _ => 0)) (sinusoidBlock_length 2 _) n
    rw [if_pos hn] at hw
    refine hw.trans ?_
    have h0 := peakA0_degenerate
    apply processChannel_zero
    · show _ / peakA0 realMath 16000 12000 (1 / 2) (decibelsToGain realMath 0 (-60)) = 0
      rw [h0, div_zero]
    · show _ / peakA0 realMath 16000 12000 (1 / 2) (decibelsToGain realMath 0 (-60)) = 0
      rw [h0, div_zero]
    · show _ / peakA0 realMath 16000 12000 (1 / 2) (decibelsToGain realMath 0 (-60)) = 0
      rw [h0, div_zero]
    · show _ / peakA0 realMath 16000 12000 (1 / 2) (decibelsToGain realMath 0 (-60)) = 0
      rw [h0, div_zero]
    · show _ / peakA0 realMath 16000 12000 (1 / 2) (decibelsToGain realMath 0 (-60)) = 0
      rw [h0, div_zero]
  have e0 := scopeData_zero_window 1 _ _ hrun hzero 0 (by rw [half_fftSize]; omega)
  have e2 := scopeData_zero_window 1 _ _ hrun hzero 2 (by rw [half_fftSize]; omega)
  refine ⟨by norm_num, ⟨by norm_num, by norm_num⟩, ⟨by norm_num, by norm_num⟩, e0, e2, ?_⟩
  rw [e0, e2]
  exact lt_irrefl _

/-- C13 (amended): from a freshly prepared state with all three bands at 0 dB
and none of the three designs dividing by zero (`a0 ≠ 0`, which holds whenever
the band's frequency is below Nyquist), with the Hann table scaled by a factor
of at least 1 and the unnormalised forward transform, one block of 1024 frames
whose channel 0 is `sin (2 pi k n / 1024)`, `2 ≤ k ≤ 510`, publishes a snapshot
whose value at bin `k` is strictly larger than at every other bin below 512,
and every bin `j` with `|j - k| ≥ 2` is lower than bins `k - 1`, `k`, `k + 1`. -/
theorem C13_sinusoid_peak (factor : ℝ) (hfactor : 1 ≤ factor) (s0 : Processor ℝ) (fs : ℝ)
    (samplesPerBlock : Nat) (h1 : FlatBand s0.band1 fs) (h2 : FlatBand s0.band2 fs)
    (h3 : FlatBand s0.band3 fs) (k : Nat) (hk : 2 ≤ k) (hk' : k ≤ fftSize / 2 - 2)
    (right : Nat → ℝ) :
    (processBlock (realLibrary factor) (prepareToPlay realMath s0 fs samplesPerBlock)
      (sinusoidBlock k right)).1.newDataReady = true
    ∧ (∀ j, j < fftSize / 2 → j ≠ k →
        (processBlock (realLibrary factor) (prepareToPlay realMath s0 fs samplesPerBlock)
          (sinusoidBlock k right)).1.scopeData j
        < (processBlock (realLibrary factor) (prepareToPlay realMath s0 fs samplesPerBlock)
          (sinusoidBlock k right)).1.scopeData k)
    ∧ (∀ j, j < fftSize / 2 → (j + 2 ≤ k ∨ k + 2 ≤ j) →
        (processBlock (realLibrary factor) (prepareToPlay realMath s0 fs samplesPerBlock)
          (sinusoidBlock k right)).1.scopeData j
        < (processBlock (realLibrary factor) (prepareToPlay realMath s0 fs samplesPerBlock)
          (sinusoidBlock k right)).1.scopeData (k - 1)
        ∧ (processBlock (realLibrary factor) (prepareToPlay realMath s0 fs samplesPerBlock)
          (sinusoidBlock k right)).1.scopeData j
        < (processBlock (realLibrary factor) (prepareToPlay realMath s0 fs samplesPerBlock)
          (sinusoidBlock k right)).1.scopeData k
        ∧ (processBlock (realLibrary factor) (prepareToPlay realMath s0 fs samplesPerBlock)
          (sinusoidBlock k right)).1.scopeData j
        < (processBlock (realLibrary factor) (prepareToPlay realMath s0 fs samplesPerBlock)
          (sinusoidBlock k right)).1.scopeData (k + 1)) := by
  have hhalf := half_fftSize
  have hk510 : k ≤ 510 := by omega
  have hf0 : 0 ≤ factor := by linarith
  have hpeak := binValue_peak factor hf0 k hk hk510
  have hleft := binValue_side factor hf0 k (k - 1) hk hk510 (Or.inr (by omega))
  have hright := binValue_side factor hf0 k (k + 1) hk hk510 (Or.inl rfl)
  have sk := sinusoid_scopeData factor s0 fs samplesPerBlock h1 h2 h3 k right k (by omega)
  have sl := sinusoid_scopeData factor s0 fs samplesPerBlock h1 h2 h3 k right (k - 1)
    (by omega)
  have sr := sinusoid_scopeData factor s0 fs samplesPerBlock h1 h2 h3 k right (k + 1)
    (by omega)
  have hfar : ∀ j, j < fftSize / 2 → (j + 2 ≤ k ∨ k + 2 ≤ j) →
      Complex.abs (binValue factor k j) ≤ factor / 4 * 8 :=
    fun j hj hd => binValue_far factor hf0 k j hk hk510 (by omega) hd
  refine ⟨?_, ?_, ?_⟩
  · rw [processBlock_newDataReady, sinusoidBlock_runs, Bool.or_true]
  · intro j hj hne
    rw [sinusoid_scopeData factor s0 fs samplesPerBlock h1 h2 h3 k right j hj, sk]
    apply gainToDecibels_lt
    · by_cases hs : j = k + 1 ∨ j + 1 = k
      · have := binValue_side factor hf0 k j hk hk510 hs
        nlinarith [this.2]
      · have := hfar j hj (by omega)
        nlinarith
    · nlinarith
  · intro j hj hd
    rw [sinusoid_scopeData factor s0 fs samplesPerBlock h1 h2 h3 k right j hj, sk, sl, sr]
    have := hfar j hj hd
    refine ⟨gainToDecibels_lt _ _ _ ?_ ?_, gainToDecibels_lt _ _ _ ?_ ?_,
      gainToDecibels_lt _ _ _ ?_ ?_⟩
    · nlinarith [hleft.1]
    · nlinarith [hleft.1]
    · nlinarith
    · nlinarith
    · nlinarith [hright.1]
    · nlinarith [hright.1]

/-- Witness of amended C13: the default bands (200 Hz, 1 kHz, 5 kHz at 0 dB,
Q = 1) at 44.1 kHz, the plain Hann taper, the sinusoid at bin 2: bin 0 is lower
than bin 2. -/
theorem C13_sinusoid_peak_witness :
    (processBlock (realLibrary 1) (prepareToPlay realMath realProcessor 44100 1024)
      (sinusoidBlock 2 (fun _ => 0))).1.scopeData 0
    < (processBlock (realLibrary 1) (prepareToPlay realMath realProcessor 44100 1024)
      (sinusoidBlock 2 (fun _ => 0))).1.scopeData 2 :=
  (C13_sinusoid_peak 1 (le_refl 1) realProcessor 44100 1024
    (flatBand_of_below_nyquist _ _ rfl (by norm_num)
      (by show (0 : ℝ) < 200; norm_num) (by show (200 : ℝ) < 44100 / 2; norm_num)
      (by show (0 : ℝ) < 1; norm_num))
    (flatBand_of_below_nyquist _ _ rfl (by norm_num)
      (by show (0 : ℝ) < 1000; norm_num) (by show (1000 : ℝ) < 44100 / 2; norm_num)
      (by show (0 : ℝ) < 1; norm_num))
    (flatBand_of_below_nyquist _ _ rfl (by norm_num)
      (by show (0 : ℝ) < 5000; norm_num) (by show (5000 : ℝ) < 44100 / 2; norm_num)
      (by show (0 : ℝ) < 1; norm_num))
    2 (le_refl 2) (by rw [half_fftSize]; decide) (fun _ => 0)).2.1 0
    (by rw [half_fftSize]; exact Nat.zero_lt_succ 511) (by decide)

end SinusoidClaims

/-! ## Claims about the window multiplied in place and about re-preparation -/

section InPlaceWindow
variable {K : Type} [LinearOrderedField K]

/-- When the flag is up the conditional leaves the windowed samples in the fifo. -/
theorem produceSnapshot_fifo (lib : Library K) (s : Processor K)
    (h : s.nextFFTBlockReady = true) :
    (produceSnapshot lib s).fifo = multiplyWithWindowingTable lib s.fifo fftSize := by
  unfold produceSnapshot
  rw [if_pos h]

/-- The state between a block of 1124 frames and the next call, after
`prepareToPlay`: the cursor is at 100 and the fifo holds the windowed samples,
the first 100 places those pushed after the wrap. -/
theorem after_block_1124 (lib : Library K) (s : Processor K) (hc : s.fifoIndex = 0)
    (hf : s.nextFFTBlockReady = false) (b1 : List (K × K)) (h1 : b1.length = 1124) :
    transformRuns lib s b1 = true
    ∧ (processBlock lib s b1).1.fifoIndex = 100
    ∧ (∀ i, i < 100 → (processBlock lib s b1).1.fifo i
        = ((processBlock lib s b1).2.map Prod.fst).getD (1024 + i) 0 * lib.windowingTable i) := by
  have hinv : Inv s := ⟨by rw [hc, fftSize_eq]; decide, hf⟩
  have hrun : transformRuns lib s b1 = true := by
    rw [transformRuns_eq lib s b1 hinv, hc, h1, fftSize_eq]
    decide
  have hlen : ((filterBlock lib.math s b1).2.map Prod.fst).length = 1124 := by
    rw [List.length_map, filterBlock_length, h1]
  have hc1 : (filterBlock lib.math s b1).1.fifoIndex = 0 := hc
  have hflag : (pushSamples (filterBlock lib.math s b1).1
      ((filterBlock lib.math s b1).2.map Prod.fst)).nextFFTBlockReady = true := hrun
  have e : (processBlock lib s b1).1
      = produceSnapshot lib (pushSamples (filterBlock lib.math s b1).1
          ((filterBlock lib.math s b1).2.map Prod.fst)) := rfl
  refine ⟨hrun, ?_, ?_⟩
  · have h := step_fifoIndex lib s b1 hinv
    rw [hc, h1, fftSize_eq] at h
    exact h
  · intro i hi
    have hi' : i < fftSize := by rw [fftSize_eq]; omega
    rw [e, produceSnapshot_fifo lib _ hflag, processBlock_snd]
    unfold multiplyWithWindowingTable
    rw [if_pos hi', pushSamples_fifo 0 _ hc1 _ i hi', hlen]
    have hm : i < 1124 % fftSize := by rw [fftSize_eq]; omega
    have hd : 1124 / fftSize * fftSize + i = 1024 + i := by rw [fftSize_eq]
    rw [if_pos hm, hd]

/-- C21: after `prepareToPlay`, process a block of 1124 frames and then a block
of 924 frames.  The transform runs in both calls, and the array handed to the
second transform holds, at every position `i < 100`, the post-filter sample
`1024 + i` of the first block multiplied by the window value `w[i]` twice (once
at the end of the first call, where the multiplication is made in the fifo
itself, and once more in the second call); at the positions `100 ≤ i < 1024`
it holds the samples of the second block multiplied by `w[i]` once. -/
theorem C21_window_applied_twice (lib : Library K) (s0 : Processor K) (sampleRate : K)
    (samplesPerBlock : Nat) (b1 b2 : List (K × K)) (h1 : b1.length = 1124)
    (h2 : b2.length = 924) :
    ∃ in1 in2 : Nat → K,
      transformInputs lib (prepareToPlay lib.math s0 sampleRate samplesPerBlock)
        [.processBlock b1, .processBlock b2] = [in1, in2]
      ∧ (∀ i, i < 100 →
          in2 i = ((processBlock lib (prepareToPlay lib.math s0 sampleRate samplesPerBlock)
              b1).2.map Prod.fst).getD (1024 + i) 0
            * lib.windowingTable i * lib.windowingTable i)
      ∧ (∀ i, 100 ≤ i → i < 1024 →
          in2 i = ((processBlock lib
              (processBlock lib (prepareToPlay lib.math s0 sampleRate samplesPerBlock) b1).1
              b2).2.map Prod.fst).getD (i - 100) 0
            * lib.windowingTable i) := by
  obtain ⟨hrun1, hidx, hfifo⟩ := after_block_1124 lib
    (prepareToPlay lib.math s0 sampleRate samplesPerBlock) rfl rfl b1 h1
  have hinv1 : Inv (processBlock lib (prepareToPlay lib.math s0 sampleRate samplesPerBlock)
      b1).1 :=
    step_inv lib _ (.processBlock b1) (prepareToPlay_inv lib.math s0 sampleRate samplesPerBlock)
  have hrun2 : transformRuns lib
      (processBlock lib (prepareToPlay lib.math s0 sampleRate samplesPerBlock) b1).1 b2
      = true := by
    rw [transformRuns_eq lib _ b2 hinv1, hidx, h2, fftSize_eq]
    decide
  have hlen2 : ((filterBlock lib.math
      (processBlock lib (prepareToPlay lib.math s0 sampleRate samplesPerBlock) b1).1
      b2).2.map Prod.fst).length = 924 := by
    rw [List.length_map, filterBlock_length, h2]
  have hc2 : (filterBlock lib.math
      (processBlock lib (prepareToPlay lib.math s0 sampleRate samplesPerBlock) b1).1
      b2).1.fifoIndex = 100 := hidx
  have hpush : ∀ i, windowedValues (filterBlock lib.math
        (processBlock lib (prepareToPlay lib.math s0 sampleRate samplesPerBlock) b1).1 b2).1
        ((filterBlock lib.math
          (processBlock lib (prepareToPlay lib.math s0 sampleRate samplesPerBlock) b1).1
          b2).2.map Prod.fst) i
      = if 100 ≤ i ∧ i < 1024 then
          ((filterBlock lib.math
            (processBlock lib (prepareToPlay lib.math s0 sampleRate samplesPerBlock) b1).1
            b2).2.map Prod.fst).getD (i - 100) 0
        else (processBlock lib (prepareToPlay lib.math s0 sampleRate samplesPerBlock)
          b1).1.fifo i := by
    intro i
    rw [windowedValues_eq, pushSamples_fifo_nowrap 0 _ _
      (by rw [hc2, hlen2, fftSize_eq]), hc2, hlen2]
    rfl
  refine ⟨transformInput (multiplyWithWindowingTable lib
      (windowedValues
        (filterBlock lib.math (prepareToPlay lib.math s0 sampleRate samplesPerBlock) b1).1
        ((filterBlock lib.math (prepareToPlay lib.math s0 sampleRate samplesPerBlock)
          b1).2.map Prod.fst)) fftSize),
    transformInput (multiplyWithWindowingTable lib
      (windowedValues (filterBlock lib.math
        (processBlock lib (prepareToPlay lib.math s0 sampleRate samplesPerBlock) b1).1 b2).1
        ((filterBlock lib.math
          (processBlock lib (prepareToPlay lib.math s0 sampleRate samplesPerBlock) b1).1
          b2).2.map Prod.fst)) fftSize), ?_, ?_, ?_⟩
  · rw [transformInputs_processBlock, transformInputs_processBlock, hrun1]
    show _ ++ ((if transformRuns lib
        (processBlock lib (prepareToPlay lib.math s0 sampleRate samplesPerBlock) b1).1 b2
        then _ else _) ++ _) = _
    rw [hrun2]
    rfl
  · intro i hi
    have hi' : i < fftSize := by rw [fftSize_eq]; omega
    unfold transformInput multiplyWithWindowingTable
    rw [if_pos hi', if_pos hi', hpush i, if_neg (by omega), hfifo i hi]
  · intro i hlo hhi
    have hi' : i < fftSize := by rw [fftSize_eq]; omega
    unfold transformInput multiplyWithWindowingTable
    rw [if_pos hi', if_pos hi', hpush i, if_pos ⟨hlo, hhi⟩]
    rfl

/-- A section whose feed-forward part equals its feedback part passes its
input through, over any field, once the delay line holds equal input and
output history. -/
theorem processChannel_passes (c : Coefficients K) (h0 : c.b0 = 1) (h1 : c.b1 = c.a1)
    (h2 : c.b2 = c.a2) (xs : List K) (d : DelayLine K) (hd1 : d.x1 = d.y1)
    (hd2 : d.x2 = d.y2) : (processChannel c d xs).1 = xs := by
  induction xs generalizing d with
  | nil => rfl
  | cons x xs ih =>
    have hy : (processSample c d x).1 = x := by
      simp only [processSample, h0, h1, h2, hd1, hd2]
      ring
    have ht : (processChannel c (processSample c d x).2 xs).1 = xs := by
      apply ih
      · show x = (processSample c d x).1
        exact hy.symm
      · exact hd1
    rw [processChannel_cons]
    show (processSample c d x).1 :: (processChannel c (processSample c d x).2 xs).1 = x :: xs
    rw [hy, ht]

end InPlaceWindow

section InPlaceWindowWitness

/-- With the stand-in elementary functions every band design passes its input
through from a zeroed delay line. -/
theorem ratBand_passes (band : BandParameters ℚ) (fs : ℚ) (xs : List ℚ) :
    (processChannel (bandCoefficients ratMath band fs) DelayLine.zero xs).1 = xs := by
  apply processChannel_passes
  · simp [bandCoefficients, makePeakFilter, peakA0, peakAlpha, peakA, decibelsToGain, ratMath]
  · rfl
  · simp [bandCoefficients, makePeakFilter, peakA0, peakAlpha, peakA, decibelsToGain, ratMath]
  · rfl
  · rfl

/-- Witness of C21: the stand-in library whose window is the constant `1/2`,
the freshly prepared rational processor, and two blocks of 1124 and 924 frames
whose samples are all 1.  Position 0 of the second transform input is
`1 * 1/2 * 1/2 = 1/4`, not `1/2`. -/
theorem C21_window_applied_twice_witness :
    ∃ in1 in2 : Nat → ℚ,
      transformInputs halfLibrary (prepareToPlay ratMath ratProcessor 44100 512)
        [.processBlock (List.replicate 1124 (1, 1)),
         .processBlock (List.replicate 924 (1, 1))] = [in1, in2]
      ∧ in2 0 = 1 / 4 := by
  obtain ⟨in1, in2, h, hlow, _⟩ := C21_window_applied_twice halfLibrary ratProcessor 44100 512
    (List.replicate 1124 (1, 1)) (List.replicate 924 (1, 1)) (List.length_replicate _ _)
    (List.length_replicate _ _)
  refine ⟨in1, in2, h, ?_⟩
  have hx : (processBlock halfLibrary (prepareToPlay halfLibrary.math ratProcessor 44100 512)
      (List.replicate 1124 (1, 1))).2.map Prod.fst = List.replicate 1124 1 := by
    have hl := process_left
      (updateFilterChain ratMath (prepareToPlay ratMath ratProcessor 44100 512)).filterChain
      (List.replicate 1124 ((1 : ℚ), (1 : ℚ)))
    have hp : ∀ left : List ℚ,
        postFilterLeft ratMath (prepareToPlay ratMath ratProcessor 44100 512) left = left := by
      intro left
      show (processChannel (bandCoefficients ratMath ratProcessor.band3 44100) DelayLine.zero
        (processChannel (bandCoefficients ratMath ratProcessor.band2 44100) DelayLine.zero
          (processChannel (bandCoefficients ratMath ratProcessor.band1 44100) DelayLine.zero
            left).1).1).1 = left
      rw [ratBand_passes, ratBand_passes, ratBand_passes]
    have hl2 : (processBlock halfLibrary (prepareToPlay halfLibrary.math ratProcessor 44100 512)
        (List.replicate 1124 (1, 1))).2.map Prod.fst
        = postFilterLeft ratMath (prepareToPlay ratMath ratProcessor 44100 512)
            ((List.replicate 1124 ((1 : ℚ), (1 : ℚ))).map Prod.fst) := hl
    rw [hl2, hp, List.map_replicate]
  rw [hlow 0 (by decide), hx, List.getD_eq_getElem?_getD, List.getElem?_replicate]
  have hlt : 1024 + 0 < 1124 := by decide
  rw [if_pos hlt]
  show (1 : ℚ) * (1 / 2) * (1 / 2) = 1 / 4
  norm_num

end InPlaceWindowWitness

section Reprepare
variable {K : Type} [LinearOrderedField K]

/-- C22: `prepareToPlay` leaves the published snapshot untouched: for every prior
state the snapshot array and the ready flag are the same after the call as
before it.  So the editor's next timer callback after a re-prepare repaints
exactly when the flag was up before the re-prepare, and the array it then
paints is the one from before; in particular, when the state before the
re-prepare is the one left by a `processBlock` call, the callback repaints if
that call (or an earlier one not yet polled) published, whatever the new sample
rate is. -/
theorem C22_prepare_keeps_snapshot (lib : Library K) (s : Processor K)
    (sampleRate : K) (samplesPerBlock : Nat) (buffer : List (K × K)) :
    (prepareToPlay lib.math s sampleRate samplesPerBlock).scopeData = s.scopeData
    ∧ (prepareToPlay lib.math s sampleRate samplesPerBlock).newDataReady = s.newDataReady
    ∧ (timerCallback (prepareToPlay lib.math s sampleRate samplesPerBlock)).1 = s.newDataReady
    ∧ (timerCallback (prepareToPlay lib.math s sampleRate samplesPerBlock)).2.scopeData
        = s.scopeData
    ∧ (timerCallback (prepareToPlay lib.math (processBlock lib s buffer).1 sampleRate
        samplesPerBlock)).1 = (s.newDataReady || transformRuns lib s buffer)
    ∧ (timerCallback (prepareToPlay lib.math (processBlock lib s buffer).1 sampleRate
        samplesPerBlock)).2.scopeData = (processBlock lib s buffer).1.scopeData := by
  refine ⟨rfl, rfl, rfl, rfl, ?_, rfl⟩
  show (processBlock lib s buffer).1.newDataReady = _
  exact processBlock_newDataReady lib s buffer

end Reprepare

end SpectralEQ
